import Mathlib

/-!
# Verification of `big_integer` (src/bigint/big_integer.{h,cpp})

A shallow embedding of the arbitrary-precision signed integer of the repository.

* A `std::vector<uint32_t>` is a `List Nat` (index 0 = least significant word); the
  predicate `Words` says that every element is a 32-bit word.
* A `std::string` is a `List Char`.
* Machine arithmetic is arithmetic on `Nat` reduced explicitly with `u32` / `u64`
  (the signed 64-bit temporaries of the subtraction loop are integers: they stay within
  `(-2^33, 2^33)`).
* A counted `for` loop is a structural recursion on its iteration count and carries the
  loop index; a `while` loop whose iteration count is not fixed by a counter takes a
  `fuel` argument and reports `diverges` when the fuel is used up.
* A member function that mutates the receiver returns the new receiver.
* Reads `v[i]` are `List.getD v i 0`, writes `v[i] = x` are `List.set v i x`.
-/

/-- The constant `static const uint64_t base = 4294967296` of `big_integer`. -/
def base : Nat := 4294967296

/-- Reduction to `uint32_t`. -/
def u32 (x : Nat) : Nat := x % 2 ^ 32

/-- Reduction to `uint64_t`. -/
def u64 (x : Nat) : Nat := x % 2 ^ 64

/-- Conversion of a mathematical integer to `uint32_t` (used for `res._data[i] = value`
with `value` an `int64_t`). -/
def u32OfInt (x : Int) : Nat := (x % 2 ^ 32).toNat

/-- The exceptions thrown by the library. -/
inductive Error where
  | invalid_argument
  | runtime_error
deriving DecidableEq, Repr

/-- How a call leaves: by returning, by throwing, or not at all within the fuel given. -/
inductive Outcome (α : Type) where
  | ok (a : α)
  | throws (e : Error)
  | diverges
deriving DecidableEq, Repr

/-- The data members of `struct big_integer`: `_data` (little-endian words) and `_sign`
(`true` = negative). -/
structure big_integer where
  _data : List Nat
  _sign : Bool
deriving DecidableEq, Repr

/-- `std::lexicographical_compare` with `operator<` on words. -/
def lexicographical_compare : List Nat → List Nat → Bool
  | _, [] => false
  | [], _ :: _ => true
  | a :: as, b :: bs =>
    if a < b then true
    else if b < a then false
    else lexicographical_compare as bs

/-- The loop of `std::from_chars` for an unsigned 32-bit target in base 10, modelled from the
C++ standard: the longest prefix of decimal digits is consumed (no sign, no white space);
the result is the number of characters consumed (the offset of the returned `ptr`) and the
value stored (the old `value` when nothing matched or the digits do not fit the type). -/
def from_chars (s : List Char) (value : Nat) : Nat × Nat :=
  let ds := s.takeWhile Char.isDigit
  if ds.isEmpty then (0, value)
  else
    let v := ds.foldl (fun acc c => acc * 10 + (c.toNat - 48)) 0
    if v < 2 ^ 32 then (ds.length, v) else (ds.length, value)

namespace big_integer

/-- `big_integer::big_integer()`. -/
def mk0 : big_integer := ⟨[], false⟩

/-- `big_integer::trim`: pop the last word while it is zero. -/
def trim (x : big_integer) : big_integer :=
  { x with _data := x._data.rdropWhile (fun w => w == 0) }

/-- `big_integer::isZero`. -/
def isZero (x : big_integer) : Bool := x._data.isEmpty

/-- `big_integer::zeroResult`. -/
def zeroResult (x : big_integer) : big_integer :=
  if x.isZero then { x with _sign := false } else x

/-- `big_integer::stretch`. -/
def stretch (x : big_integer) (size : Nat) : big_integer :=
  if size > x._data.length then
    { x with _data := x._data ++ List.replicate (size - x._data.length) 0 }
  else x

/-- `big_integer::compareLessAbs`. -/
def compareLessAbs (x other : big_integer) : Bool :=
  if x.isZero && other.isZero then false
  else if x._data.length ≠ other._data.length then
    decide (x._data.length < other._data.length)
  else lexicographical_compare x._data.reverse other._data.reverse

/-- The `do { push_back(a % base); a /= base; } while (a != 0)` loop of the native
constructors. A 64-bit `a` is zero after two divisions by `base`, so the body runs at most
twice; the recursion counts the iterations still allowed. -/
def pushWords : Nat → Nat → List Nat
  | 0, _ => []
  | n + 1, a => (a % base) :: (if a / base ≠ 0 then pushWords n (a / base) else [])

/-- `big_integer::big_integer(unsigned long long a)`. -/
def of_unsigned_long_long (a : Nat) : big_integer :=
  trim ⟨pushWords 2 (u64 a), false⟩

/-- `big_integer::big_integer(long long a)`; `a` is the mathematical value of the argument
(`-2^63 ≤ a < 2^63`). -/
def of_long_long (a : Int) : big_integer :=
  let value : Nat :=
    if a < 0 then
      if a = -(2 ^ 63) then u64 (u64 ((a + 1).natAbs) + 1)
      else u64 (-a).toNat
    else u64 a.toNat
  trim ⟨pushWords 2 value, decide (a < 0)⟩

/-- `big_integer::big_integer(unsigned int a)`. -/
def of_unsigned_int (a : Nat) : big_integer := of_unsigned_long_long (u32 a)

/-- `big_integer::big_integer(int a)`. -/
def of_int (a : Int) : big_integer := of_long_long a

/-- The `for` loop of `big_integer::sumAbs`; the state is `_data` and `flag_over`. -/
def sumAbs_loop (b : List Nat) : Nat → Nat → List Nat → Bool → List Nat × Bool
  | 0, _, d, flag_over => (d, flag_over)
  | n + 1, i, d, flag_over =>
    let value := u64 (u64 (d.getD i 0 + (if i < b.length then b.getD i 0 else 0))
      + flag_over.toNat)
    let flag_over' := decide (value ≥ base)
    let value' := if flag_over' then value - base else value
    sumAbs_loop b n (i + 1) (d.set i (u32 value')) flag_over'

/-- `big_integer::sumAbs`. -/
def sumAbs (x b : big_integer) : big_integer :=
  let s := x.stretch b._data.length
  let r := sumAbs_loop b._data s._data.length 0 s._data false
  { s with _data := if r.2 then r.1 ++ [1] else r.1 }

/-- The `for` loop of `big_integer::sumDigitAbs`; the state is `_data` and `flag_over`
(a `uint32_t`). -/
def sumDigitAbs_loop : Nat → Nat → List Nat → Nat → List Nat × Nat
  | 0, _, d, flag_over => (d, flag_over)
  | n + 1, i, d, flag_over =>
    let value := u64 (d.getD i 0 + flag_over)
    let flag_over' := if value ≥ base then 1 else 0
    let value' := if flag_over' ≠ 0 then value - base else value
    sumDigitAbs_loop n (i + 1) (d.set i (u32 value')) flag_over'

/-- `big_integer::sumDigitAbs`. -/
def sumDigitAbs (x : big_integer) (b : Nat) : big_integer :=
  let r := sumDigitAbs_loop x._data.length 0 x._data b
  { x with _data := if r.2 ≠ 0 then r.1 ++ [r.2] else r.1 }

/-- The `for` loop of `big_integer::subAbs`: `self` is the receiver's `_data`, `b` the
subtrahend's, `res` the destination's. Iteration `i` reads index `i` of `self` and `b`
before it writes index `i` of `res` and no later iteration reads an index `≤ i`, so the
values read do not depend on `res` being the same object as `self` or `b`; both are
passed as they are after `res.stretch(maxSize)`. -/
def subAbs_loop (self b : List Nat) : Nat → Nat → List Nat → Bool → List Nat
  | 0, _, res, _ => res
  | n + 1, i, res, carry_flag =>
    let value : Int := (self.getD i 0 : Int) - (if i < b.length then b.getD i 0 else 0 : Nat)
      - (carry_flag.toNat : Int)
    if value < 0 then
      subAbs_loop self b n (i + 1) (res.set i (u32OfInt (value + base))) true
    else
      subAbs_loop self b n (i + 1) (res.set i (u32OfInt value)) false

/-- `big_integer::subAbs` called as `subAbs(*this, b)`: the destination is the receiver. -/
def subAbs_self (x b : big_integer) : big_integer :=
  let maxSize := max x._data.length b._data.length
  let res := x.stretch maxSize
  trim { res with _data := subAbs_loop res._data b._data maxSize 0 res._data false }

/-- `big_integer::subAbs` called as `x.subAbs(res, res)`: the destination is the subtrahend. -/
def subAbs_arg (x res : big_integer) : big_integer :=
  let maxSize := max x._data.length res._data.length
  let res := res.stretch maxSize
  trim { res with _data := subAbs_loop x._data res._data maxSize 0 res._data false }

/-- `big_integer::operator+=`. -/
def operator_plus_eq (x rhs : big_integer) : big_integer :=
  if x._sign = rhs._sign then
    x.sumAbs rhs
  else
    zeroResult
      (if x.compareLessAbs rhs then
        rhs.subAbs_arg { x with _sign := rhs._sign }
      else
        x.subAbs_self rhs)

/-- `big_integer::operator-=` (for a right operand that is not the receiver itself). -/
def operator_minus_eq (x rhs : big_integer) : big_integer :=
  let x1 := { x with _sign := !x._sign }
  let x2 := x1.operator_plus_eq rhs
  zeroResult { x2 with _sign := !x2._sign }

/-- The `for` loop of `big_integer::mulDigitAbs`. -/
def mulDigitAbs_loop (b : Nat) : Nat → Nat → List Nat → List Nat
  | 0, _, d => d
  | n + 1, i, d =>
    let cur := u64 (d.getD i 0 + u64 (d.getD (i + 1) 0 * b))
    mulDigitAbs_loop b n (i + 1) ((d.set i (u32 (cur % base))).set (i + 1) (u32 (cur / base)))

/-- `big_integer::mulDigitAbs`. -/
def mulDigitAbs (x : big_integer) (b : Nat) : big_integer :=
  let d := 0 :: x._data
  trim { x with _data := mulDigitAbs_loop b (d.length - 1) 0 d }

/-- The inner `for` loop of `big_integer::mulAbs`; the state is `_data` and `carry`. -/
def mulAbs_inner (b : List Nat) (i : Nat) : Nat → Nat → List Nat → Nat → List Nat × Nat
  | 0, _, d, carry => (d, carry)
  | n + 1, j, d, carry =>
    let cur := u64 (u64 (d.getD (i + j) 0 + u64 (d.getD (i + b.length) 0 * b.getD j 0)) + carry)
    mulAbs_inner b i n (j + 1) (d.set (i + j) (u32 (cur % base))) (u32 (cur / base))

/-- The outer `for` loop of `big_integer::mulAbs`. -/
def mulAbs_outer (b : List Nat) : Nat → Nat → List Nat → List Nat
  | 0, _, d => d
  | n + 1, i, d =>
    let r := mulAbs_inner b i b.length 0 d 0
    mulAbs_outer b n (i + 1) (r.1.set (i + b.length) r.2)

/-- `big_integer::mulAbs` (for an argument that is not the receiver itself). -/
def mulAbs (x b : big_integer) : big_integer :=
  let save_size := x._data.length
  let d := List.replicate b._data.length 0 ++ x._data
  trim { x with _data := mulAbs_outer b._data save_size 0 d }

/-- `big_integer::operator*=`. -/
def operator_mul_eq (x rhs : big_integer) : big_integer :=
  if rhs.isZero || x.isZero then ⟨[], false⟩
  else
    let x1 := x.mulAbs rhs
    zeroResult { x1 with _sign := xor x1._sign rhs._sign }

/-- The `for` loop of `big_integer::singleWordDiv`, from index `n - 1` down to `0`; the
state is `_data` and `carry`. -/
def singleWordDiv_loop (b : Nat) : Nat → List Nat → Nat → List Nat × Nat
  | 0, d, carry => (d, carry)
  | i + 1, d, carry =>
    let cur := u64 (d.getD i 0 + u64 (carry * base))
    singleWordDiv_loop b i (d.set i (u32 (cur / b))) (u32 (cur % b))

/-- `big_integer::singleWordDiv`: the new receiver and the returned remainder. -/
def singleWordDiv (x : big_integer) (b : Nat) : Outcome (big_integer × Nat) :=
  if b = 0 then .throws .runtime_error
  else
    let r := singleWordDiv_loop b x._data.length x._data 0
    let x1 := trim { x with _data := r.1 }
    .ok (if x1.isZero then { x1 with _sign := false } else x1, r.2)

/-- `big_integer::operator<<=` for a non-negative `rhs`. -/
def operator_shl_eq (x : big_integer) (rhs : Nat) : big_integer :=
  mulDigitAbs { x with _data := List.replicate (rhs / 32) 0 ++ x._data } (u32 (2 ^ (rhs % 32)))

/-- `operator==`. -/
def operator_eq (a b : big_integer) : Bool :=
  a._sign == b._sign && a._data == b._data

/-- `operator!=` (defaulted: the negation of `operator==`). -/
def operator_ne (a b : big_integer) : Bool := !operator_eq a b

/-- `operator<`. -/
def operator_lt (a b : big_integer) : Bool :=
  if a._sign ≠ b._sign then a._sign
  else if !a._sign then a.compareLessAbs b
  else b.compareLessAbs a

/-- `operator>`. -/
def operator_gt (a b : big_integer) : Bool := operator_lt b a

/-- `operator<=`. -/
def operator_le (a b : big_integer) : Bool := !operator_gt a b

/-- `operator>=`. -/
def operator_ge (a b : big_integer) : Bool := !operator_lt a b

/-- The binary `operator-`. -/
def operator_minus (a b : big_integer) : big_integer := a.operator_minus_eq b

/-- The binary `operator*`. -/
def operator_mul (a b : big_integer) : big_integer := a.operator_mul_eq b

/-- The loop `while (b._data.back() < base / 2) { b <<= 1; k++; }` of `bigDivision`; the
state is `b` and `k`. -/
def normalize_loop : Nat → big_integer → Nat → Option (big_integer × Nat)
  | 0, b, k => if b._data.getLastD 0 < base / 2 then none else some (b, k)
  | fuel + 1, b, k =>
    if b._data.getLastD 0 < base / 2 then normalize_loop fuel (b.operator_shl_eq 1) (k + 1)
    else some (b, k)

/-- The loop `while (*this < 0) { res[i]--; *this += b; }` of `bigDivision`; the state is
the receiver and `res`. -/
def correction_loop (b : big_integer) (i : Nat) :
    Nat → big_integer → List Nat → Option (big_integer × List Nat)
  | 0, x, res => if x.operator_lt (of_int 0) then none else some (x, res)
  | fuel + 1, x, res =>
    if x.operator_lt (of_int 0) then
      correction_loop b i fuel (x.operator_plus_eq b)
        (res.set i (u32 (res.getD i 0 + (2 ^ 32 - 1))))
    else some (x, res)

/-- The loop `for (std::ptrdiff_t i = m - 1; i >= 0; i--)` of `bigDivision`, entered with
`i + 1` positions left; the state is the receiver, `b` and `res`. -/
def division_loop (fuel : Nat) (save_b_data : List Nat) :
    Nat → big_integer → big_integer → List Nat → Option (big_integer × big_integer × List Nat)
  | 0, x, b, res => some (x, b, res)
  | i + 1, x, b, res =>
    let b1 := { b with _data := b._data.tail }
    let n := save_b_data.length
    let div : Nat :=
      if n + i - 1 ≥ x._data.length then 0
      else if n + i ≥ x._data.length then
        x._data.getD (n + i - 1) 0 / save_b_data.getLastD 0
      else
        u64 (u64 (x._data.getD (n + i) 0 * base) + x._data.getD (n + i - 1) 0)
          / save_b_data.getLastD 0
    let res1 := res.set i (u32 (min div (base - 1)))
    let x1 := x.operator_minus_eq (b1.operator_mul (of_unsigned_int (res1.getD i 0)))
    match correction_loop b1 i fuel x1 res1 with
    | none => none
    | some (x2, res2) => division_loop fuel save_b_data i x2 b1 res2

/-- `big_integer::bigDivision`: the receiver as it is when control leaves (the quotient on
return), and the outcome (the returned remainder). Each `while` loop may run `fuel` times. -/
def bigDivision (fuel : Nat) (x rhs : big_integer) : big_integer × Outcome big_integer :=
  if rhs.isZero then (x, .throws .runtime_error)
  else if x.compareLessAbs rhs then (mk0, .ok x)
  else
    let save_sign := x._sign
    let b0 := { rhs with _sign := false }
    let x0 := { x with _sign := false }
    match normalize_loop fuel b0 0 with
    | none => (x0, .diverges)
    | some (b1, k) =>
      let x1 := x0.operator_shl_eq k
      let m := x1._data.length - rhs._data.length
      let save_b_data := b1._data
      let b2 := { b1 with _data := List.replicate m 0 ++ b1._data }
      let res := List.replicate (m + 1) 0
      let s := if x1.operator_ge b2 then (x1.operator_minus_eq b2, res.set m 1) else (x1, res)
      match division_loop fuel save_b_data m s.1 b2 s.2 with
      | none => (s.1, .diverges)
      | some (x3, _, res2) =>
        match x3.trim.singleWordDiv (u32 (2 ^ k)) with
        | .ok (x5, _) =>
          let rem := { x5 with _sign := save_sign }
          let q := trim { _data := res2, _sign := false }
          ({ q with _sign := xor save_sign rhs._sign }, .ok rem)
        | .throws e => (x3.trim, .throws e)
        | .diverges => (x3.trim, .diverges)

/-- `big_integer::operator/=`: the receiver afterwards and how the call left. -/
def operator_div_eq (fuel : Nat) (x rhs : big_integer) : big_integer × Outcome Unit :=
  match x.bigDivision fuel rhs with
  | (x1, .ok _) => (x1.zeroResult, .ok ())
  | (x1, .throws e) => (x1, .throws e)
  | (x1, .diverges) => (x1, .diverges)

/-- `big_integer::operator%=`: the receiver afterwards and how the call left. -/
def operator_mod_eq (fuel : Nat) (x rhs : big_integer) : big_integer × Outcome Unit :=
  match x.bigDivision fuel rhs with
  | (_, .ok rem) => (rem.zeroResult, .ok ())
  | (x1, .throws e) => (x1, .throws e)
  | (x1, .diverges) => (x1, .diverges)

/-- The binary `operator/`: `big_integer(a) /= b`. -/
def operator_div (fuel : Nat) (a b : big_integer) : Outcome big_integer :=
  match a.operator_div_eq fuel b with
  | (x, .ok _) => .ok x
  | (_, .throws e) => .throws e
  | (_, .diverges) => .diverges

/-- The binary `operator%`: `big_integer(a) %= b`. -/
def operator_mod (fuel : Nat) (a b : big_integer) : Outcome big_integer :=
  match a.operator_mod_eq fuel b with
  | (x, .ok _) => .ok x
  | (_, .throws e) => .throws e
  | (_, .diverges) => .diverges

/-- The loop `while (rem != 0) { result += (rem % 10 + '0'); rem /= 10; len--; }` of
`to_string`. `rem` is a `uint32_t`, hence zero after ten divisions by 10: the recursion
counts the iterations still allowed. The state is `rem`, `result` and `len`. -/
def to_string_digits : Nat → Nat → List Char → Nat → List Char × Nat
  | 0, _, result, len => (result, len)
  | n + 1, rem, result, len =>
    if rem ≠ 0 then
      to_string_digits n (rem / 10) (result ++ [Char.ofNat (u32 (rem % 10 + 48))])
        (u64 (len + (2 ^ 64 - 1)))
    else (result, len)

/-- The loop `while (!tmp.isZero())` of `to_string`; the state is `tmp` and `result`. -/
def to_string_loop : Nat → big_integer → List Char → Outcome (List Char)
  | 0, tmp, result => if !tmp.isZero then .diverges else .ok result
  | fuel + 1, tmp, result =>
    if !tmp.isZero then
      match tmp.singleWordDiv 1000000000 with
      | .ok (tmp1, rem) =>
        let r := to_string_digits 10 rem result 9
        to_string_loop fuel tmp1
          (if !tmp1.isZero then r.1 ++ List.replicate r.2 '0' else r.1)
      | .throws e => .throws e
      | .diverges => .diverges
    else .ok result

/-- The function `to_string(const big_integer&)`; a `std::string` is a list of characters. -/
def to_string (fuel : Nat) (a : big_integer) : Outcome (List Char) :=
  if a.isZero then .ok ['0']
  else
    match to_string_loop fuel a [] with
    | .ok result => .ok (if a._sign then result ++ ['-'] else result).reverse
    | .throws e => .throws e
    | .diverges => .diverges

/-- The loop `for (size_t i = _sign; i < str.size(); i += 9)` of the string constructor,
with `n` iterations left. `std::pow(10, next)` is the exact power (`next ≤ 8`). -/
def of_string_loop (str : List Char) : Nat → Nat → big_integer → Outcome big_integer
  | 0, _, x => .ok x
  | n + 1, i, x =>
    let next := min 9 (str.length - i)
    let r := from_chars ((str.drop i).take next) 0
    if r.1 ≠ next then .throws .invalid_argument
    else
      let x1 := if next < 9 then x.mulDigitAbs (u32 (10 ^ next)) else x.mulDigitAbs 1000000000
      of_string_loop str n (i + 9) (x1.sumDigitAbs r.2)

/-- `big_integer::big_integer(const std::string& str)`. The loop runs
`⌈(str.size() - _sign) / 9⌉` times. -/
def of_string (str : List Char) : Outcome big_integer :=
  if str.isEmpty then .throws .invalid_argument
  else
    let sign := decide (str.head? = some '-')
    if sign && str.length == 1 then .throws .invalid_argument
    else
      match of_string_loop str ((str.length - sign.toNat + 8) / 9) sign.toNat ⟨[], sign⟩ with
      | .ok x => .ok x.trim
      | .throws e => .throws e
      | .diverges => .diverges

end big_integer

/-! ## Bitwise operators, increment and decrement, right shift -/

/-- The functor passed to `applyBitWiseOp`: `std::bit_and()`, `std::bit_or()` or
`std::bit_xor()`. -/
inductive BitWiseOperation where
  | bit_and
  | bit_or
  | bit_xor
deriving DecidableEq, Repr

/-- The call `op(res, rhs_res)` on two `uint32_t`. -/
def BitWiseOperation.word : BitWiseOperation → Nat → Nat → Nat
  | .bit_and, a, b => a &&& b
  | .bit_or, a, b => a ||| b
  | .bit_xor, a, b => a ^^^ b

/-- The call `op(_sign, rhs._sign)` on two `bool`, converted back to `bool`. -/
def BitWiseOperation.sign : BitWiseOperation → Bool → Bool → Bool
  | .bit_and, a, b => a && b
  | .bit_or, a, b => a || b
  | .bit_xor, a, b => xor a b

namespace big_integer

/-- `big_integer::singleTwoAddition(digit, carry)`: the returned word and the new value of
the reference parameter `carry`. `~digit` is the 32-bit complement. -/
def singleTwoAddition (digit carry : Nat) : Nat × Nat :=
  let tmp := u64 (u32 (2 ^ 32 - 1 - digit) + carry)
  (u32 (tmp % base), u32 (tmp / base))

/-- The first `for` loop of `big_integer::applyBitWiseOp`; `sign` and `rsign` are `_sign`
and `rhs._sign`, the state is `_data`, `carry` and `rhs_carry`. -/
def applyBitWiseOp_loop (op : BitWiseOperation) (sign rsign : Bool) (rhs : List Nat) :
    Nat → Nat → List Nat → Nat → Nat → List Nat
  | 0, _, d, _, _ => d
  | n + 1, i, d, carry, rhs_carry =>
    let res := if sign then singleTwoAddition (d.getD i 0) carry else (d.getD i 0, carry)
    let rhs_res :=
      if i < rhs.length then
        if rsign then singleTwoAddition (rhs.getD i 0) rhs_carry else (rhs.getD i 0, rhs_carry)
      else (0, rhs_carry)
    applyBitWiseOp_loop op sign rsign rhs n (i + 1) (d.set i (op.word res.1 rhs_res.1))
      res.2 rhs_res.2

/-- The second `for` loop of `big_integer::applyBitWiseOp` (run when the new `_sign` is
set); the state is `_data` and `carry`. -/
def applyBitWiseOp_negate : Nat → Nat → List Nat → Nat → List Nat
  | 0, _, d, _ => d
  | n + 1, i, d, carry =>
    let r := singleTwoAddition (d.getD i 0) carry
    applyBitWiseOp_negate n (i + 1) (d.set i r.1) r.2

/-- `big_integer::applyBitWiseOp` (for an argument that is not the receiver itself). -/
def applyBitWiseOp (x rhs : big_integer) (op : BitWiseOperation) : big_integer :=
  let s := x.stretch rhs._data.length
  let d1 := applyBitWiseOp_loop op s._sign rhs._sign rhs._data s._data.length 0 s._data 1 1
  let sign := op.sign s._sign rhs._sign
  let d2 := if sign then applyBitWiseOp_negate d1.length 0 d1 1 else d1
  trim ⟨d2, sign⟩

/-- `big_integer::operator&=`. -/
def operator_and_eq (x rhs : big_integer) : big_integer :=
  zeroResult (x.applyBitWiseOp rhs .bit_and)

/-- `big_integer::operator|=`. -/
def operator_or_eq (x rhs : big_integer) : big_integer :=
  zeroResult (x.applyBitWiseOp rhs .bit_or)

/-- `big_integer::operator^=`. -/
def operator_xor_eq (x rhs : big_integer) : big_integer :=
  zeroResult (x.applyBitWiseOp rhs .bit_xor)

/-- The binary `operator&`: `big_integer(a) &= b`. -/
def operator_and (a b : big_integer) : big_integer := a.operator_and_eq b

/-- The binary `operator|`: `big_integer(a) |= b`. -/
def operator_or (a b : big_integer) : big_integer := a.operator_or_eq b

/-- The binary `operator^`: `big_integer(a) ^= b`. -/
def operator_xor (a b : big_integer) : big_integer := a.operator_xor_eq b

/-- The `for` loop of `big_integer::subDigitAbs`; the state is `_data` and `carry_flag`
(a `uint32_t`). -/
def subDigitAbs_loop : Nat → Nat → List Nat → Nat → List Nat
  | 0, _, d, _ => d
  | n + 1, i, d, carry_flag =>
    let value : Int := (d.getD i 0 : Int) - (carry_flag : Int)
    if value < 0 then subDigitAbs_loop n (i + 1) (d.set i (u32OfInt (value + base))) 1
    else subDigitAbs_loop n (i + 1) (d.set i (u32OfInt value)) 0

/-- `big_integer::subDigitAbs`. -/
def subDigitAbs (x : big_integer) (b : Nat) : big_integer :=
  trim { x with _data := subDigitAbs_loop x._data.length 0 x._data b }

/-- The prefix `big_integer::operator++`. -/
def operator_inc (x : big_integer) : big_integer :=
  zeroResult (if x._sign then x.subDigitAbs 1 else x.sumDigitAbs 1)

/-- The prefix `big_integer::operator--`. -/
def operator_dec (x : big_integer) : big_integer :=
  zeroResult
    (if x._sign then x.sumDigitAbs 1
    else if x.isZero then { _data := x._data ++ [1], _sign := true }
    else x.subDigitAbs 1)

/-- The unary `big_integer::operator-`. -/
def operator_neg (x : big_integer) : big_integer :=
  if !x.isZero then { x with _sign := !x._sign } else x

/-- `big_integer::operator~`. -/
def operator_not (x : big_integer) : big_integer :=
  let tmp := x.operator_inc
  { tmp with _sign := !tmp._sign }

/-- `big_integer::operator>>=` for a non-negative `rhs`. -/
def operator_shr_eq (x : big_integer) (rhs : Nat) : Outcome big_integer :=
  if rhs / 32 ≥ x._data.length then .ok ⟨[], false⟩
  else
    match singleWordDiv { x with _data := x._data.drop (rhs / 32) } (u32 (2 ^ (rhs % 32))) with
    | .ok (x1, _) => .ok (if x1._sign then x1.operator_dec else x1)
    | .throws e => .throws e
    | .diverges => .diverges

/-- The binary `operator>>`: `big_integer(a) >>= b`. -/
def operator_shr (a : big_integer) (b : Nat) : Outcome big_integer := a.operator_shr_eq b

/-- The binary `operator<<`: `big_integer(a) <<= b`. -/
def operator_shl (a : big_integer) (b : Nat) : big_integer := a.operator_shl_eq b

end big_integer

/-! ## Postfix forms, checked element accesses, self-aliased operands, division record -/

namespace big_integer

/-- The unary `big_integer::operator+`. -/
def operator_pos (x : big_integer) : big_integer := x

/-- Which object the destination `res` of a call `subAbs(res, b)` is: the receiver (the call
`subAbs(*this, rhs)`) or the argument `b` (the call `rhs.subAbs(*this, *this)`). -/
inductive Alias where
  | receiver
  | argument
deriving DecidableEq, Repr

/-- The `for` loop of `big_integer::subAbs` with every element access checked: `none` stands
for an access `v[i]` with `i ≥ v.size()`. The state is the destination `res._data` and
`carry_flag`; `other` is the operand that is not the destination, and the operand that is
the destination is read from the current state. The final `carry_flag` is returned with the
words. -/
def subAbs_loop_checked (dst : Alias) (other : List Nat) :
    Nat → Nat → List Nat → Bool → Option (List Nat × Bool)
  | 0, _, res, carry_flag => some (res, carry_flag)
  | n + 1, i, res, carry_flag =>
    let self : List Nat := match dst with
      | .receiver => res
      | .argument => other
    let b : List Nat := match dst with
      | .receiver => other
      | .argument => res
    match (self[i]? : Option Nat) with
    | none => none
    | some si =>
      let value : Int := (si : Int) - (if i < b.length then b.getD i 0 else 0 : Nat)
        - (carry_flag.toNat : Int)
      if i < res.length then
        if value < 0 then
          subAbs_loop_checked dst other n (i + 1) (res.set i (u32OfInt (value + base))) true
        else
          subAbs_loop_checked dst other n (i + 1) (res.set i (u32OfInt value)) false
      else none

/-- `big_integer::subAbs` with its element accesses checked: `x` is the receiver (the
minuend), `b` the argument, `dst` tells which of the two `res` is. The result is the
destination after `res.trim()` and the final `carry_flag`. -/
def subAbs_checked (dst : Alias) (x b : big_integer) : Option (big_integer × Bool) :=
  let maxSize := max x._data.length b._data.length
  match dst with
  | .receiver =>
    let res := x.stretch maxSize
    match subAbs_loop_checked .receiver b._data maxSize 0 res._data false with
    | none => none
    | some r => some (trim { res with _data := r.1 }, r.2)
  | .argument =>
    let res := b.stretch maxSize
    match subAbs_loop_checked .argument x._data maxSize 0 res._data false with
    | none => none
    | some r => some (trim { res with _data := r.1 }, r.2)

/-- The `for` loop of `big_integer::subDigitAbs` returning the final `carry_flag` with the
words. -/
def subDigitAbs_loop_carry : Nat → Nat → List Nat → Nat → List Nat × Nat
  | 0, _, d, carry_flag => (d, carry_flag)
  | n + 1, i, d, carry_flag =>
    let value : Int := (d.getD i 0 : Int) - (carry_flag : Int)
    if value < 0 then subDigitAbs_loop_carry n (i + 1) (d.set i (u32OfInt (value + base))) 1
    else subDigitAbs_loop_carry n (i + 1) (d.set i (u32OfInt value)) 0

/-- The `for` loop of `big_integer::sumAbs` when the argument `b` is the receiver itself:
`b._data[i]` and `b._data.size()` read the receiver's current `_data`. -/
def sumAbs_loop_self : Nat → Nat → List Nat → Bool → List Nat × Bool
  | 0, _, d, flag_over => (d, flag_over)
  | n + 1, i, d, flag_over =>
    let value := u64 (u64 (d.getD i 0 + (if i < d.length then d.getD i 0 else 0))
      + flag_over.toNat)
    let flag_over' := decide (value ≥ base)
    let value' := if flag_over' then value - base else value
    sumAbs_loop_self n (i + 1) (d.set i (u32 value')) flag_over'

/-- `big_integer::sumAbs` called with the receiver itself as argument. -/
def sumAbs_self (x : big_integer) : big_integer :=
  let s := x.stretch x._data.length
  let r := sumAbs_loop_self s._data.length 0 s._data false
  { s with _data := if r.2 then r.1 ++ [1] else r.1 }

/-- `big_integer::operator+=` when `rhs` is a reference to the receiver: `rhs._sign` reads
the receiver's `_sign`. In `subAbs` iteration `i` reads index `i` before it writes it and no
later iteration reads it, so the two `subAbs` calls are the ones of `operator_plus_eq` on
equal operands. -/
def operator_plus_eq_self (x : big_integer) : big_integer :=
  if x._sign = x._sign then
    x.sumAbs_self
  else
    zeroResult
      (if x.compareLessAbs x then
        x.subAbs_arg { x with _sign := x._sign }
      else
        x.subAbs_self x)

/-- `big_integer::operator-=` when `rhs` is a reference to the receiver (`a -= a`): the sign
flip of the first statement is seen through `rhs`. -/
def operator_minus_eq_self (x : big_integer) : big_integer :=
  let x1 := { x with _sign := !x._sign }
  let x2 := x1.operator_plus_eq_self
  zeroResult { x2 with _sign := !x2._sign }

/-- The loop `while (*this < 0) { res[i]--; *this += b; }` of `bigDivision` with a count of
its iterations (`count` is not a variable of the program); the state is the receiver and
`res`. -/
def correction_count (b : big_integer) (i : Nat) :
    Nat → big_integer → List Nat → Nat → Option (big_integer × List Nat × Nat)
  | 0, x, res, count => if x.operator_lt (of_int 0) then none else some (x, res, count)
  | fuel + 1, x, res, count =>
    if x.operator_lt (of_int 0) then
      correction_count b i fuel (x.operator_plus_eq b)
        (res.set i (u32 (res.getD i 0 + (2 ^ 32 - 1)))) (count + 1)
    else some (x, res, count)

/-- The loop `for (std::ptrdiff_t i = m - 1; i >= 0; i--)` of `bigDivision` with a record of
what happens at each position: the index `i`, the trial digit `res[i] = std::min(div, base - 1)`
and the number of iterations of the correction loop. The record lists the positions in the
order the loop visits them (`m - 1` first). -/
def division_trace (fuel : Nat) (save_b_data : List Nat) :
    Nat → big_integer → big_integer → List Nat →
      Option (big_integer × big_integer × List Nat × List (Nat × Nat × Nat))
  | 0, x, b, res => some (x, b, res, [])
  | i + 1, x, b, res =>
    let b1 := { b with _data := b._data.tail }
    let n := save_b_data.length
    let div : Nat :=
      if n + i - 1 ≥ x._data.length then 0
      else if n + i ≥ x._data.length then
        x._data.getD (n + i - 1) 0 / save_b_data.getLastD 0
      else
        u64 (u64 (x._data.getD (n + i) 0 * base) + x._data.getD (n + i - 1) 0)
          / save_b_data.getLastD 0
    let res1 := res.set i (u32 (min div (base - 1)))
    let x1 := x.operator_minus_eq (b1.operator_mul (of_unsigned_int (res1.getD i 0)))
    match correction_count b1 i fuel x1 res1 0 with
    | none => none
    | some (x2, res2, count) =>
      match division_trace fuel save_b_data i x2 b1 res2 with
      | none => none
      | some (x3, b3, res3, record) => some (x3, b3, res3, (i, res1.getD i 0, count) :: record)

/-- `big_integer::bigDivision` with the record of `division_trace`: the normalisation loop
may run `fuel` times, each correction loop `cfuel` times. The first component is what
`bigDivision` gives: the receiver when control leaves and the outcome. -/
def bigDivision_trace (fuel cfuel : Nat) (x rhs : big_integer) :
    (big_integer × Outcome big_integer) × List (Nat × Nat × Nat) :=
  if rhs.isZero then ((x, .throws .runtime_error), [])
  else if x.compareLessAbs rhs then ((mk0, .ok x), [])
  else
    let save_sign := x._sign
    let b0 := { rhs with _sign := false }
    let x0 := { x with _sign := false }
    match normalize_loop fuel b0 0 with
    | none => ((x0, .diverges), [])
    | some (b1, k) =>
      let x1 := x0.operator_shl_eq k
      let m := x1._data.length - rhs._data.length
      let save_b_data := b1._data
      let b2 := { b1 with _data := List.replicate m 0 ++ b1._data }
      let res := List.replicate (m + 1) 0
      let s := if x1.operator_ge b2 then (x1.operator_minus_eq b2, res.set m 1) else (x1, res)
      match division_trace cfuel save_b_data m s.1 b2 s.2 with
      | none => ((s.1, .diverges), [])
      | some (x3, _, res2, record) =>
        match x3.trim.singleWordDiv (u32 (2 ^ k)) with
        | .ok (x5, _) =>
          let rem := { x5 with _sign := save_sign }
          let q := trim { _data := res2, _sign := false }
          (({ q with _sign := xor save_sign rhs._sign }, .ok rem), record)
        | .throws e => ((x3.trim, .throws e), record)
        | .diverges => ((x3.trim, .diverges), record)

end big_integer

/-! ## Specification vocabulary -/

/-- Every element is a 32-bit word. -/
def Words (d : List Nat) : Prop := ∀ w ∈ d, w < base

instance (d : List Nat) : Decidable (Words d) := by unfold Words; infer_instance

/-- The most significant word, if there is one, is not zero. -/
def Trimmed (d : List Nat) : Prop := d.getLast? ≠ some 0

instance (d : List Nat) : Decidable (Trimmed d) := by unfold Trimmed; infer_instance

/-- The number a little-endian word sequence denotes. -/
def valAbs (d : List Nat) : Nat := Nat.ofDigits base d

/-- The characters after the optional single leading `'-'`. -/
def afterSign (s : List Char) : List Char :=
  if s.head? = some '-' then s.tail else s

/-- The number a sequence of decimal digit characters denotes (most significant first). -/
def decimalValue (cs : List Char) : Nat :=
  Nat.ofDigits 10 (cs.reverse.map (fun c => c.toNat - 48))

/-- The canonical decimal text of an integer: `"0"` for zero, otherwise an optional `'-'`
followed by the decimal digits of the absolute value, most significant first. -/
def decimalText (v : Int) : List Char :=
  if v = 0 then ['0']
  else (if v < 0 then ['-'] else []) ++ (Nat.digits 10 v.natAbs).reverse.map Nat.digitChar

namespace big_integer

/-- The mathematical value of a `big_integer`. -/
def value (x : big_integer) : Int :=
  if x._sign then -(valAbs x._data : Int) else (valAbs x._data : Int)

/-- The invariants of section 3 of the specification: every element of `_data` is a 32-bit
word, the most significant word is not zero, and zero has `_sign = false`. -/
def canonical (x : big_integer) : Prop :=
  Words x._data ∧ x._data.getLast? ≠ some 0 ∧ (x._data = [] → x._sign = false)

instance (x : big_integer) : Decidable (canonical x) := by unfold canonical; infer_instance

end big_integer

/-! ## Proofs -/

/-! ### Word sequences and their values -/

theorem base_pos : 0 < base := by decide
theorem one_lt_base : 1 < base := by decide

theorem u32_of_lt {x : Nat} (h : x < base) : u32 x = x := Nat.mod_eq_of_lt h
theorem u64_of_lt {x : Nat} (h : x < base * base) : u64 x = x := Nat.mod_eq_of_lt h

@[simp] theorem valAbs_nil : valAbs [] = 0 := rfl
@[simp] theorem valAbs_cons (w : Nat) (ws : List Nat) : valAbs (w :: ws) = w + base * valAbs ws := by
  unfold valAbs; rw [Nat.ofDigits_cons]

theorem valAbs_append (a b : List Nat) : valAbs (a ++ b) = valAbs a + base ^ a.length * valAbs b := by
  unfold valAbs; exact Nat.ofDigits_append

theorem valAbs_replicate_zero (n : Nat) : valAbs (List.replicate n 0) = 0 := by
  induction n with
  | zero => rfl
  | succ n ih => simp [List.replicate_succ, ih]

theorem Words_nil : Words [] := by intro w hw; cases hw
theorem Words_cons {w : Nat} {ws : List Nat} : Words (w :: ws) ↔ w < base ∧ Words ws := by
  simp [Words]
theorem Words_append {a b : List Nat} : Words (a ++ b) ↔ Words a ∧ Words b := by
  simp [Words, or_imp, forall_and]
theorem Words_replicate_zero (n : Nat) : Words (List.replicate n 0) := by
  intro w hw; rw [List.eq_of_mem_replicate hw]; exact base_pos

theorem valAbs_lt {d : List Nat} (h : Words d) : valAbs d < base ^ d.length := by
  unfold valAbs; exact Nat.ofDigits_lt_base_pow_length one_lt_base h

theorem valAbs_drop (d : List Nat) (i : Nat) :
    valAbs (d.drop i) = d.getD i 0 + base * valAbs (d.drop (i + 1)) := by
  induction d generalizing i with
  | nil => simp
  | cons w ws ih =>
    cases i with
    | zero => simp
    | succ i => simpa using ih i

theorem getD_append_length (pre : List Nat) (x : Nat) (rest : List Nat) :
    (pre ++ x :: rest).getD pre.length 0 = x := by
  induction pre with
  | nil => rfl
  | cons p ps ih => simpa using ih

theorem set_append_length (pre : List Nat) (x v : Nat) (rest : List Nat) :
    (pre ++ x :: rest).set pre.length v = pre ++ v :: rest := by
  simp [List.set_append]

theorem getD_append_add (pre rest : List Nat) (j : Nat) :
    (pre ++ rest).getD (pre.length + j) 0 = rest.getD j 0 := by
  simp [List.getD_eq_getElem?_getD, List.getElem?_append_right]

theorem set_append_add (pre rest : List Nat) (j v : Nat) :
    (pre ++ rest).set (pre.length + j) v = pre ++ rest.set j v := by
  simp [List.set_append]

/-! ### Trimming and canonical word sequences -/

theorem Trimmed_nil : Trimmed [] := by simp [Trimmed]

theorem Trimmed_concat {d : List Nat} {x : Nat} : Trimmed (d ++ [x]) ↔ x ≠ 0 := by
  simp [Trimmed]

theorem Trimmed_iff {d : List Nat} : Trimmed d ↔ ∀ h : d ≠ [], d.getLast h ≠ 0 := by
  induction d using List.reverseRecOn with
  | nil => simp [Trimmed]
  | append_singleton l a _ => simp [Trimmed]

theorem rdrop_zero_concat (l : List Nat) (a : Nat) :
    (l ++ [a]).rdropWhile (fun w => w == 0)
      = if a = 0 then l.rdropWhile (fun w => w == 0) else l ++ [a] := by
  rw [List.rdropWhile_concat]; simp

theorem valAbs_rdrop (d : List Nat) : valAbs (d.rdropWhile (fun w => w == 0)) = valAbs d := by
  induction d using List.reverseRecOn with
  | nil => rfl
  | append_singleton l a ih =>
    rw [rdrop_zero_concat]
    split
    · next h => subst h; rw [ih, valAbs_append]; simp
    · rfl

theorem Words_rdrop {d : List Nat} (h : Words d) : Words (d.rdropWhile (fun w => w == 0)) := by
  intro w hw
  exact h w ((List.rdropWhile_prefix _ _).subset hw)

theorem Trimmed_rdrop (d : List Nat) : Trimmed (d.rdropWhile (fun w => w == 0)) := by
  induction d using List.reverseRecOn with
  | nil => exact Trimmed_nil
  | append_singleton l a ih =>
    rw [rdrop_zero_concat]
    split
    · exact ih
    · next h => exact Trimmed_concat.2 h

theorem rdrop_of_Trimmed {d : List Nat} (h : Trimmed d) : d.rdropWhile (fun w => w == 0) = d := by
  induction d using List.reverseRecOn with
  | nil => rfl
  | append_singleton l a _ =>
    rw [rdrop_zero_concat, if_neg (Trimmed_concat.1 h)]

theorem length_rdrop_le (d : List Nat) : (d.rdropWhile (fun w => w == 0)).length ≤ d.length :=
  (List.rdropWhile_prefix _ _).length_le

/-- A trimmed word sequence is the digit expansion of its value. -/
theorem digits_valAbs {d : List Nat} (hw : Words d) (ht : Trimmed d) :
    Nat.digits base (valAbs d) = d :=
  Nat.digits_ofDigits base one_lt_base d hw (Trimmed_iff.1 ht)

theorem valAbs_inj {d e : List Nat} (hd : Words d) (td : Trimmed d) (he : Words e) (te : Trimmed e)
    (h : valAbs d = valAbs e) : d = e := by
  rw [← digits_valAbs hd td, ← digits_valAbs he te, h]

theorem valAbs_eq_zero_iff {d : List Nat} (hd : Words d) (td : Trimmed d) : valAbs d = 0 ↔ d = [] := by
  constructor
  · intro h; exact valAbs_inj hd td Words_nil Trimmed_nil h
  · intro h; subst h; rfl

theorem valAbs_ge {d : List Nat} (td : Trimmed d) (hne : d ≠ []) :
    base ^ (d.length - 1) ≤ valAbs d := by
  induction d using List.reverseRecOn with
  | nil => exact absurd rfl hne
  | append_singleton l a _ =>
    have ha : 1 ≤ a := Nat.one_le_iff_ne_zero.2 (Trimmed_concat.1 td)
    rw [valAbs_append]
    simp only [List.length_append, List.length_singleton, Nat.add_sub_cancel, valAbs_cons,
      valAbs_nil, Nat.mul_zero, Nat.add_zero]
    calc base ^ l.length = base ^ l.length * 1 := (Nat.mul_one _).symm
      _ ≤ base ^ l.length * a := Nat.mul_le_mul_left _ ha
      _ ≤ valAbs l + base ^ l.length * a := Nat.le_add_left _ _

theorem lexicographical_compare_iff (a b : List Nat) (hl : a.length = b.length)
    (ha : Words a) (hb : Words b) :
    lexicographical_compare a b = true ↔ valAbs a.reverse < valAbs b.reverse := by
  induction a generalizing b with
  | nil =>
    cases b with
    | nil => simp [lexicographical_compare]
    | cons y bs => simp at hl
  | cons x as ih =>
    cases b with
    | nil => simp at hl
    | cons y bs =>
      have hl' : as.length = bs.length := by simpa using hl
      have ha' := (Words_cons.1 ha).2
      have hb' := (Words_cons.1 hb).2
      have h1 : valAbs as.reverse < base ^ as.length := by
        simpa using valAbs_lt (d := as.reverse) (fun w hw => ha' w (List.mem_reverse.1 hw))
      have h2 : valAbs bs.reverse < base ^ as.length := by
        rw [hl']
        simpa using valAbs_lt (d := bs.reverse) (fun w hw => hb' w (List.mem_reverse.1 hw))
      have hp : 0 < base ^ as.length := pow_pos base_pos _
      simp only [lexicographical_compare, List.reverse_cons, valAbs_append, List.length_reverse,
        valAbs_cons, valAbs_nil, Nat.mul_zero, Nat.add_zero, ← hl']
      by_cases hxy : x < y
      · simp only [hxy, if_true, true_iff]
        calc valAbs as.reverse + base ^ as.length * x < base ^ as.length + base ^ as.length * x :=
              Nat.add_lt_add_right h1 _
          _ = base ^ as.length * (x + 1) := by ring
          _ ≤ base ^ as.length * y := Nat.mul_le_mul_left _ hxy
          _ ≤ valAbs bs.reverse + base ^ as.length * y := Nat.le_add_left _ _
      · by_cases hyx : y < x
        · simp only [hxy, hyx, if_true, if_false, Bool.false_eq_true, false_iff, not_lt]
          have : valAbs bs.reverse + base ^ as.length * y < valAbs as.reverse + base ^ as.length * x :=
            calc valAbs bs.reverse + base ^ as.length * y < base ^ as.length + base ^ as.length * y :=
                  Nat.add_lt_add_right h2 _
              _ = base ^ as.length * (y + 1) := by ring
              _ ≤ base ^ as.length * x := Nat.mul_le_mul_left _ hyx
              _ ≤ valAbs as.reverse + base ^ as.length * x := Nat.le_add_left _ _
          exact Nat.le_of_lt this
        · have hxy' : x = y := by omega
          subst hxy'
          simp only [hxy, if_false, ih bs hl' ha' hb']
          omega

namespace big_integer

theorem compareLessAbs_iff {x y : big_integer} (hx : Words x._data) (tx : Trimmed x._data)
    (hy : Words y._data) (ty : Trimmed y._data) :
    x.compareLessAbs y = true ↔ valAbs x._data < valAbs y._data := by
  unfold compareLessAbs isZero
  by_cases hz : (x._data.isEmpty && y._data.isEmpty) = true
  · simp only [hz, if_true, Bool.false_eq_true, false_iff, not_lt]
    simp only [Bool.and_eq_true, List.isEmpty_iff] at hz
    rw [hz.1, hz.2]
  · simp only [hz, if_false, Bool.false_eq_true]
    by_cases hl : x._data.length = y._data.length
    · simp only [hl, ne_eq, not_true_eq_false, if_false, Bool.false_eq_true]
      rw [lexicographical_compare_iff _ _ (by simpa using hl)
        (fun w hw => hx w (List.mem_reverse.1 hw)) (fun w hw => hy w (List.mem_reverse.1 hw))]
      simp
    · simp only [ne_eq, hl, not_false_eq_true, if_true, decide_eq_true_eq]
      constructor
      · intro hlt
        have hne : y._data ≠ [] := by intro h; rw [h] at hlt; simp at hlt
        calc valAbs x._data < base ^ x._data.length := valAbs_lt hx
          _ ≤ base ^ (y._data.length - 1) := Nat.pow_le_pow_right base_pos (by omega)
          _ ≤ valAbs y._data := valAbs_ge ty hne
      · intro hv
        by_contra hge
        have hgt : y._data.length < x._data.length := by omega
        have hne : x._data ≠ [] := by intro h; rw [h] at hgt; simp at hgt
        have : valAbs y._data < valAbs x._data :=
          calc valAbs y._data < base ^ y._data.length := valAbs_lt hy
            _ ≤ base ^ (x._data.length - 1) := Nat.pow_le_pow_right base_pos (by omega)
            _ ≤ valAbs x._data := valAbs_ge tx hne
        omega

end big_integer

/-! ### Magnitude addition -/

theorem getD_lt {d : List Nat} (h : Words d) (i : Nat) : d.getD i 0 < base := by
  rw [List.getD_eq_getElem?_getD]
  cases hi : d[i]? with
  | none => exact base_pos
  | some w => exact h w (List.getElem?_mem hi)

theorem ite_getD (b : List Nat) (i : Nat) :
    (if i < b.length then b.getD i 0 else 0) = b.getD i 0 := by
  split
  · rfl
  · next h => rw [List.getD_eq_default _ _ (by omega)]

theorem Bool_toNat_le (f : Bool) : f.toNat ≤ 1 := by cases f <;> simp

theorem carry_arith {B v k x y c r P f' R D : Nat} (hv : v + B * k = x + y + c)
    (hv' : r + P * f' = R + D + k) :
    (v + B * r) + P * B * f' = (x + B * R) + (y + B * D) + c := by
  have e1 : (v + B * r) + P * B * f' = v + B * (r + P * f') := by ring
  have e2 : v + B * (R + D + k) = (v + B * k) + B * R + B * D := by ring
  rw [e1, hv', e2, hv]; ring

theorem sumAbs_loop_spec (b : List Nat) (hb : Words b) :
    ∀ (rest pre : List Nat) (f : Bool), Words rest → b.length ≤ pre.length + rest.length →
      ∃ (rest' : List Nat) (f' : Bool),
        big_integer.sumAbs_loop b rest.length pre.length (pre ++ rest) f = (pre ++ rest', f') ∧
        rest'.length = rest.length ∧ Words rest' ∧
        valAbs rest' + base ^ rest.length * f'.toNat
          = valAbs rest + valAbs (b.drop pre.length) + f.toNat := by
  intro rest
  induction rest with
  | nil =>
    intro pre f _ hlen
    refine ⟨[], f, by simp [big_integer.sumAbs_loop], rfl, Words_nil, ?_⟩
    rw [List.drop_eq_nil_of_le (by simpa using hlen)]
    simp
  | cons x rest0 ih =>
    intro pre f hw hlen
    obtain ⟨hx, hw0⟩ := Words_cons.1 hw
    have hy : b.getD pre.length 0 < base := getD_lt hb _
    have hf := Bool_toNat_le f
    have hbase : base = 4294967296 := rfl
    have hval : u64 (u64 (x + b.getD pre.length 0) + f.toNat) = x + b.getD pre.length 0 + f.toNat := by
      unfold u64; omega
    by_cases hge : x + b.getD pre.length 0 + f.toNat ≥ base
    · obtain ⟨rest', f', heq, hl', hw', hv'⟩ :=
        ih (pre ++ [x + b.getD pre.length 0 + f.toNat - base]) true hw0
          (by simp only [List.length_append, List.length_singleton, List.length_cons] at hlen ⊢; omega)
      refine ⟨(x + b.getD pre.length 0 + f.toNat - base) :: rest', f', ?_, by simp [hl'],
        Words_cons.2 ⟨by omega, hw'⟩, ?_⟩
      · simp only [List.length_cons, big_integer.sumAbs_loop, getD_append_length, ite_getD, hval,
          hge, decide_True, if_true, set_append_length]
        rw [u32_of_lt (by omega)]
        simpa using heq
      · rw [valAbs_drop b pre.length]
        simp only [List.length_append, List.length_singleton, Bool.toNat_true] at hv'
        simp only [valAbs_cons, List.length_cons, Nat.pow_succ]
        exact carry_arith (k := 1) (by omega) hv'
    · obtain ⟨rest', f', heq, hl', hw', hv'⟩ :=
        ih (pre ++ [x + b.getD pre.length 0 + f.toNat]) false hw0
          (by simp only [List.length_append, List.length_singleton, List.length_cons] at hlen ⊢; omega)
      refine ⟨(x + b.getD pre.length 0 + f.toNat) :: rest', f', ?_, by simp [hl'],
        Words_cons.2 ⟨by omega, hw'⟩, ?_⟩
      · simp only [List.length_cons, big_integer.sumAbs_loop, getD_append_length, ite_getD, hval,
          hge, decide_False, if_false, set_append_length, Bool.false_eq_true]
        rw [u32_of_lt (by omega)]
        simpa using heq
      · rw [valAbs_drop b pre.length]
        simp only [List.length_append, List.length_singleton, Bool.toNat_false] at hv'
        simp only [valAbs_cons, List.length_cons, Nat.pow_succ]
        exact carry_arith (k := 0) (by omega) hv'

theorem Trimmed_of_ge {d : List Nat} (hw : Words d) (h : base ^ (d.length - 1) ≤ valAbs d)
    : Trimmed d := by
  induction d using List.reverseRecOn with
  | nil => exact Trimmed_nil
  | append_singleton l a _ =>
    apply Trimmed_concat.2
    intro ha
    subst ha
    rw [valAbs_append] at h
    simp only [List.length_append, List.length_singleton, Nat.add_sub_cancel, valAbs_cons,
      valAbs_nil, Nat.mul_zero, Nat.add_zero] at h
    have := valAbs_lt (Words_append.1 hw).1
    omega

namespace big_integer

theorem stretch_data (x : big_integer) (n : Nat) :
    (x.stretch n)._data = x._data ++ List.replicate (n - x._data.length) 0 := by
  unfold stretch
  split
  · rfl
  · next h =>
    have : n - x._data.length = 0 := by omega
    simp [this]

theorem stretch_sign (x : big_integer) (n : Nat) : (x.stretch n)._sign = x._sign := by
  unfold stretch; split <;> rfl

theorem stretch_length (x : big_integer) (n : Nat) :
    (x.stretch n)._data.length = max x._data.length n := by
  rw [stretch_data]; simp; omega

theorem stretch_valAbs (x : big_integer) (n : Nat) : valAbs (x.stretch n)._data = valAbs x._data := by
  rw [stretch_data, valAbs_append, valAbs_replicate_zero]; simp

theorem stretch_Words {x : big_integer} (h : Words x._data) (n : Nat) : Words (x.stretch n)._data := by
  rw [stretch_data]; exact Words_append.2 ⟨h, Words_replicate_zero _⟩

/-- `sumAbs` adds the magnitudes and keeps the receiver's sign. -/
theorem sumAbs_spec {x b : big_integer} (hx : Words x._data) (hb : Words b._data) :
    Words (x.sumAbs b)._data ∧ valAbs (x.sumAbs b)._data = valAbs x._data + valAbs b._data ∧
    (x.sumAbs b)._sign = x._sign ∧
    (Trimmed x._data → Trimmed b._data → Trimmed (x.sumAbs b)._data) := by
  have hs := stretch_Words hx b._data.length
  obtain ⟨rest', f', heq, hl', hw', hv'⟩ :=
    sumAbs_loop_spec b._data hb (x.stretch b._data.length)._data [] false hs
      (by rw [stretch_length]; simp)
  simp only [List.length_nil, List.nil_append, List.drop_zero, Bool.toNat_false, Nat.add_zero,
    stretch_valAbs] at heq hv'
  have hdata : (x.sumAbs b)._data = if f' = true then rest' ++ [1] else rest' := by
    simp only [sumAbs, heq]
  rw [hdata]
  refine ⟨?_, ?_, by simp [sumAbs, stretch_sign], ?_⟩
  · split
    · exact Words_append.2 ⟨hw', by simp [Words, base]⟩
    · exact hw'
  · split
    · next h => rw [valAbs_append, hl', ← hv', h]; simp
    · next h =>
      have : f' = false := by simpa using h
      rw [← hv', this]; simp
  · intro tx tb
    split
    · exact Trimmed_concat.2 (by decide)
    · next h =>
      have hf : f' = false := by simpa using h
      rw [hf] at hv'
      simp only [Bool.toNat_false, Nat.mul_zero, Nat.add_zero] at hv'
      by_cases hne : rest' = []
      · rw [hne]; exact Trimmed_nil
      · apply Trimmed_of_ge hw'
        rw [hl', stretch_length, hv']
        rcases Nat.le_total x._data.length b._data.length with hle | hle
        · rw [Nat.max_eq_right hle]
          have hbne : b._data ≠ [] := by
            intro h0
            apply hne
            apply List.eq_nil_of_length_eq_zero
            rw [hl', stretch_length, Nat.max_eq_right hle, h0]; rfl
          exact le_trans (valAbs_ge tb hbne) (Nat.le_add_left _ _)
        · rw [Nat.max_eq_left hle]
          have hxne : x._data ≠ [] := by
            intro h0
            apply hne
            apply List.eq_nil_of_length_eq_zero
            rw [hl', stretch_length, Nat.max_eq_left hle, h0]; rfl
          exact le_trans (valAbs_ge tx hxne) (Nat.le_add_right _ _)

end big_integer

/-! ### Magnitude subtraction -/

theorem u32OfInt_natCast {v : Nat} (h : v < base) : u32OfInt (v : Int) = v := by
  unfold u32OfInt
  have hb : base = 4294967296 := rfl
  omega

theorem borrow_arith {B v t c s k r D S P cf : Nat} (hv : v + t + c = s + B * k)
    (hv' : r + D + k = S + P * cf) :
    (v + B * r) + (t + B * D) + c = (s + B * S) + P * B * cf := by
  have e1 : (v + B * r) + (t + B * D) + c = (v + t + c) + B * (r + D) := by ring
  have e2 : s + B * k + B * (r + D) = s + B * (r + D + k) := by ring
  rw [e1, hv, e2, hv']; ring

theorem subAbs_loop_spec (self b : List Nat) (hs : Words self) (hb : Words b) :
    ∀ (rest pre : List Nat) (c : Bool), self.length ≤ pre.length + rest.length →
      b.length ≤ pre.length + rest.length →
      ∃ (rest' : List Nat) (c' : Bool),
        big_integer.subAbs_loop self b rest.length pre.length (pre ++ rest) c = pre ++ rest' ∧
        rest'.length = rest.length ∧ Words rest' ∧
        valAbs rest' + valAbs (b.drop pre.length) + c.toNat
          = valAbs (self.drop pre.length) + base ^ rest.length * c'.toNat := by
  intro rest
  induction rest with
  | nil =>
    intro pre c hls hlb
    refine ⟨[], c, by simp [big_integer.subAbs_loop], rfl, Words_nil, ?_⟩
    rw [List.drop_eq_nil_of_le (by simpa using hlb), List.drop_eq_nil_of_le (by simpa using hls)]
    simp
  | cons x rest0 ih =>
    intro pre c hls hlb
    have hsi : self.getD pre.length 0 < base := getD_lt hs _
    have hbi : b.getD pre.length 0 < base := getD_lt hb _
    have hc := Bool_toNat_le c
    have hbase : base = 4294967296 := rfl
    have hlen : ∀ v : Nat, (pre ++ [v]).length + rest0.length = pre.length + (x :: rest0).length := by
      intro v; simp only [List.length_append, List.length_cons, List.length_nil]; omega
    by_cases hneg : (self.getD pre.length 0 : Int) - (b.getD pre.length 0 : Nat)
        - (c.toNat : Int) < 0
    · obtain ⟨rest', c', heq, hl', hw', hv'⟩ :=
        ih (pre ++ [self.getD pre.length 0 + base - b.getD pre.length 0 - c.toNat]) true
          (by rw [hlen]; exact hls) (by rw [hlen]; exact hlb)
      have hcast : (self.getD pre.length 0 : Int) - (b.getD pre.length 0 : Nat)
          - (c.toNat : Int) + (base : Nat)
          = ((self.getD pre.length 0 + base - b.getD pre.length 0 - c.toNat : Nat) : Int) := by
        omega
      refine ⟨(self.getD pre.length 0 + base - b.getD pre.length 0 - c.toNat) :: rest', c', ?_,
        by simp [hl'], Words_cons.2 ⟨by omega, hw'⟩, ?_⟩
      · simp only [List.length_cons, big_integer.subAbs_loop, ite_getD, hneg, if_true,
          set_append_length, hcast]
        rw [u32OfInt_natCast (by omega)]
        simpa using heq
      · rw [valAbs_drop b pre.length, valAbs_drop self pre.length]
        simp only [List.length_append, List.length_singleton] at hv'
        simp only [valAbs_cons, List.length_cons, Nat.pow_succ]
        exact borrow_arith (k := 1) (by simp only [Bool.toNat_true] at hv' ⊢; omega)
          (by simpa using hv')
    · obtain ⟨rest', c', heq, hl', hw', hv'⟩ :=
        ih (pre ++ [self.getD pre.length 0 - b.getD pre.length 0 - c.toNat]) false
          (by rw [hlen]; exact hls) (by rw [hlen]; exact hlb)
      have hcast : (self.getD pre.length 0 : Int) - (b.getD pre.length 0 : Nat)
          - (c.toNat : Int)
          = ((self.getD pre.length 0 - b.getD pre.length 0 - c.toNat : Nat) : Int) := by
        omega
      refine ⟨(self.getD pre.length 0 - b.getD pre.length 0 - c.toNat) :: rest', c', ?_,
        by simp [hl'], Words_cons.2 ⟨by omega, hw'⟩, ?_⟩
      · simp only [List.length_cons, big_integer.subAbs_loop, ite_getD, hneg, if_false,
          set_append_length]
        rw [hcast, u32OfInt_natCast (by omega)]
        simpa using heq
      · rw [valAbs_drop b pre.length, valAbs_drop self pre.length]
        simp only [List.length_append, List.length_singleton] at hv'
        simp only [valAbs_cons, List.length_cons, Nat.pow_succ]
        exact borrow_arith (k := 0) (by omega) (by simpa using hv')

theorem length_le_of_valAbs_le {d e : List Nat} (hd : Words d) (he : Trimmed e)
    (h : valAbs e ≤ valAbs d) : e.length ≤ d.length := by
  by_cases hne : e = []
  · rw [hne]; exact Nat.zero_le _
  · have h1 := valAbs_ge he hne
    have h2 := valAbs_lt hd
    have h3 : base ^ (e.length - 1) < base ^ d.length := lt_of_le_of_lt (le_trans h1 h) h2
    have h4 := (Nat.pow_lt_pow_iff_right one_lt_base).1 h3
    omega

namespace big_integer

theorem trim_data (x : big_integer) : x.trim._data = x._data.rdropWhile (fun w => w == 0) := rfl
theorem trim_sign (x : big_integer) : x.trim._sign = x._sign := rfl

theorem trim_valAbs (x : big_integer) : valAbs x.trim._data = valAbs x._data := valAbs_rdrop _
theorem trim_Words {x : big_integer} (h : Words x._data) : Words x.trim._data := Words_rdrop h
theorem trim_Trimmed (x : big_integer) : Trimmed x.trim._data := Trimmed_rdrop _

theorem trim_of_Trimmed {x : big_integer} (h : Trimmed x._data) : x.trim = x := by
  cases x with
  | mk d s => simp only [trim]; congr 1; exact rdrop_of_Trimmed h

/-- The subtraction loop started at index 0 on a destination of `n` words. -/
theorem subAbs_loop_value {s b r : List Nat} (hs : Words s) (hb : Words b)
    (hls : s.length ≤ r.length) (hlb : b.length ≤ r.length)
    (hle : valAbs b ≤ valAbs s) :
    Words (subAbs_loop s b r.length 0 r false) ∧
    valAbs (subAbs_loop s b r.length 0 r false) = valAbs s - valAbs b := by
  obtain ⟨rest', c', heq, hl', hw', hv'⟩ :=
    subAbs_loop_spec s b hs hb r [] false (by simpa using hls) (by simpa using hlb)
  simp only [List.length_nil, List.nil_append, List.drop_zero, Bool.toNat_false,
    Nat.add_zero] at heq hv'
  rw [heq]
  refine ⟨hw', ?_⟩
  have hlt := valAbs_lt hw'
  rw [hl'] at hlt
  cases c' with
  | false => simp only [Bool.toNat_false, Nat.mul_zero, Nat.add_zero] at hv'; omega
  | true => simp only [Bool.toNat_true, Nat.mul_one] at hv'; omega

/-- `subAbs(*this, b)` with `|b| ≤ |*this|`. -/
theorem subAbs_self_spec {x b : big_integer} (hx : Words x._data) (hb : Words b._data)
    (tb : Trimmed b._data) (hle : valAbs b._data ≤ valAbs x._data) :
    Words (x.subAbs_self b)._data ∧ Trimmed (x.subAbs_self b)._data ∧
    valAbs (x.subAbs_self b)._data = valAbs x._data - valAbs b._data ∧
    (x.subAbs_self b)._sign = x._sign := by
  have hlen := length_le_of_valAbs_le hx tb hle
  have hmax : max x._data.length b._data.length = x._data.length := Nat.max_eq_left hlen
  have hst : x.stretch (max x._data.length b._data.length) = x := by
    unfold stretch; rw [hmax]; simp
  have h := subAbs_loop_value (r := x._data) hx hb (le_refl _) hlen hle
  unfold subAbs_self
  simp only [hst]
  rw [hmax]
  refine ⟨trim_Words h.1, trim_Trimmed _, ?_, rfl⟩
  rw [trim_valAbs]; exact h.2

/-- `x.subAbs(res, res)` with `|res| ≤ |x|`. -/
theorem subAbs_arg_spec {x res : big_integer} (hx : Words x._data)
    (hr : Words res._data) (hle : valAbs res._data ≤ valAbs x._data)
    (hlen : res._data.length ≤ x._data.length) :
    Words (x.subAbs_arg res)._data ∧ Trimmed (x.subAbs_arg res)._data ∧
    valAbs (x.subAbs_arg res)._data = valAbs x._data - valAbs res._data ∧
    (x.subAbs_arg res)._sign = res._sign := by
  have hmax : max x._data.length res._data.length = x._data.length := Nat.max_eq_left hlen
  have hsl : (res.stretch x._data.length)._data.length = x._data.length := by
    rw [stretch_length]; exact Nat.max_eq_right hlen
  have h := subAbs_loop_value (s := x._data) (b := (res.stretch x._data.length)._data)
    (r := (res.stretch x._data.length)._data) hx (stretch_Words hr _)
    (by rw [hsl]) (le_refl _) (by rw [stretch_valAbs]; exact hle)
  rw [hsl, stretch_valAbs] at h
  unfold subAbs_arg
  simp only [hmax]
  refine ⟨trim_Words h.1, trim_Trimmed _, ?_, ?_⟩
  · rw [trim_valAbs]; exact h.2
  · rw [trim_sign]; exact stretch_sign _ _

theorem canonical_iff (x : big_integer) :
    x.canonical ↔ Words x._data ∧ Trimmed x._data ∧ (x._data = [] → x._sign = false) := Iff.rfl

theorem value_eq (x : big_integer) :
    x.value = if x._sign then -(valAbs x._data : Int) else (valAbs x._data : Int) := rfl

theorem zeroResult_data (x : big_integer) : x.zeroResult._data = x._data := by
  unfold zeroResult; split <;> rfl

theorem zeroResult_value (x : big_integer) : x.zeroResult.value = x.value := by
  unfold zeroResult isZero
  split
  · next h =>
    have : x._data = [] := by simpa using h
    simp [value_eq, this]
  · rfl

theorem zeroResult_canonical {x : big_integer} (hw : Words x._data) (ht : Trimmed x._data) :
    x.zeroResult.canonical := by
  refine ⟨by rw [zeroResult_data]; exact hw, by rw [zeroResult_data]; exact ht, ?_⟩
  intro h
  rw [zeroResult_data] at h
  unfold zeroResult isZero
  simp [h]

theorem zeroResult_of_canonical {x : big_integer} (h : x.canonical) : x.zeroResult = x := by
  unfold zeroResult isZero
  split
  · next hz =>
    have hd : x._data = [] := by simpa using hz
    cases x with
    | mk d s =>
      have := h.2.2 hd
      simp only at this hd
      simp [this]
  · rfl

/-- `operator+=` on operands without leading zero words (a zero of either sign allowed). -/
theorem operator_plus_eq_core {x rhs : big_integer} (wx : Words x._data) (tx : Trimmed x._data)
    (wr : Words rhs._data) (tr : Trimmed rhs._data) :
    Words (x.operator_plus_eq rhs)._data ∧ Trimmed (x.operator_plus_eq rhs)._data ∧
    (x.operator_plus_eq rhs).value = x.value + rhs.value ∧
    ((x._data = [] → x._sign = false) → (x.operator_plus_eq rhs).canonical) := by
  unfold operator_plus_eq
  by_cases hs : x._sign = rhs._sign
  · rw [if_pos hs]
    obtain ⟨hw, hv, hsg, ht⟩ := sumAbs_spec wx wr
    refine ⟨hw, ht tx tr, ?_, fun zx => ⟨hw, ht tx tr, ?_⟩⟩
    · rw [value_eq, value_eq, value_eq, hsg, hv, ← hs]
      split <;> push_cast <;> ring
    · intro hd
      rw [hsg]
      apply zx
      have h0 : valAbs (x.sumAbs rhs)._data = 0 := by rw [hd]; rfl
      rw [hv] at h0
      exact (valAbs_eq_zero_iff wx tx).1 (by omega)
  · rw [if_neg hs, zeroResult_value, zeroResult_data]
    by_cases hc : x.compareLessAbs rhs = true
    · rw [if_pos hc]
      have hlt := (compareLessAbs_iff wx tx wr tr).1 hc
      obtain ⟨hw, ht, hv, hsg⟩ := @subAbs_arg_spec rhs { x with _sign := rhs._sign }
        wr wx (Nat.le_of_lt hlt) (length_le_of_valAbs_le wr tx (Nat.le_of_lt hlt))
      refine ⟨hw, ht, ?_, fun _ => zeroResult_canonical hw ht⟩
      rw [value_eq, value_eq, value_eq, hsg, hv]
      simp only
      have hxs : x._sign = !rhs._sign := by
        cases hx' : x._sign <;> cases hr' : rhs._sign <;> simp_all
      rw [hxs]
      cases rhs._sign <;> simp <;> omega
    · rw [if_neg hc]
      have hge : valAbs rhs._data ≤ valAbs x._data := by
        have := (compareLessAbs_iff wx tx wr tr).not.1 hc
        omega
      obtain ⟨hw, ht, hv, hsg⟩ := subAbs_self_spec wx wr tr hge
      refine ⟨hw, ht, ?_, fun _ => zeroResult_canonical hw ht⟩
      rw [value_eq, value_eq, value_eq, hsg, hv]
      have hxs : rhs._sign = !x._sign := by
        cases hx' : x._sign <;> cases hr' : rhs._sign <;> simp_all
      rw [hxs]
      cases x._sign <;> simp <;> omega

/-- `operator+=` on canonical operands: the result is canonical and its value is the sum. -/
theorem operator_plus_eq_spec {x rhs : big_integer} (hx : x.canonical) (hr : rhs.canonical) :
    (x.operator_plus_eq rhs).canonical ∧ (x.operator_plus_eq rhs).value = x.value + rhs.value := by
  obtain ⟨_, _, hv, hc⟩ := operator_plus_eq_core hx.1 hx.2.1 hr.1 hr.2.1
  exact ⟨hc hx.2.2, hv⟩

theorem value_flip (x : big_integer) : ({ x with _sign := !x._sign } : big_integer).value = -x.value := by
  rw [value_eq, value_eq]
  cases x._sign <;> simp

/-- `operator-=` on canonical operands: the result is canonical and its value is the
difference. -/
theorem operator_minus_eq_spec {x rhs : big_integer} (hx : x.canonical) (hr : rhs.canonical) :
    (x.operator_minus_eq rhs).canonical ∧
    (x.operator_minus_eq rhs).value = x.value - rhs.value := by
  obtain ⟨hw, ht, hv, _⟩ := operator_plus_eq_core (x := { x with _sign := !x._sign })
    hx.1 hx.2.1 hr.1 hr.2.1
  unfold operator_minus_eq
  refine ⟨zeroResult_canonical hw ht, ?_⟩
  rw [zeroResult_value, value_flip, hv, value_flip]
  ring

end big_integer

/-! ### Multiplication -/

theorem mul_word_bound {x b c : Nat} (hx : x < base) (hb : b < base) (hc : c < base) :
    c + x * b < base * base := by
  have h1 : x * b ≤ (base - 1) * (base - 1) := Nat.mul_le_mul (by omega) (by omega)
  have hbase : base = 4294967296 := rfl
  rw [hbase] at h1 hc ⊢
  omega

theorem mul_word_bound2 {x b c t : Nat} (hx : x < base) (hb : b < base) (hc : c < base)
    (ht : t < base) : t + x * b + c < base * base := by
  have h1 : x * b ≤ (base - 1) * (base - 1) := Nat.mul_le_mul (by omega) (by omega)
  have hbase : base = 4294967296 := rfl
  rw [hbase] at h1 hc ht ⊢
  omega

theorem u64_mul_word {x b : Nat} (hx : x < base) (hb : b < base) : u64 (x * b) = x * b := by
  have := mul_word_bound hx hb base_pos
  exact u64_of_lt (by omega)

theorem div_base_lt {cur : Nat} (h : cur < base * base) : cur / base < base :=
  Nat.div_lt_of_lt_mul h

theorem mod_base_lt (cur : Nat) : cur % base < base := Nat.mod_lt _ base_pos

theorem mulDigitAbs_loop_spec (b : Nat) (hb : b < base) :
    ∀ (rest pre : List Nat) (c : Nat), c < base → Words rest →
      ∃ out : List Nat,
        big_integer.mulDigitAbs_loop b rest.length pre.length (pre ++ c :: rest) = pre ++ out ∧
        out.length = rest.length + 1 ∧ Words out ∧ valAbs out = c + valAbs rest * b := by
  intro rest
  induction rest with
  | nil =>
    intro pre c hc _
    exact ⟨[c], by simp [big_integer.mulDigitAbs_loop], rfl, Words_cons.2 ⟨hc, Words_nil⟩, by simp⟩
  | cons x rest0 ih =>
    intro pre c hc hw
    obtain ⟨hx, hw0⟩ := Words_cons.1 hw
    have hcur := mul_word_bound hx hb hc
    have hval : u64 (c + u64 (x * b)) = c + x * b := by
      rw [u64_mul_word hx hb, u64_of_lt hcur]
    obtain ⟨out, heq, hl, hwo, hv⟩ :=
      ih (pre ++ [(c + x * b) % base]) ((c + x * b) / base) (div_base_lt hcur) hw0
    refine ⟨((c + x * b) % base) :: out, ?_, by simp [hl], Words_cons.2 ⟨mod_base_lt _, hwo⟩, ?_⟩
    · have hg1 : (pre ++ c :: x :: rest0).getD (pre.length + 1) 0 = x := by
        rw [getD_append_add]; rfl
      have hs1 : (pre ++ (c + x * b) % base :: x :: rest0).set (pre.length + 1) ((c + x * b) / base)
          = pre ++ (c + x * b) % base :: (c + x * b) / base :: rest0 := by
        rw [set_append_add]; rfl
      simp only [List.length_cons, big_integer.mulDigitAbs_loop, getD_append_length, hg1, hval,
        set_append_length, u32_of_lt (mod_base_lt _), u32_of_lt (div_base_lt hcur), hs1]
      simpa using heq
    · rw [valAbs_cons, hv, valAbs_cons]
      have := Nat.mod_add_div (c + x * b) base
      calc (c + x * b) % base + base * ((c + x * b) / base + valAbs rest0 * b)
          = ((c + x * b) % base + base * ((c + x * b) / base)) + base * (valAbs rest0 * b) := by
            ring
        _ = c + x * b + base * (valAbs rest0 * b) := by rw [this]
        _ = c + (x + base * valAbs rest0) * b := by ring

namespace big_integer

/-- `mulDigitAbs` multiplies the magnitude by a word and trims. -/
theorem mulDigitAbs_spec {x : big_integer} {b : Nat} (hx : Words x._data) (hb : b < base) :
    Words (x.mulDigitAbs b)._data ∧ Trimmed (x.mulDigitAbs b)._data ∧
    valAbs (x.mulDigitAbs b)._data = valAbs x._data * b ∧ (x.mulDigitAbs b)._sign = x._sign := by
  obtain ⟨out, heq, _, hwo, hv⟩ := mulDigitAbs_loop_spec b hb x._data [] 0 base_pos hx
  simp only [List.length_nil, List.nil_append] at heq
  have hd : (x.mulDigitAbs b)._data = out.rdropWhile (fun w => w == 0) := by
    simp only [mulDigitAbs, List.length_cons, Nat.add_sub_cancel, heq, trim_data]
  rw [hd]
  refine ⟨Words_rdrop hwo, Trimmed_rdrop _, ?_, rfl⟩
  rw [valAbs_rdrop, hv]; simp

end big_integer

theorem mulAbs_inner_spec (b : List Nat) (hb : Words b) (i a : Nat) (ha : a < base)
    (hi : List Nat) :
    ∀ (todo pre : List Nat) (j carry : Nat), pre.length = i + j → todo.length + j = b.length →
      Words todo → carry < base →
      ∃ (todo' : List Nat) (carry' : Nat),
        big_integer.mulAbs_inner b i todo.length j (pre ++ todo ++ a :: hi) carry
          = (pre ++ todo' ++ a :: hi, carry') ∧
        todo'.length = todo.length ∧ Words todo' ∧ carry' < base ∧
        valAbs todo' + base ^ todo.length * carry' = valAbs todo + a * valAbs (b.drop j) + carry := by
  intro todo
  induction todo with
  | nil =>
    intro pre j carry _ hj _ hc
    refine ⟨[], carry, by simp [big_integer.mulAbs_inner], rfl, Words_nil, hc, ?_⟩
    rw [List.drop_eq_nil_of_le (by simp at hj; omega)]
    simp
  | cons t todo0 ih =>
    intro pre j carry hp hj hw hc
    obtain ⟨ht, hw0⟩ := Words_cons.1 hw
    have hbj : b.getD j 0 < base := getD_lt hb _
    have hcur := mul_word_bound2 ha hbj hc ht
    have hval : u64 (u64 (t + u64 (a * b.getD j 0)) + carry) = t + a * b.getD j 0 + carry := by
      rw [u64_mul_word ha hbj, u64_of_lt (x := t + a * b.getD j 0) (by omega), u64_of_lt hcur]
    obtain ⟨todo', carry', heq, hl, hwt, hc', hv⟩ :=
      ih (pre ++ [(t + a * b.getD j 0 + carry) % base]) (j + 1)
        ((t + a * b.getD j 0 + carry) / base)
        (by simp only [List.length_append, List.length_cons, List.length_nil]; omega)
        (by simp only [List.length_cons] at hj; omega) hw0 (div_base_lt hcur)
    refine ⟨((t + a * b.getD j 0 + carry) % base) :: todo', carry', ?_, by simp [hl],
      Words_cons.2 ⟨mod_base_lt _, hwt⟩, hc', ?_⟩
    · have hg0 : (pre ++ t :: todo0 ++ a :: hi).getD (i + j) 0 = t := by
        rw [← hp, List.append_assoc]; exact getD_append_length _ _ _
      have hg1 : (pre ++ t :: todo0 ++ a :: hi).getD (i + b.length) 0 = a := by
        have e : i + b.length = (pre ++ t :: todo0).length := by
          simp only [List.length_append, List.length_cons] at hj ⊢; omega
        rw [e]; exact getD_append_length _ _ _
      have hs0 : (pre ++ t :: todo0 ++ a :: hi).set (i + j) ((t + a * b.getD j 0 + carry) % base)
          = pre ++ [(t + a * b.getD j 0 + carry) % base] ++ todo0 ++ a :: hi := by
        rw [← hp, List.append_assoc, List.cons_append, set_append_length]; simp
      simp only [List.length_cons, big_integer.mulAbs_inner, hg0, hg1, hval,
        u32_of_lt (mod_base_lt _), u32_of_lt (div_base_lt hcur), hs0]
      simpa using heq
    · rw [valAbs_drop b j, valAbs_cons, valAbs_cons]
      simp only [List.length_cons, Nat.pow_succ]
      have := Nat.mod_add_div (t + a * b.getD j 0 + carry) base
      calc (t + a * b.getD j 0 + carry) % base + base * valAbs todo'
            + base ^ todo0.length * base * carry'
          = (t + a * b.getD j 0 + carry) % base
            + base * (valAbs todo' + base ^ todo0.length * carry') := by ring
        _ = ((t + a * b.getD j 0 + carry) % base + base * ((t + a * b.getD j 0 + carry) / base))
            + base * (valAbs todo0 + a * valAbs (b.drop (j + 1))) := by rw [hv]; ring
        _ = (t + a * b.getD j 0 + carry)
            + base * (valAbs todo0 + a * valAbs (b.drop (j + 1))) := by rw [this]
        _ = t + base * valAbs todo0 + a * (b.getD j 0 + base * valAbs (b.drop (j + 1))) + carry := by
            ring

theorem mulAbs_outer_spec (b : List Nat) (hb : Words b) :
    ∀ (hi lo mid : List Nat), mid.length = b.length → Words mid → Words hi →
      ∃ out : List Nat,
        big_integer.mulAbs_outer b hi.length lo.length (lo ++ mid ++ hi) = lo ++ out ∧
        Words out ∧ valAbs out = valAbs mid + valAbs hi * valAbs b := by
  intro hi
  induction hi with
  | nil =>
    intro lo mid _ hm _
    exact ⟨mid, by simp [big_integer.mulAbs_outer], hm, by simp⟩
  | cons a hi0 ih =>
    intro lo mid hl hm hh
    obtain ⟨ha, hh0⟩ := Words_cons.1 hh
    obtain ⟨mid', carry', heq, hl', hw', hc', hv'⟩ :=
      mulAbs_inner_spec b hb lo.length a ha hi0 mid lo 0 0 rfl (by simpa using hl) hm base_pos
    rw [hl] at heq
    simp only [List.drop_zero, Nat.add_zero] at hv'
    have hset : (lo ++ mid' ++ a :: hi0).set (lo.length + b.length) carry'
        = lo ++ mid' ++ carry' :: hi0 := by
      have e : lo.length + b.length = (lo ++ mid').length := by
        rw [List.length_append, hl', hl]
      rw [e]; exact set_append_length _ _ _ _
    have hstep : big_integer.mulAbs_outer b (a :: hi0).length lo.length (lo ++ mid ++ a :: hi0)
        = big_integer.mulAbs_outer b hi0.length (lo.length + 1) (lo ++ mid' ++ carry' :: hi0) := by
      simp only [List.length_cons, big_integer.mulAbs_outer, heq, hset]
    rw [hstep]
    cases mid' with
    | nil =>
      have hb0 : b = [] := by
        apply List.eq_nil_of_length_eq_zero
        rw [← hl, ← hl']; rfl
      have hmid : mid = [] := by
        apply List.eq_nil_of_length_eq_zero
        rw [hl, hb0]; rfl
      subst hb0 hmid
      simp only [valAbs_nil, List.length_nil, pow_zero, one_mul, Nat.mul_zero, Nat.add_zero,
        Nat.zero_add] at hv'
      obtain ⟨out, heq2, hwo, hvo⟩ := ih (lo ++ [carry']) [] rfl Words_nil hh0
      refine ⟨carry' :: out, ?_, Words_cons.2 ⟨hc', hwo⟩, ?_⟩
      · simpa using heq2
      · rw [valAbs_cons, hvo, hv']; simp
    | cons m0 mid1 =>
      obtain ⟨hm0, hw1⟩ := Words_cons.1 hw'
      have hlen1 : (mid1 ++ [carry']).length = b.length := by
        rw [← hl, ← hl']; simp
      obtain ⟨out, heq2, hwo, hvo⟩ := ih (lo ++ [m0]) (mid1 ++ [carry']) hlen1
        (Words_append.2 ⟨hw1, Words_cons.2 ⟨hc', Words_nil⟩⟩) hh0
      refine ⟨m0 :: out, ?_, Words_cons.2 ⟨hm0, hwo⟩, ?_⟩
      · simpa using heq2
      · rw [valAbs_cons, hvo, valAbs_append, valAbs_cons, valAbs_cons, valAbs_nil]
        rw [valAbs_cons] at hv'
        have hlm : mid.length = mid1.length + 1 := by rw [← hl']; rfl
        rw [hlm, Nat.pow_succ] at hv'
        calc m0 + base * (valAbs mid1 + base ^ mid1.length * (carry' + base * 0)
              + valAbs hi0 * valAbs b)
            = (m0 + base * valAbs mid1 + base ^ mid1.length * base * carry')
              + base * (valAbs hi0 * valAbs b) := by ring
          _ = valAbs mid + a * valAbs b + base * (valAbs hi0 * valAbs b) := by rw [hv']
          _ = valAbs mid + (a + base * valAbs hi0) * valAbs b := by ring

namespace big_integer

/-- `mulAbs` multiplies the magnitudes and trims. -/
theorem mulAbs_spec {x b : big_integer} (hx : Words x._data) (hb : Words b._data) :
    Words (x.mulAbs b)._data ∧ Trimmed (x.mulAbs b)._data ∧
    valAbs (x.mulAbs b)._data = valAbs x._data * valAbs b._data ∧
    (x.mulAbs b)._sign = x._sign := by
  obtain ⟨out, heq, hwo, hv⟩ := mulAbs_outer_spec b._data hb x._data []
    (List.replicate b._data.length 0) (by simp) (Words_replicate_zero _) hx
  simp only [List.length_nil, List.nil_append] at heq
  have hd : (x.mulAbs b)._data = out.rdropWhile (fun w => w == 0) := by
    simp only [mulAbs, heq, trim_data]
  rw [hd]
  refine ⟨Words_rdrop hwo, Trimmed_rdrop _, ?_, rfl⟩
  rw [valAbs_rdrop, hv, valAbs_replicate_zero]; simp

theorem value_zero_of_data_nil {x : big_integer} (h : x._data = []) : x.value = 0 := by
  rw [value_eq, h]; simp

theorem natAbs_value (x : big_integer) : x.value.natAbs = valAbs x._data := by
  rw [value_eq]; split <;> simp

/-- `operator*=` on canonical operands: the result is canonical and its value is the
product. -/
theorem operator_mul_eq_spec {x rhs : big_integer} (hx : x.canonical) (hr : rhs.canonical) :
    (x.operator_mul_eq rhs).canonical ∧ (x.operator_mul_eq rhs).value = x.value * rhs.value := by
  unfold operator_mul_eq isZero
  by_cases hz : (rhs._data.isEmpty || x._data.isEmpty) = true
  · rw [if_pos hz]
    refine ⟨by decide, ?_⟩
    simp only [Bool.or_eq_true, List.isEmpty_iff] at hz
    rcases hz with h | h
    · rw [value_zero_of_data_nil h]; simp [value_eq]
    · rw [value_zero_of_data_nil h]; simp [value_eq]
  · rw [if_neg hz]
    obtain ⟨hw, ht, hv, hs⟩ := mulAbs_spec hx.1 hr.1
    refine ⟨zeroResult_canonical hw ht, ?_⟩
    rw [zeroResult_value, value_eq, value_eq, value_eq]
    simp only [hv, hs]
    cases x._sign <;> cases rhs._sign <;> simp

end big_integer

/-! ### Division by a word, shifts, comparison -/

theorem singleWordDiv_loop_spec (b : Nat) (hb0 : 0 < b) (hb : b < base) :
    ∀ (pre rest : List Nat) (carry : Nat), carry < b → Words pre →
      ∃ (pre' : List Nat) (carry' : Nat),
        big_integer.singleWordDiv_loop b pre.length (pre ++ rest) carry = (pre' ++ rest, carry') ∧
        pre'.length = pre.length ∧ Words pre' ∧ carry' < b ∧
        valAbs pre' * b + carry' = valAbs pre + base ^ pre.length * carry := by
  intro pre
  induction pre using List.reverseRecOn with
  | nil =>
    intro rest carry hc _
    exact ⟨[], carry, by simp [big_integer.singleWordDiv_loop], rfl, Words_nil, hc, by simp⟩
  | append_singleton p0 x ih =>
    intro rest carry hc hw
    obtain ⟨hw0, hx1⟩ := Words_append.1 hw
    have hx : x < base := (Words_cons.1 hx1).1
    have hcb : carry * base + x < b * base := by
      have h1 : (carry + 1) * base ≤ b * base := Nat.mul_le_mul_right _ hc
      have h2 : (carry + 1) * base = carry * base + base := by ring
      omega
    have hbb : b * base ≤ base * base := Nat.mul_le_mul_right _ (Nat.le_of_lt hb)
    have hval : u64 (x + u64 (carry * base)) = x + carry * base := by
      rw [u64_of_lt (x := carry * base) (by omega), u64_of_lt (by omega)]
    have hq : (x + carry * base) / b < base := by
      apply Nat.div_lt_of_lt_mul
      rw [Nat.mul_comm b base] at hcb
      have : b * base = base * b := Nat.mul_comm _ _
      omega
    have hr : (x + carry * base) % b < b := Nat.mod_lt _ hb0
    obtain ⟨pre', carry', heq, hl, hwp, hc', hv⟩ :=
      ih ((x + carry * base) / b :: rest) ((x + carry * base) % b) hr hw0
    refine ⟨pre' ++ [(x + carry * base) / b], carry', ?_, by simp [hl],
      Words_append.2 ⟨hwp, Words_cons.2 ⟨hq, Words_nil⟩⟩, hc', ?_⟩
    · have e : (p0 ++ [x]).length = p0.length + 1 := by simp
      rw [e]
      simp only [big_integer.singleWordDiv_loop, List.append_assoc, List.singleton_append,
        getD_append_length, hval, set_append_length, u32_of_lt hq, u32_of_lt (lt_trans hr hb)]
      exact heq
    · rw [valAbs_append, valAbs_append, hl]
      simp only [valAbs_cons, valAbs_nil, Nat.mul_zero, Nat.add_zero, List.length_append,
        List.length_singleton, Nat.pow_succ]
      have := Nat.div_add_mod (x + carry * base) b
      calc (valAbs pre' + base ^ p0.length * ((x + carry * base) / b)) * b + carry'
          = (valAbs pre' * b + carry') + base ^ p0.length * (b * ((x + carry * base) / b)) := by
            ring
        _ = valAbs p0 + base ^ p0.length * ((x + carry * base) % b)
            + base ^ p0.length * (b * ((x + carry * base) / b)) := by rw [hv]
        _ = valAbs p0 + base ^ p0.length
            * (b * ((x + carry * base) / b) + (x + carry * base) % b) := by ring
        _ = valAbs p0 + base ^ p0.length * (x + carry * base) := by rw [this]
        _ = valAbs p0 + base ^ p0.length * x + base ^ p0.length * base * carry := by ring

namespace big_integer

/-- `singleWordDiv` by a nonzero word returns, leaves the quotient of the magnitude in the
receiver (trimmed, a zero result with `_sign = false`) and returns the remainder. -/
theorem singleWordDiv_spec {x : big_integer} {b : Nat} (hx : Words x._data) (hb0 : 0 < b)
    (hb : b < base) :
    ∃ (y : big_integer) (r : Nat), x.singleWordDiv b = .ok (y, r) ∧ Words y._data ∧
      Trimmed y._data ∧ valAbs y._data = valAbs x._data / b ∧ r = valAbs x._data % b ∧
      y._sign = (if y._data = [] then false else x._sign) := by
  obtain ⟨pre', carry', heq, _, hwp, hc', hv⟩ :=
    singleWordDiv_loop_spec b hb0 hb x._data [] 0 hb0 hx
  simp only [List.append_nil, Nat.mul_zero, Nat.add_zero] at heq hv
  have hq : valAbs pre' = valAbs x._data / b := by
    rw [← hv, Nat.mul_comm, Nat.mul_add_div hb0, Nat.div_eq_of_lt hc']; rfl
  have hr : carry' = valAbs x._data % b := by
    rw [← hv, Nat.mul_comm, Nat.mul_add_mod, Nat.mod_eq_of_lt hc']
  have hne : b ≠ 0 := by omega
  unfold singleWordDiv
  rw [if_neg hne]
  simp only [heq]
  refine ⟨_, _, rfl, ?_, ?_, ?_, hr, ?_⟩
  · split
    · exact trim_Words hwp
    · exact trim_Words hwp
  · split
    · exact trim_Trimmed _
    · exact trim_Trimmed _
  · have : valAbs (trim { _data := pre', _sign := x._sign })._data = valAbs x._data / b := by
      rw [trim_valAbs]; exact hq
    split
    · exact this
    · exact this
  · unfold isZero
    split
    · next h =>
      have : (trim { _data := pre', _sign := x._sign })._data = [] := by simpa using h
      simp [this]
    · next h =>
      have : (trim { _data := pre', _sign := x._sign })._data ≠ [] := by simpa using h
      simp [this, trim_sign]

theorem valAbs_replicate_append (n : Nat) (d : List Nat) :
    valAbs (List.replicate n 0 ++ d) = base ^ n * valAbs d := by
  rw [valAbs_append, valAbs_replicate_zero]; simp

theorem two_pow_lt_base {k : Nat} (h : k < 32) : 2 ^ k < base := by
  have : (2 : Nat) ^ k < 2 ^ 32 := Nat.pow_lt_pow_right (by decide) h
  exact this

/-- `operator<<=` multiplies the magnitude by `2 ^ rhs` and keeps the sign. -/
theorem operator_shl_eq_spec {x : big_integer} (hx : Words x._data) (k : Nat) :
    Words (x.operator_shl_eq k)._data ∧ Trimmed (x.operator_shl_eq k)._data ∧
    valAbs (x.operator_shl_eq k)._data = valAbs x._data * 2 ^ k ∧
    (x.operator_shl_eq k)._sign = x._sign := by
  have hlt : 2 ^ (k % 32) < base := two_pow_lt_base (Nat.mod_lt _ (by decide))
  have hu : u32 (2 ^ (k % 32)) = 2 ^ (k % 32) := u32_of_lt hlt
  obtain ⟨hw, ht, hv, hs⟩ := mulDigitAbs_spec
    (x := { x with _data := List.replicate (k / 32) 0 ++ x._data }) (b := 2 ^ (k % 32))
    (Words_append.2 ⟨Words_replicate_zero _, hx⟩) hlt
  unfold operator_shl_eq
  rw [hu]
  refine ⟨hw, ht, ?_, hs⟩
  rw [hv, valAbs_replicate_append]
  have hb : base = 2 ^ 32 := rfl
  have hk : 2 ^ k = 2 ^ (32 * (k / 32) + k % 32) := by rw [Nat.div_add_mod]
  rw [hk, Nat.pow_add, Nat.pow_mul, ← hb]
  ring

theorem valAbs_pos_of_sign {x : big_integer} (h : x.canonical) (hs : x._sign = true) :
    0 < valAbs x._data := by
  apply Nat.pos_of_ne_zero
  intro h0
  have := h.2.2 ((valAbs_eq_zero_iff h.1 h.2.1).1 h0)
  rw [hs] at this
  exact Bool.noConfusion this

/-- `operator<` on canonical operands is the order of the values. -/
theorem operator_lt_iff {a b : big_integer} (ha : a.canonical) (hb : b.canonical) :
    operator_lt a b = true ↔ a.value < b.value := by
  have hcmp := compareLessAbs_iff ha.1 ha.2.1 hb.1 hb.2.1
  have hcmp' := compareLessAbs_iff hb.1 hb.2.1 ha.1 ha.2.1
  unfold operator_lt
  rw [value_eq, value_eq]
  cases hsa : a._sign <;> cases hsb : b._sign
  · simp [hcmp]
  · have := valAbs_pos_of_sign hb hsb
    simp
    omega
  · have := valAbs_pos_of_sign ha hsa
    simp
    omega
  · simp [hcmp']

theorem operator_ge_iff {a b : big_integer} (ha : a.canonical) (hb : b.canonical) :
    operator_ge a b = true ↔ b.value ≤ a.value := by
  unfold operator_ge
  rw [Bool.not_eq_true', ← Bool.not_eq_true, operator_lt_iff ha hb]
  omega

theorem of_int_zero : of_int 0 = ⟨[], false⟩ := by decide

theorem of_unsigned_int_spec {w : Nat} (hw : w < base) :
    (of_unsigned_int w).canonical ∧ (of_unsigned_int w).value = w := by
  have h1 : u64 (u32 w) = w := by rw [u32_of_lt hw, u64_of_lt]; unfold base at *; omega
  have h2 : w % base = w := Nat.mod_eq_of_lt hw
  have h3 : w / base = 0 := Nat.div_eq_of_lt hw
  have hd : of_unsigned_int w = trim ⟨[w], false⟩ := by
    unfold of_unsigned_int of_unsigned_long_long
    rw [h1]
    simp [pushWords, h2, h3]
  rw [hd]
  have hww : Words [w] := Words_cons.2 ⟨hw, Words_nil⟩
  refine ⟨⟨trim_Words (x := ⟨[w], false⟩) hww, trim_Trimmed _, fun _ => rfl⟩, ?_⟩
  rw [value_eq, trim_sign, trim_valAbs]
  simp

end big_integer

/-! ### Long division -/

theorem length_eq_of_bounds {d : List Nat} {n : Nat} (hw : Words d) (ht : Trimmed d)
    (h1 : base ^ (n - 1) ≤ valAbs d) (h2 : valAbs d < base ^ n) (hn : 1 ≤ n) : d.length = n := by
  have hne : d ≠ [] := by
    intro h0
    rw [h0, valAbs_nil] at h1
    have : 0 < base ^ (n - 1) := pow_pos base_pos _
    omega
  have h3 := valAbs_ge ht hne
  have h4 := valAbs_lt hw
  have h5 := (Nat.pow_lt_pow_iff_right one_lt_base).1 (lt_of_le_of_lt h3 h2)
  have h6 := (Nat.pow_lt_pow_iff_right one_lt_base).1 (lt_of_le_of_lt h1 h4)
  have h7 : 0 < d.length := List.length_pos.2 hne
  omega

theorem top_lt_half_iff {d : List Nat} (hw : Words d) (hne : d ≠ []) :
    d.getLastD 0 < base / 2 ↔ 2 * valAbs d < base ^ d.length := by
  induction d using List.reverseRecOn with
  | nil => exact absurd rfl hne
  | append_singleton l t _ =>
    have hl := valAbs_lt (Words_append.1 hw).1
    have e1 : (l ++ [t]).getLastD 0 = t := by simp [List.getLastD_eq_getLast?]
    rw [e1, valAbs_append]
    simp only [valAbs_cons, valAbs_nil, Nat.mul_zero, Nat.add_zero, List.length_append,
      List.length_singleton, Nat.pow_succ]
    have hhalf : base / 2 * 2 = base := by decide
    have e2 : base ^ l.length * base = base ^ l.length * (base / 2) * 2 := by
      rw [Nat.mul_assoc, hhalf]
    constructor
    · intro h
      have h3 : base ^ l.length * (t + 1) ≤ base ^ l.length * (base / 2) :=
        Nat.mul_le_mul_left _ h
      have h4 : base ^ l.length * (t + 1) = base ^ l.length * t + base ^ l.length := by ring
      omega
    · intro h
      by_contra hc
      have h3 : base ^ l.length * (base / 2) ≤ base ^ l.length * t :=
        Nat.mul_le_mul_left _ (by omega)
      omega

namespace big_integer

theorem normalize_loop_spec :
    ∀ (fuel : Nat) (b : big_integer) (k : Nat), Words b._data → Trimmed b._data → b._data ≠ [] →
      base ^ b._data.length ≤ valAbs b._data * 2 ^ (fuel + 1) →
      ∃ (b1 : big_integer) (j : Nat), normalize_loop fuel b k = some (b1, k + j) ∧
        Words b1._data ∧ Trimmed b1._data ∧ b1._data.length = b._data.length ∧
        valAbs b1._data = valAbs b._data * 2 ^ j ∧ base ^ b._data.length ≤ 2 * valAbs b1._data ∧
        b1._sign = b._sign := by
  intro fuel
  induction fuel with
  | zero =>
    intro b k hw _ hne hf
    have hc : ¬ (b._data.getLastD 0 < base / 2) := by
      rw [top_lt_half_iff hw hne]
      simp only [Nat.zero_add, pow_one] at hf
      omega
    refine ⟨b, 0, by simp only [normalize_loop, if_neg hc, Nat.add_zero], hw, ‹_›, rfl, by simp, ?_, rfl⟩
    simp only [Nat.zero_add, pow_one] at hf
    omega
  | succ fuel ih =>
    intro b k hw ht hne hf
    by_cases hc : b._data.getLastD 0 < base / 2
    · obtain ⟨hw', ht', hv', hs'⟩ := operator_shl_eq_spec hw 1
      have hlt := (top_lt_half_iff hw hne).1 hc
      have hge := valAbs_ge ht hne
      have hpos : 1 ≤ b._data.length := List.length_pos.2 hne
      simp only [pow_one] at hv'
      have hlen : (b.operator_shl_eq 1)._data.length = b._data.length :=
        length_eq_of_bounds hw' ht' (by rw [hv']; omega) (by rw [hv']; omega) hpos
      have hne' : (b.operator_shl_eq 1)._data ≠ [] := by
        intro h0
        rw [h0] at hlen
        simp at hlen
        omega
      obtain ⟨b1, j, heq, hw1, ht1, hl1, hv1, hh1, hs1⟩ := ih (b.operator_shl_eq 1) (k + 1) hw' ht'
        hne' (by
          rw [hlen, hv']
          have : valAbs b._data * 2 * 2 ^ (fuel + 1) = valAbs b._data * 2 ^ (fuel + 1 + 1) := by
            ring
          rw [this]; exact hf)
      refine ⟨b1, j + 1, ?_, hw1, ht1, by rw [hl1, hlen], ?_, by rw [← hlen]; exact hh1,
        by rw [hs1, hs']⟩
      · simp only [normalize_loop, if_pos hc]
        rw [heq, Nat.add_assoc, Nat.add_comm 1 j]
      · rw [hv1, hv']; ring
    · refine ⟨b, 0, by simp only [normalize_loop, if_neg hc, Nat.add_zero], hw, ht, rfl, by simp, ?_, rfl⟩
      have := (top_lt_half_iff hw hne).not.1 hc
      omega

end big_integer

theorem valAbs_lt_drop : ∀ (d : List Nat) (j : Nat), Words d →
    valAbs d < (valAbs (d.drop j) + 1) * base ^ j := by
  intro d
  induction d with
  | nil => intro j _; simp; exact pow_pos base_pos _
  | cons w ws ih =>
    intro j hw
    cases j with
    | zero => simp
    | succ j =>
      obtain ⟨hw1, hw2⟩ := Words_cons.1 hw
      have h := ih j hw2
      simp only [List.drop_succ_cons, valAbs_cons, Nat.pow_succ]
      have h2 : base * (valAbs ws + 1) ≤ base * ((valAbs (ws.drop j) + 1) * base ^ j) :=
        Nat.mul_le_mul_left _ h
      have h3 : base * (valAbs ws + 1) = base * valAbs ws + base := by ring
      have h4 : base * ((valAbs (ws.drop j) + 1) * base ^ j)
          = (valAbs (ws.drop j) + 1) * (base ^ j * base) := by ring
      omega

theorem valAbs_ge_drop : ∀ (d : List Nat) (j : Nat),
    base ^ j * valAbs (d.drop j) ≤ valAbs d := by
  intro d
  induction d with
  | nil => intro j; simp
  | cons w ws ih =>
    intro j
    cases j with
    | zero => simp
    | succ j =>
      have h := ih j
      simp only [List.drop_succ_cons, valAbs_cons, Nat.pow_succ]
      have h2 : base * (base ^ j * valAbs (ws.drop j)) ≤ base * valAbs ws :=
        Nat.mul_le_mul_left _ h
      have h3 : base * (base ^ j * valAbs (ws.drop j)) = base ^ j * base * valAbs (ws.drop j) := by
        ring
      omega

theorem valAbs_ge_top {d : List Nat} (hne : d ≠ []) :
    base ^ (d.length - 1) * d.getLastD 0 ≤ valAbs d := by
  induction d using List.reverseRecOn with
  | nil => exact absurd rfl hne
  | append_singleton l t _ =>
    have e1 : (l ++ [t]).getLastD 0 = t := by simp [List.getLastD_eq_getLast?]
    rw [e1, valAbs_append]
    simp only [valAbs_cons, valAbs_nil, Nat.mul_zero, Nat.add_zero, List.length_append,
      List.length_singleton, Nat.add_sub_cancel]
    exact Nat.le_add_left _ _

/-- The two most significant words of a remainder below `base ^ (j + 2)`. -/
theorem valAbs_drop_top2 {d : List Nat} {j : Nat} (h : valAbs d < base ^ (j + 2)) :
    valAbs (d.drop j) = d.getD (j + 1) 0 * base + d.getD j 0 := by
  have h1 := valAbs_ge_drop d (j + 2)
  have h2 : valAbs (d.drop (j + 2)) = 0 := by
    by_contra hne
    have : base ^ (j + 2) * 1 ≤ base ^ (j + 2) * valAbs (d.drop (j + 2)) :=
      Nat.mul_le_mul_left _ (Nat.one_le_iff_ne_zero.2 hne)
    omega
  rw [valAbs_drop d j, valAbs_drop d (j + 1), h2]
  ring

/-- The trial quotient digit computed by `bigDivision` from the top words of the remainder. -/
theorem trial_div_eq {d : List Nat} (hw : Words d) (n i top : Nat) (hn : 1 ≤ n) :
    (if n + i - 1 ≥ d.length then 0
      else if n + i ≥ d.length then d.getD (n + i - 1) 0 / top
      else u64 (u64 (d.getD (n + i) 0 * base) + d.getD (n + i - 1) 0) / top)
    = (d.getD (n + i) 0 * base + d.getD (n + i - 1) 0) / top := by
  have h1 := getD_lt hw (n + i)
  have h2 := getD_lt hw (n + i - 1)
  split
  · next h =>
    rw [List.getD_eq_default _ _ (by omega), List.getD_eq_default _ _ h]
    simp
  · split
    · next h =>
      rw [List.getD_eq_default d 0 h]
      simp
    · have hb : d.getD (n + i) 0 * base ≤ (base - 1) * base := Nat.mul_le_mul_right _ (by omega)
      have hbase : base = 4294967296 := rfl
      rw [hbase] at hb h1 h2
      have e1 : u64 (d.getD (n + i) 0 * base) = d.getD (n + i) 0 * base := by
        rw [hbase]; unfold u64; omega
      rw [e1]
      have e2 : u64 (d.getD (n + i) 0 * base + d.getD (n + i - 1) 0)
          = d.getD (n + i) 0 * base + d.getD (n + i - 1) 0 := by
        rw [hbase]; unfold u64; omega
      rw [e2]

/-- Theorem A of Knuth's algorithm D: the trial digit is not below the true quotient digit. -/
theorem quotient_le_trial {d sb : List Nat} (hd : Words d) (hsb : Words sb) (hne : sb ≠ [])
    (i : Nat) (htop : 0 < sb.getLastD 0) (hR : valAbs d < base ^ (i + 1) * valAbs sb) :
    valAbs d / (base ^ i * valAbs sb)
      ≤ min ((d.getD (sb.length + i) 0 * base + d.getD (sb.length + i - 1) 0) / sb.getLastD 0)
          (base - 1) := by
  have hn : 1 ≤ sb.length := List.length_pos.2 hne
  have hvb := valAbs_lt hsb
  have hD : 0 < base ^ i * valAbs sb := by
    apply Nat.mul_pos (pow_pos base_pos _)
    have := valAbs_ge_top hne
    have : 0 < base ^ (sb.length - 1) * sb.getLastD 0 := Nat.mul_pos (pow_pos base_pos _) htop
    omega
  apply le_min
  · rw [Nat.le_div_iff_mul_le htop]
    have hj : sb.length + i - 1 + 2 = i + 1 + sb.length := by omega
    have hlt : valAbs d < base ^ (sb.length + i - 1 + 2) := by
      rw [hj, Nat.pow_add]
      exact lt_of_lt_of_le hR (Nat.mul_le_mul_left _ (Nat.le_of_lt hvb))
    have h2 := valAbs_drop_top2 hlt
    have hj1 : sb.length + i - 1 + 1 = sb.length + i := by omega
    rw [hj1] at h2
    rw [← h2]
    have h3 := valAbs_lt_drop d (sb.length + i - 1) hd
    have h4 := Nat.div_mul_le_self (valAbs d) (base ^ i * valAbs sb)
    have h5 : base ^ (sb.length + i - 1) * sb.getLastD 0 ≤ base ^ i * valAbs sb := by
      have e : sb.length + i - 1 = i + (sb.length - 1) := by omega
      rw [e, Nat.pow_add, Nat.mul_assoc]
      exact Nat.mul_le_mul_left _ (valAbs_ge_top hne)
    have h6 : valAbs d / (base ^ i * valAbs sb) * (base ^ (sb.length + i - 1) * sb.getLastD 0)
        ≤ valAbs d / (base ^ i * valAbs sb) * (base ^ i * valAbs sb) := Nat.mul_le_mul_left _ h5
    have h7 : valAbs d / (base ^ i * valAbs sb) * sb.getLastD 0 * base ^ (sb.length + i - 1)
        < (valAbs (List.drop (sb.length + i - 1) d) + 1) * base ^ (sb.length + i - 1) := by
      have e : valAbs d / (base ^ i * valAbs sb) * sb.getLastD 0 * base ^ (sb.length + i - 1)
          = valAbs d / (base ^ i * valAbs sb) * (base ^ (sb.length + i - 1) * sb.getLastD 0) := by
        ring
      rw [e]
      omega
    have h8 := Nat.lt_of_mul_lt_mul_right h7
    omega
  · have : valAbs d / (base ^ i * valAbs sb) < base := by
      rw [Nat.div_lt_iff_lt_mul hD]
      have : base ^ (i + 1) * valAbs sb = base * (base ^ i * valAbs sb) := by
        rw [Nat.pow_succ]; ring
      omega
    omega

theorem Trimmed_append_of_ne_nil (l : List Nat) {d : List Nat} (hne : d ≠ []) :
    Trimmed (l ++ d) ↔ Trimmed d := by
  induction d using List.reverseRecOn with
  | nil => exact absurd rfl hne
  | append_singleton d0 t _ =>
    rw [← List.append_assoc, Trimmed_concat, Trimmed_concat]

theorem getD_replicate_append (i x : Nat) (rest : List Nat) :
    (List.replicate i 0 ++ x :: rest).getD i 0 = x := by
  have := getD_append_length (List.replicate i 0) x rest
  rw [List.length_replicate] at this
  exact this

theorem set_replicate_append (i x v : Nat) (rest : List Nat) :
    (List.replicate i 0 ++ x :: rest).set i v = List.replicate i 0 ++ v :: rest := by
  have := set_append_length (List.replicate i 0) x v rest
  rw [List.length_replicate] at this
  exact this

namespace big_integer

theorem value_of_sign_false {x : big_integer} (h : x._sign = false) :
    x.value = (valAbs x._data : Int) := by
  rw [value_eq, h]; simp

theorem sign_false_of_value_nonneg {x : big_integer} (hx : x.canonical) (h : 0 ≤ x.value) :
    x._sign = false := by
  cases hs : x._sign with
  | false => rfl
  | true =>
    have := valAbs_pos_of_sign hx hs
    rw [value_eq, hs] at h
    simp at h
    omega

theorem of_int_zero_canonical : (of_int 0).canonical := by decide

theorem of_int_zero_value : (of_int 0).value = 0 := by decide

theorem operator_lt_zero_iff {x : big_integer} (hx : x.canonical) :
    operator_lt x (of_int 0) = true ↔ x.value < 0 := by
  rw [operator_lt_iff hx of_int_zero_canonical, of_int_zero_value]

theorem shifted_canonical {sb : List Nat} (hw : Words sb) (ht : Trimmed sb) (hne : sb ≠ [])
    (i : Nat) : (⟨List.replicate i 0 ++ sb, false⟩ : big_integer).canonical :=
  ⟨Words_append.2 ⟨Words_replicate_zero _, hw⟩, (Trimmed_append_of_ne_nil _ hne).2 ht,
    fun _ => rfl⟩

theorem shifted_value (sb : List Nat) (i : Nat) :
    (⟨List.replicate i 0 ++ sb, false⟩ : big_integer).value = ((base ^ i * valAbs sb : Nat) : Int) := by
  rw [value_of_sign_false rfl, valAbs_replicate_append]

theorem correction_loop_spec {b : big_integer} (hb : b.canonical) {D : Nat}
    (hbv : b.value = (D : Int)) {R Q M : Nat} (hdm : D * Q + M = R) (hM : M < D)
    (i : Nat) (hi : List Nat) :
    ∀ (fuel : Nat) (x : big_integer) (qh : Nat), x.canonical →
      x.value = (R : Int) - (D : Int) * (qh : Int) → Q ≤ qh → qh < base →
      qh ≤ Q + fuel →
      ∃ x' : big_integer,
        correction_loop b i fuel x (List.replicate i 0 ++ qh :: hi)
          = some (x', List.replicate i 0 ++ Q :: hi) ∧
        x'.canonical ∧ x'.value = (M : Int) := by
  have hdmi : (D : Int) * (Q : Int) + (M : Int) = (R : Int) := by exact_mod_cast hdm
  have stop : ∀ (x : big_integer) (qh : Nat), x.value = (R : Int) - (D : Int) * (qh : Int) →
      Q ≤ qh → ¬ x.value < 0 → qh = Q ∧ x.value = (M : Int) := by
    intro x qh hv hq hn
    have h1 : (D : Int) * (qh : Int) ≤ (R : Int) := by omega
    have h2 : D * qh ≤ R := by exact_mod_cast h1
    have h3 : D * qh < D * (Q + 1) := by
      have : D * (Q + 1) = D * Q + D := by ring
      omega
    have h4 : qh = Q := by
      have := Nat.lt_of_mul_lt_mul_left h3
      omega
    refine ⟨h4, ?_⟩
    rw [hv, h4]
    linarith
  have neg : ∀ (x : big_integer) (qh : Nat), x.value = (R : Int) - (D : Int) * (qh : Int) →
      x.value < 0 → Q < qh := by
    intro x qh hv hn
    have h1 : (R : Int) < (D : Int) * (qh : Int) := by omega
    have h2 : R < D * qh := by exact_mod_cast h1
    have h3 : D * Q < D * qh := by omega
    exact Nat.lt_of_mul_lt_mul_left h3
  intro fuel
  induction fuel with
  | zero =>
    intro x qh hx hv hq _ hf
    have hn : ¬ x.value < 0 := by
      intro hn
      have := neg x qh hv hn
      omega
    obtain ⟨h4, h5⟩ := stop x qh hv hq hn
    refine ⟨x, ?_, hx, h5⟩
    have hc : ¬ (operator_lt x (of_int 0) = true) := by rw [operator_lt_zero_iff hx]; exact hn
    simp only [correction_loop, if_neg hc, h4]
  | succ fuel ih =>
    intro x qh hx hv hq hqb hf
    by_cases hn : x.value < 0
    · have hc : operator_lt x (of_int 0) = true := (operator_lt_zero_iff hx).2 hn
      have hlt : Q < qh := neg x qh hv hn
      obtain ⟨hc1, hv1⟩ := operator_plus_eq_spec hx hb
      have hu : u32 (qh + (2 ^ 32 - 1)) = qh - 1 := by
        have hbase : base = 4294967296 := rfl
        unfold u32; omega
      obtain ⟨x', heq, hx', hv'⟩ := ih (x.operator_plus_eq b) (qh - 1) hc1
        (by
          rw [hv1, hv, hbv]
          have : ((qh - 1 : Nat) : Int) = (qh : Int) - 1 := by omega
          rw [this]; ring)
        (by omega) (by omega) (by omega)
      refine ⟨x', ?_, hx', hv'⟩
      simp only [correction_loop, if_pos hc, getD_replicate_append, set_replicate_append, hu]
      exact heq
    · obtain ⟨h4, h5⟩ := stop x qh hv hq hn
      refine ⟨x, ?_, hx, h5⟩
      have hc : ¬ (operator_lt x (of_int 0) = true) := by rw [operator_lt_zero_iff hx]; exact hn
      simp only [correction_loop, if_neg hc, h4]

end big_integer

namespace big_integer

theorem getLastD_pos {sb : List Nat} (ht : Trimmed sb) (hne : sb ≠ []) : 0 < sb.getLastD 0 := by
  induction sb using List.reverseRecOn with
  | nil => exact absurd rfl hne
  | append_singleton l t _ =>
    have e1 : (l ++ [t]).getLastD 0 = t := by simp [List.getLastD_eq_getLast?]
    rw [e1]
    exact Nat.pos_of_ne_zero (Trimmed_concat.1 ht)

theorem valAbs_pos {sb : List Nat} (ht : Trimmed sb) (hne : sb ≠ []) : 0 < valAbs sb :=
  lt_of_lt_of_le (pow_pos base_pos _) (valAbs_ge ht hne)

/-- One iteration of the `for` loop of `bigDivision`. -/
theorem division_loop_succ (fuel : Nat) {sb : List Nat} (hsne : sb ≠ []) (i : Nat)
    {x : big_integer} (hx : Words x._data) (hi : List Nat) :
    division_loop fuel sb (i + 1) x ⟨List.replicate (i + 1) 0 ++ sb, false⟩
        (List.replicate (i + 1) 0 ++ hi)
      = match correction_loop ⟨List.replicate i 0 ++ sb, false⟩ i fuel
          (x.operator_minus_eq (operator_mul ⟨List.replicate i 0 ++ sb, false⟩
            (of_unsigned_int (min ((x._data.getD (sb.length + i) 0 * base
              + x._data.getD (sb.length + i - 1) 0) / sb.getLastD 0) (base - 1)))))
          (List.replicate i 0 ++ min ((x._data.getD (sb.length + i) 0 * base
              + x._data.getD (sb.length + i - 1) 0) / sb.getLastD 0) (base - 1) :: hi) with
        | none => none
        | some (x2, res2) => division_loop fuel sb i x2 ⟨List.replicate i 0 ++ sb, false⟩ res2 := by
  have hn : 1 ≤ sb.length := List.length_pos.2 hsne
  have htail : (List.replicate (i + 1) 0 ++ sb).tail = List.replicate i 0 ++ sb := by
    rw [List.replicate_succ]; rfl
  have hres : List.replicate (i + 1) 0 ++ hi = List.replicate i 0 ++ 0 :: hi := by
    rw [List.replicate_succ', List.append_assoc]; rfl
  have hu : ∀ v : Nat, u32 (min v (base - 1)) = min v (base - 1) := by
    intro v
    apply u32_of_lt
    have : min v (base - 1) ≤ base - 1 := Nat.min_le_right _ _
    have := base_pos
    omega
  simp only [division_loop, htail, trial_div_eq hx sb.length i (sb.getLastD 0) hn, hu]
  rw [hres]
  simp only [set_replicate_append, getD_replicate_append]
  try rfl

theorem division_loop_spec {fuel : Nat} (hf : base ≤ fuel) {sb : List Nat} (hsw : Words sb)
    (hst : Trimmed sb) (hsne : sb ≠ []) :
    ∀ (c : Nat) (x : big_integer) (hi : List Nat), x.canonical → x._sign = false →
      valAbs x._data < base ^ c * valAbs sb →
      ∃ (x' b' : big_integer) (lows : List Nat),
        division_loop fuel sb c x ⟨List.replicate c 0 ++ sb, false⟩ (List.replicate c 0 ++ hi)
          = some (x', b', lows ++ hi) ∧
        lows.length = c ∧ Words lows ∧ x'.canonical ∧ x'._sign = false ∧
        valAbs lows * valAbs sb + valAbs x'._data = valAbs x._data ∧
        valAbs x'._data < valAbs sb := by
  intro c
  induction c with
  | zero =>
    intro x hi hx hs hR
    refine ⟨x, ⟨List.replicate 0 0 ++ sb, false⟩, [], by simp [division_loop], rfl, Words_nil, hx, hs,
      by simp, by simpa using hR⟩
  | succ i ih =>
    intro x hi hx hs hR
    have htop := getLastD_pos hst hsne
    have hBv := valAbs_pos hst hsne
    have hD : 0 < base ^ i * valAbs sb := Nat.mul_pos (pow_pos base_pos _) hBv
    have hq := quotient_le_trial hx.1 hsw hsne i htop hR
    have hqb : min ((x._data.getD (sb.length + i) 0 * base
        + x._data.getD (sb.length + i - 1) 0) / sb.getLastD 0) (base - 1) < base := by
      have := Nat.min_le_right ((x._data.getD (sb.length + i) 0 * base
        + x._data.getD (sb.length + i - 1) 0) / sb.getLastD 0) (base - 1)
      have := base_pos
      omega
    generalize hqh : min ((x._data.getD (sb.length + i) 0 * base
        + x._data.getD (sb.length + i - 1) 0) / sb.getLastD 0) (base - 1) = qh at hq hqb
    have hb1 := shifted_canonical hsw hst hsne i
    have hb1v := shifted_value sb i
    obtain ⟨hqc, hqv⟩ := of_unsigned_int_spec hqb
    obtain ⟨hmc, hmv⟩ := operator_mul_eq_spec hb1 hqc
    obtain ⟨hx1c, hx1v⟩ := operator_minus_eq_spec hx hmc
    have hdm := Nat.div_add_mod (valAbs x._data) (base ^ i * valAbs sb)
    have hM := Nat.mod_lt (valAbs x._data) hD
    obtain ⟨x2, heq2, hx2c, hx2v⟩ := correction_loop_spec hb1 hb1v hdm hM i hi fuel
      (x.operator_minus_eq (operator_mul ⟨List.replicate i 0 ++ sb, false⟩ (of_unsigned_int qh)))
      qh hx1c (by
        unfold operator_mul
        rw [hx1v, hmv, hb1v, hqv, value_of_sign_false hs]) hq hqb
      (le_trans (by omega : qh ≤ fuel) (Nat.le_add_left _ _))
    have hx2s : x2._sign = false := sign_false_of_value_nonneg hx2c (by rw [hx2v]; omega)
    have hx2a : valAbs x2._data = valAbs x._data % (base ^ i * valAbs sb) := by
      have := value_of_sign_false hx2s
      rw [hx2v] at this
      exact_mod_cast this.symm
    obtain ⟨x', b', lows, heq3, hl, hw, hxc, hxs, hv, hlt⟩ :=
      ih x2 ((valAbs x._data / (base ^ i * valAbs sb)) :: hi) hx2c hx2s (by rw [hx2a]; exact hM)
    refine ⟨x', b', lows ++ [valAbs x._data / (base ^ i * valAbs sb)], ?_, by simp [hl],
      Words_append.2 ⟨hw, Words_cons.2 ⟨by omega, Words_nil⟩⟩, hxc, hxs, ?_, hlt⟩
    · rw [division_loop_succ fuel hsne i hx.1 hi, hqh, heq2]
      simp only [heq3, List.append_assoc, List.singleton_append]
    · rw [valAbs_append, hl]
      simp only [valAbs_cons, valAbs_nil, Nat.mul_zero, Nat.add_zero]
      rw [hx2a] at hv
      calc (valAbs lows + base ^ i * (valAbs x._data / (base ^ i * valAbs sb))) * valAbs sb
            + valAbs x'._data
          = (valAbs lows * valAbs sb + valAbs x'._data)
            + base ^ i * valAbs sb * (valAbs x._data / (base ^ i * valAbs sb)) := by ring
        _ = valAbs x._data := by rw [hv]; omega

end big_integer

namespace big_integer

theorem div_mod_of_scaled {A Bv Q X3 P : Nat} (hP : 0 < P) (h1 : Q * (Bv * P) + X3 = A * P)
    (h2 : X3 < Bv * P) : Q = A / Bv ∧ X3 / P = A % Bv := by
  have hBv : 0 < Bv := by
    rcases Nat.eq_zero_or_pos Bv with h | h
    · rw [h] at h2; simp at h2
    · exact h
  have h3 : Q * Bv * P ≤ A * P := by
    have : Q * Bv * P = Q * (Bv * P) := by ring
    omega
  have h4 : Q * Bv ≤ A := Nat.le_of_mul_le_mul_right h3 hP
  have h5 : X3 = (A - Q * Bv) * P := by
    have : (A - Q * Bv) * P = A * P - Q * Bv * P := Nat.sub_mul _ _ _
    have : Q * Bv * P = Q * (Bv * P) := by ring
    omega
  have h6 : X3 / P = A - Q * Bv := by rw [h5]; exact Nat.mul_div_cancel _ hP
  have h7 : A - Q * Bv < Bv := by
    have : (A - Q * Bv) * P < Bv * P := by rw [← h5]; exact h2
    exact Nat.lt_of_mul_lt_mul_right this
  have h9 : A - Q * Bv + Bv * Q = A := by rw [Nat.mul_comm Bv Q]; omega
  have h8 := (Nat.div_mod_unique hBv).2 ⟨h9, h7⟩
  exact ⟨h8.1.symm, by rw [h6, h8.2]⟩

theorem bigDivision_spec {fuel : Nat} (hf : base ≤ fuel) {x rhs : big_integer}
    (hx : x.canonical) (hr : rhs.canonical) (hne : rhs._data ≠ []) :
    ∃ q r : big_integer, bigDivision fuel x rhs = (q, .ok r) ∧
      Words q._data ∧ Trimmed q._data ∧ valAbs q._data = valAbs x._data / valAbs rhs._data ∧
      (q._data ≠ [] → q._sign = xor x._sign rhs._sign) ∧
      Words r._data ∧ Trimmed r._data ∧ valAbs r._data = valAbs x._data % valAbs rhs._data ∧
      r._sign = x._sign := by
  have hz : ¬ (rhs.isZero = true) := by unfold isZero; simpa using hne
  by_cases hc : x.compareLessAbs rhs = true
  · have hlt := (compareLessAbs_iff hx.1 hx.2.1 hr.1 hr.2.1).1 hc
    refine ⟨mk0, x, by simp only [bigDivision, if_neg hz, if_pos hc], Words_nil, Trimmed_nil, ?_,
      fun h => absurd rfl h, hx.1, hx.2.1, ?_, rfl⟩
    · rw [Nat.div_eq_of_lt hlt]; rfl
    · rw [Nat.mod_eq_of_lt hlt]
  · have hge : valAbs rhs._data ≤ valAbs x._data := by
      have := (compareLessAbs_iff hx.1 hx.2.1 hr.1 hr.2.1).not.1 hc
      omega
    have hBv := valAbs_pos hr.2.1 hne
    have hBge := valAbs_ge hr.2.1 hne
    have hn : 1 ≤ rhs._data.length := List.length_pos.2 hne
    have hb32 : base = 2 ^ 32 := rfl
    -- normalisation of the divisor
    obtain ⟨b1, j, hnorm, hb1w, hb1t, hb1l, hb1v, hb1h, hb1s⟩ :=
      normalize_loop_spec fuel { rhs with _sign := false } 0 hr.1 hr.2.1 hne (by
        have h1 : base ≤ 2 ^ (fuel + 1) := by
          rw [hb32]
          exact Nat.pow_le_pow_right (by decide) (by unfold base at hf; omega)
        have h2 : base ^ rhs._data.length = base ^ (rhs._data.length - 1) * base := by
          rw [← Nat.pow_succ]; congr 1; omega
        show base ^ rhs._data.length ≤ valAbs rhs._data * 2 ^ (fuel + 1)
        rw [h2]
        exact Nat.mul_le_mul hBge h1)
    simp only [Nat.zero_add] at hnorm hb1l hb1v hb1h hb1s
    have hb1lt := valAbs_lt hb1w
    have hj : j < 32 := by
      have h1 : base ^ (rhs._data.length - 1) * 2 ^ j < base ^ (rhs._data.length - 1) * base := by
        have h2 : base ^ rhs._data.length = base ^ (rhs._data.length - 1) * base := by
          rw [← Nat.pow_succ]; congr 1; omega
        have h3 : base ^ (rhs._data.length - 1) * 2 ^ j ≤ valAbs rhs._data * 2 ^ j :=
          Nat.mul_le_mul_right _ hBge
        rw [hb1l, h2, hb1v] at hb1lt
        omega
      have h4 := Nat.lt_of_mul_lt_mul_left h1
      rw [hb32] at h4
      exact (Nat.pow_lt_pow_iff_right (by decide)).1 h4
    have hb1ne : b1._data ≠ [] := by
      intro h0; rw [h0] at hb1l; simp at hb1l; omega
    -- the shifted dividend
    obtain ⟨hx1w, hx1t, hx1v, hx1s⟩ := operator_shl_eq_spec (x := { x with _sign := false }) hx.1 j
    have hx1c : (operator_shl_eq { x with _sign := false } j).canonical :=
      ⟨hx1w, hx1t, fun _ => hx1s⟩
    have hx1lt := valAbs_lt hx1w
    generalize hx1 : operator_shl_eq { x with _sign := false } j = x1 at *
    simp only at hx1v hx1s
    have hlen : rhs._data.length ≤ x1._data.length := by
      rw [← hb1l]
      apply length_le_of_valAbs_le hx1w hb1t
      rw [hb1v, hx1v]
      exact Nat.mul_le_mul_right _ hge
    generalize hm : x1._data.length - rhs._data.length = m at *
    have hb2 : ({ b1 with _data := List.replicate m 0 ++ b1._data } : big_integer)
        = ⟨List.replicate m 0 ++ b1._data, false⟩ := by rw [← hb1s]
    have hb2c := shifted_canonical hb1w hb1t hb1ne m
    have hb2v := shifted_value b1._data m
    have hx1lt2 : valAbs x1._data < 2 * (base ^ m * valAbs b1._data) := by
      have h1 : x1._data.length = m + rhs._data.length := by omega
      rw [h1, Nat.pow_add] at hx1lt
      have h2 : base ^ m * base ^ rhs._data.length ≤ base ^ m * (2 * valAbs b1._data) :=
        Nat.mul_le_mul_left _ hb1h
      have h3 : base ^ m * (2 * valAbs b1._data) = 2 * (base ^ m * valAbs b1._data) := by ring
      omega
    -- the first quotient word
    have hstep : ∃ (x2 : big_integer) (Q0 : Nat),
        (if x1.operator_ge ⟨List.replicate m 0 ++ b1._data, false⟩ = true then
          (x1.operator_minus_eq ⟨List.replicate m 0 ++ b1._data, false⟩,
            (List.replicate (m + 1) 0).set m 1)
        else (x1, List.replicate (m + 1) 0)) = (x2, List.replicate m 0 ++ [Q0]) ∧
        x2.canonical ∧ x2._sign = false ∧
        valAbs x2._data + Q0 * (base ^ m * valAbs b1._data) = valAbs x1._data ∧
        valAbs x2._data < base ^ m * valAbs b1._data ∧ Q0 < base := by
      have hrep : List.replicate (m + 1) 0 = List.replicate m 0 ++ [0] := List.replicate_succ' _ _
      by_cases hge2 : x1.operator_ge ⟨List.replicate m 0 ++ b1._data, false⟩ = true
      · have hle := (operator_ge_iff hx1c hb2c).1 hge2
        rw [hb2v, value_of_sign_false hx1s] at hle
        have hle' : base ^ m * valAbs b1._data ≤ valAbs x1._data := by exact_mod_cast hle
        obtain ⟨hc2, hv2⟩ := operator_minus_eq_spec hx1c hb2c
        rw [hb2v, value_of_sign_false hx1s] at hv2
        have hs2 := sign_false_of_value_nonneg hc2 (by rw [hv2]; omega)
        rw [value_of_sign_false hs2] at hv2
        refine ⟨_, 1, by rw [if_pos hge2, hrep, set_replicate_append], hc2, hs2, ?_, ?_,
          by decide⟩
        · omega
        · omega
      · have hlt : ¬ (⟨List.replicate m 0 ++ b1._data, false⟩ : big_integer).value ≤ x1.value :=
          (operator_ge_iff hx1c hb2c).not.1 hge2
        rw [hb2v, value_of_sign_false hx1s] at hlt
        have hlt' : valAbs x1._data < base ^ m * valAbs b1._data := by
          have : (valAbs x1._data : Int) < ((base ^ m * valAbs b1._data : Nat) : Int) := by omega
          exact_mod_cast this
        exact ⟨x1, 0, by rw [if_neg hge2, hrep], hx1c, hx1s, by omega, hlt', by decide⟩
    obtain ⟨x2, Q0, hs, hx2c, hx2s, hx2v, hx2lt, hQ0⟩ := hstep
    -- the remaining quotient words
    obtain ⟨x3, b', lows, hdiv, hll, hlw, hx3c, hx3s, hx3v, hx3lt⟩ :=
      division_loop_spec hf hb1w hb1t hb1ne m x2 [Q0] hx2c hx2s hx2lt
    -- the remainder is shifted back
    have h2j : 2 ^ j < base := two_pow_lt_base hj
    have hu : u32 (2 ^ j) = 2 ^ j := u32_of_lt h2j
    obtain ⟨y, rr, hswd, hyw, hyt, hyv, _, _⟩ :=
      singleWordDiv_spec (x := x3.trim) (trim_Words hx3c.1) (pow_pos (by decide) j) h2j
    rw [trim_valAbs] at hyv
    have hkey : (valAbs lows + base ^ m * Q0) * (valAbs rhs._data * 2 ^ j) + valAbs x3._data
        = valAbs x._data * 2 ^ j := by
      rw [← hx1v, ← hx2v, ← hx3v, ← hb1v]
      ring
    obtain ⟨hQ, hR⟩ := div_mod_of_scaled (pow_pos (by decide) j) hkey (by rw [← hb1v]; exact hx3lt)
    have hqw : Words (lows ++ [Q0]) := Words_append.2 ⟨hlw, Words_cons.2 ⟨hQ0, Words_nil⟩⟩
    refine ⟨{ trim ⟨lows ++ [Q0], false⟩ with _sign := xor x._sign rhs._sign },
      { y with _sign := x._sign }, ?_, trim_Words (x := ⟨lows ++ [Q0], false⟩) hqw, trim_Trimmed _,
      ?_, fun _ => rfl, hyw, hyt, ?_, rfl⟩
    · simp only [bigDivision, if_neg hz, if_neg hc, hnorm, hx1, hm, hb2, hs, hdiv, hu, hswd]
    · show valAbs (trim ⟨lows ++ [Q0], false⟩)._data = _
      rw [trim_valAbs, ← hQ, valAbs_append, hll]
      simp
    · show valAbs y._data = _
      rw [hyv, hR]

end big_integer

namespace big_integer

/-- Canonical values are determined by their mathematical value. -/
theorem canonical_ext {a b : big_integer} (ha : a.canonical) (hb : b.canonical)
    (h : a.value = b.value) : a = b := by
  have hv : valAbs a._data = valAbs b._data := by
    rw [← natAbs_value, ← natAbs_value, h]
  have hd : a._data = b._data := valAbs_inj ha.1 ha.2.1 hb.1 hb.2.1 hv
  have hs : a._sign = b._sign := by
    cases hsa : a._sign <;> cases hsb : b._sign
    · rfl
    · have := valAbs_pos_of_sign hb hsb
      rw [value_eq, value_eq, hsa, hsb, hv] at h
      simp at h
      omega
    · have := valAbs_pos_of_sign ha hsa
      rw [value_eq, value_eq, hsa, hsb, hv] at h
      simp at h
      omega
    · rfl
  cases a; cases b; simp only at hd hs; rw [hd, hs]

theorem operator_eq_iff (a b : big_integer) : operator_eq a b = true ↔ a = b := by
  cases a; cases b
  simp [operator_eq]
  tauto

theorem tdiv_value (x rhs : big_integer) :
    Int.tdiv x.value rhs.value
      = if xor x._sign rhs._sign then -((valAbs x._data / valAbs rhs._data : Nat) : Int)
        else ((valAbs x._data / valAbs rhs._data : Nat) : Int) := by
  rw [value_eq, value_eq]
  cases x._sign <;> cases rhs._sign <;>
    simp [Int.neg_tdiv, Int.tdiv_neg] <;>
    exact Int.tdiv_eq_ediv (Int.ofNat_nonneg _) (Int.ofNat_nonneg _)

theorem neg_tmod (a b : Int) : Int.tmod (-a) b = -Int.tmod a b := by
  rw [Int.tmod_def, Int.tmod_def, Int.neg_tdiv]; ring

theorem tmod_value (x rhs : big_integer) :
    Int.tmod x.value rhs.value
      = if x._sign then -((valAbs x._data % valAbs rhs._data : Nat) : Int)
        else ((valAbs x._data % valAbs rhs._data : Nat) : Int) := by
  rw [value_eq, value_eq]
  cases x._sign <;> cases rhs._sign <;>
    simp [neg_tmod, Int.tmod_neg] <;>
    exact Int.tmod_eq_emod (Int.ofNat_nonneg _) (Int.ofNat_nonneg _)

/-- `operator/=` and `operator%=` on canonical operands with a nonzero divisor: with enough
fuel both return, the receivers are canonical and hold the truncated quotient and the
remainder. -/
theorem div_mod_spec {fuel : Nat} (hf : base ≤ fuel) {x rhs : big_integer}
    (hx : x.canonical) (hr : rhs.canonical) (hne : rhs._data ≠ []) :
    ∃ q r : big_integer, operator_div_eq fuel x rhs = (q, .ok ()) ∧
      operator_mod_eq fuel x rhs = (r, .ok ()) ∧ q.canonical ∧ r.canonical ∧
      q.value = Int.tdiv x.value rhs.value ∧ r.value = Int.tmod x.value rhs.value ∧
      valAbs q._data = valAbs x._data / valAbs rhs._data ∧
      valAbs r._data = valAbs x._data % valAbs rhs._data ∧
      (q._data ≠ [] → q._sign = xor x._sign rhs._sign) ∧
      (r._data ≠ [] → r._sign = x._sign) := by
  obtain ⟨q, r, heq, hqw, hqt, hqv, hqs, hrw, hrt, hrv, hrs⟩ := bigDivision_spec hf hx hr hne
  refine ⟨q.zeroResult, r.zeroResult, by simp only [operator_div_eq, heq],
    by simp only [operator_mod_eq, heq], zeroResult_canonical hqw hqt,
    zeroResult_canonical hrw hrt, ?_, ?_, by rw [zeroResult_data, hqv],
    by rw [zeroResult_data, hrv], ?_, ?_⟩
  · rw [zeroResult_value, tdiv_value, value_eq, hqv]
    by_cases hq0 : q._data = []
    · have : valAbs x._data / valAbs rhs._data = 0 := by rw [← hqv, hq0]; rfl
      rw [this]; simp
    · rw [hqs hq0]
  · rw [zeroResult_value, tmod_value, value_eq, hrv, hrs]
  · intro h
    rw [zeroResult_data] at h
    unfold zeroResult isZero
    rw [if_neg (by simpa using h)]
    exact hqs h
  · intro h
    rw [zeroResult_data] at h
    unfold zeroResult isZero
    rw [if_neg (by simpa using h)]
    exact hrs

end big_integer

namespace big_integer

theorem mul_sign_of_ne_zero {a b : big_integer} (ha : a.canonical) (hb : b.canonical)
    (h : (operator_mul a b).value ≠ 0) : (operator_mul a b)._sign = xor a._sign b._sign := by
  obtain ⟨hw, ht, hv, hs⟩ := mulAbs_spec ha.1 hb.1
  have hval := (operator_mul_eq_spec ha hb).2
  unfold operator_mul at h hval ⊢
  rw [hval] at h
  have ha0 : a._data ≠ [] := fun h0 => h (by rw [value_zero_of_data_nil h0]; simp)
  have hb0 : b._data ≠ [] := fun h0 => h (by rw [value_zero_of_data_nil h0]; simp)
  have hmne : (a.mulAbs b)._data ≠ [] := by
    intro h0
    have h1 : valAbs (a.mulAbs b)._data = 0 := by rw [h0]; rfl
    rw [hv] at h1
    rcases Nat.mul_eq_zero.1 h1 with h2 | h2
    · exact ha0 ((valAbs_eq_zero_iff ha.1 ha.2.1).1 h2)
    · exact hb0 ((valAbs_eq_zero_iff hb.1 hb.2.1).1 h2)
  unfold operator_mul_eq isZero zeroResult isZero
  simp [ha0, hb0, hmne, hs]

/-- C3: when the divisor's magnitude is zero, `a /= b`, `a %= b`, `a / b` and `a % b` throw
the division-by-zero error (`std::runtime_error`) and the receiver is left as it was. -/
theorem division_by_zero (fuel : Nat) (a b : big_integer) (hb : b.isZero = true) :
    operator_div_eq fuel a b = (a, .throws .runtime_error) ∧
    operator_mod_eq fuel a b = (a, .throws .runtime_error) ∧
    operator_div fuel a b = .throws .runtime_error ∧
    operator_mod fuel a b = .throws .runtime_error := by
  have h : bigDivision fuel a b = (a, .throws .runtime_error) := by
    simp only [bigDivision, hb, if_true]
  simp only [operator_div_eq, operator_mod_eq, operator_div, operator_mod, h, and_self]

theorem division_by_zero_witness :
    operator_div_eq 5 ⟨[7, 1], true⟩ ⟨[], false⟩ = (⟨[7, 1], true⟩, .throws .runtime_error) ∧
    operator_mod_eq 5 ⟨[7, 1], true⟩ ⟨[], false⟩ = (⟨[7, 1], true⟩, .throws .runtime_error) ∧
    operator_div 5 ⟨[7, 1], true⟩ ⟨[], false⟩ = .throws .runtime_error ∧
    operator_mod 5 ⟨[7, 1], true⟩ ⟨[], false⟩ = .throws .runtime_error :=
  division_by_zero 5 ⟨[7, 1], true⟩ ⟨[], false⟩ (by decide)

/-- C9: for canonical `a` and `b`, `a * b` is canonical with value `value a * value b`; its
sign is the XOR of the operand signs unless the product is zero, and then it is the
canonical zero; `"123456789123456789" * "-2" == "-246913578246913578"`. -/
theorem mul_value (a b : big_integer) (ha : a.canonical) (hb : b.canonical) :
    (operator_mul a b).canonical ∧ (operator_mul a b).value = a.value * b.value ∧
    ((operator_mul a b).value ≠ 0 → (operator_mul a b)._sign = xor a._sign b._sign) ∧
    ((operator_mul a b).value = 0 → operator_mul a b = ⟨[], false⟩) ∧
    (of_string "123456789123456789".toList = .ok ⟨[2899336981, 28744523], false⟩ ∧
      of_string "-2".toList = .ok ⟨[2], true⟩ ∧
      of_string "-246913578246913578".toList = .ok ⟨[1503706666, 57489047], true⟩ ∧
      operator_eq (operator_mul ⟨[2899336981, 28744523], false⟩ ⟨[2], true⟩)
        ⟨[1503706666, 57489047], true⟩ = true) := by
  obtain ⟨hc, hv⟩ := operator_mul_eq_spec ha hb
  refine ⟨hc, hv, mul_sign_of_ne_zero ha hb, ?_, by decide, by decide, by decide, by decide⟩
  intro h0
  exact canonical_ext hc (by decide) (by rw [h0]; decide)

theorem mul_value_witness :
    (operator_mul ⟨[5], true⟩ ⟨[0, 1], false⟩).canonical ∧
    (operator_mul ⟨[5], true⟩ ⟨[0, 1], false⟩).value
      = (⟨[5], true⟩ : big_integer).value * (⟨[0, 1], false⟩ : big_integer).value ∧
    ((operator_mul ⟨[5], true⟩ ⟨[0, 1], false⟩).value ≠ 0 →
      (operator_mul ⟨[5], true⟩ ⟨[0, 1], false⟩)._sign = xor true false) ∧
    ((operator_mul ⟨[5], true⟩ ⟨[0, 1], false⟩).value = 0 →
      operator_mul ⟨[5], true⟩ ⟨[0, 1], false⟩ = ⟨[], false⟩) ∧
    (of_string "123456789123456789".toList = .ok ⟨[2899336981, 28744523], false⟩ ∧
      of_string "-2".toList = .ok ⟨[2], true⟩ ∧
      of_string "-246913578246913578".toList = .ok ⟨[1503706666, 57489047], true⟩ ∧
      operator_eq (operator_mul ⟨[2899336981, 28744523], false⟩ ⟨[2], true⟩)
        ⟨[1503706666, 57489047], true⟩ = true) :=
  mul_value ⟨[5], true⟩ ⟨[0, 1], false⟩ (by decide) (by decide)

end big_integer

/-! ### The decimal codec: parsing -/

theorem sumDigitAbs_loop_spec :
    ∀ (rest pre : List Nat) (f : Nat), f < base → Words rest →
      ∃ (rest' : List Nat) (f' : Nat),
        big_integer.sumDigitAbs_loop rest.length pre.length (pre ++ rest) f = (pre ++ rest', f') ∧
        rest'.length = rest.length ∧ Words rest' ∧ f' < base ∧
        valAbs rest' + base ^ rest.length * f' = valAbs rest + f := by
  intro rest
  induction rest with
  | nil =>
    intro pre f hf _
    exact ⟨[], f, by simp [big_integer.sumDigitAbs_loop], rfl, Words_nil, hf, by simp⟩
  | cons x rest0 ih =>
    intro pre f hf hw
    obtain ⟨hx, hw0⟩ := Words_cons.1 hw
    have hbase : base = 4294967296 := rfl
    have hval : u64 (x + f) = x + f := by unfold u64; omega
    by_cases hge : x + f ≥ base
    · obtain ⟨rest', f', heq, hl', hw', hf', hv'⟩ := ih (pre ++ [x + f - base]) 1 (by decide) hw0
      refine ⟨(x + f - base) :: rest', f', ?_, by simp [hl'], Words_cons.2 ⟨by omega, hw'⟩, hf', ?_⟩
      · simp only [List.length_cons, big_integer.sumDigitAbs_loop, getD_append_length, hval,
          hge, if_true, set_append_length, ne_eq, one_ne_zero, not_false_eq_true]
        rw [u32_of_lt (by omega)]
        simpa using heq
      · simp only [valAbs_cons, List.length_cons, Nat.pow_succ]
        have e : (x + f - base) + base * valAbs rest' + base ^ rest0.length * base * f'
            = (x + f - base) + base * (valAbs rest' + base ^ rest0.length * f') := by ring
        rw [e, hv']
        have e2 : base * (valAbs rest0 + 1) = base * valAbs rest0 + base := by ring
        omega
    · obtain ⟨rest', f', heq, hl', hw', hf', hv'⟩ := ih (pre ++ [x + f]) 0 (by decide) hw0
      refine ⟨(x + f) :: rest', f', ?_, by simp [hl'], Words_cons.2 ⟨by omega, hw'⟩, hf', ?_⟩
      · simp only [List.length_cons, big_integer.sumDigitAbs_loop, getD_append_length, hval,
          hge, if_false, set_append_length, ne_eq, not_true_eq_false]
        rw [u32_of_lt (by omega)]
        simpa using heq
      · simp only [valAbs_cons, List.length_cons, Nat.pow_succ]
        have e : (x + f) + base * valAbs rest' + base ^ rest0.length * base * f'
            = (x + f) + base * (valAbs rest' + base ^ rest0.length * f') := by ring
        rw [e, hv']
        simp only [Nat.add_zero]
        omega

namespace big_integer

/-- `sumDigitAbs` adds a word to the magnitude. -/
theorem sumDigitAbs_spec {x : big_integer} {b : Nat} (hx : Words x._data) (hb : b < base) :
    Words (x.sumDigitAbs b)._data ∧ valAbs (x.sumDigitAbs b)._data = valAbs x._data + b ∧
    (x.sumDigitAbs b)._sign = x._sign := by
  obtain ⟨rest', f', heq, hl', hw', hf', hv'⟩ := sumDigitAbs_loop_spec x._data [] b hb hx
  simp only [List.length_nil, List.nil_append] at heq
  have hd : (x.sumDigitAbs b)._data = if f' ≠ 0 then rest' ++ [f'] else rest' := by
    simp only [sumDigitAbs, heq]
  rw [hd]
  refine ⟨?_, ?_, rfl⟩
  · split
    · exact Words_append.2 ⟨hw', Words_cons.2 ⟨hf', Words_nil⟩⟩
    · exact hw'
  · split
    · rw [valAbs_append, hl', ← hv']; simp
    · next h =>
      have : f' = 0 := by simpa using h
      rw [← hv', this]; simp

end big_integer

theorem isDigit_bounds {c : Char} (h : c.isDigit = true) : 48 ≤ c.toNat ∧ c.toNat ≤ 57 := by
  simp only [Char.isDigit, Bool.and_eq_true, decide_eq_true_eq] at h
  exact ⟨h.1, h.2⟩

theorem decimalValue_nil : decimalValue [] = 0 := rfl

theorem decimalValue_append (a b : List Char) :
    decimalValue (a ++ b) = decimalValue a * 10 ^ b.length + decimalValue b := by
  unfold decimalValue
  rw [List.reverse_append, List.map_append, Nat.ofDigits_append]
  simp only [List.length_map, List.length_reverse]
  ring

theorem decimalValue_cons (c : Char) (cs : List Char) :
    decimalValue (c :: cs) = (c.toNat - 48) * 10 ^ cs.length + decimalValue cs := by
  have := decimalValue_append [c] cs
  simpa [decimalValue] using this

theorem decimalValue_lt {cs : List Char} (h : ∀ c ∈ cs, c.isDigit = true) :
    decimalValue cs < 10 ^ cs.length := by
  unfold decimalValue
  have := Nat.ofDigits_lt_base_pow_length (b := 10) (l := cs.reverse.map (fun c => c.toNat - 48))
    (by decide) (by
      intro x hx
      simp only [List.mem_map, List.mem_reverse] at hx
      obtain ⟨c, hc, rfl⟩ := hx
      have := isDigit_bounds (h c hc)
      omega)
  simpa using this

theorem foldl_decimal (cs : List Char) (acc : Nat) :
    cs.foldl (fun acc c => acc * 10 + (c.toNat - 48)) acc
      = acc * 10 ^ cs.length + decimalValue cs := by
  induction cs generalizing acc with
  | nil => simp [decimalValue_nil]
  | cons c cs ih =>
    rw [List.foldl_cons, ih, decimalValue_cons, List.length_cons, Nat.pow_succ]
    ring

theorem takeWhile_length_eq_iff (p : Char → Bool) (l : List Char) :
    (l.takeWhile p).length = l.length ↔ ∀ c ∈ l, p c = true := by
  induction l with
  | nil => simp
  | cons c cs ih =>
    by_cases hc : p c = true
    · simp [List.takeWhile_cons, hc, ih]
    · simp [List.takeWhile_cons, hc]

theorem pow10_lt_base {n : Nat} (h : n ≤ 9) : 10 ^ n < base := by
  have : 10 ^ n ≤ 10 ^ 9 := Nat.pow_le_pow_right (by decide) h
  have : (10 : Nat) ^ 9 < base := by decide
  omega

/-- `from_chars` on a nonempty chunk of at most 9 decimal digits consumes the whole chunk
and stores its value. -/
theorem from_chars_digits {chunk : List Char} (hne : chunk ≠ []) (hlen : chunk.length ≤ 9)
    (h : ∀ c ∈ chunk, c.isDigit = true) :
    from_chars chunk 0 = (chunk.length, decimalValue chunk) := by
  have htw : chunk.takeWhile Char.isDigit = chunk := List.takeWhile_eq_self_iff.2 h
  have hlt := decimalValue_lt h
  have hb := pow10_lt_base hlen
  have h10 : 10 ^ chunk.length ≤ 10 ^ 9 := Nat.pow_le_pow_right (by decide) hlen
  unfold from_chars
  simp only [htw, foldl_decimal, Nat.zero_mul, Nat.zero_add]
  rw [if_neg (by simpa using hne), if_pos (by unfold base at hb; omega)]

/-- `from_chars` stops before the end of a chunk that holds a character that is not a
digit. -/
theorem from_chars_nondigit {chunk : List Char} (h : ¬ ∀ c ∈ chunk, c.isDigit = true) :
    (from_chars chunk 0).1 ≠ chunk.length := by
  have h1 : (chunk.takeWhile Char.isDigit).length ≠ chunk.length :=
    fun he => h ((takeWhile_length_eq_iff _ _).1 he)
  have hne : chunk ≠ [] := by
    intro h0; apply h; rw [h0]; intro c hc; cases hc
  have hpos : 0 < chunk.length := List.length_pos.2 hne
  unfold from_chars
  simp only
  split
  · simp only; omega
  · split <;> exact h1

namespace big_integer

theorem take_min_length (l : List Char) : l.take (min 9 l.length) = l.take 9 := by
  rcases Nat.le_total 9 l.length with h | h
  · rw [Nat.min_eq_left h]
  · rw [Nat.min_eq_right h, List.take_length, List.take_of_length_le h]

/-- One iteration of the loop of the string constructor. -/
theorem of_string_loop_succ (str : List Char) (n i : Nat) (x : big_integer) :
    of_string_loop str (n + 1) i x
      = if (from_chars ((str.drop i).take 9) 0).1 ≠ ((str.drop i).take 9).length then
          .throws .invalid_argument
        else of_string_loop str n (i + 9)
          ((x.mulDigitAbs (10 ^ ((str.drop i).take 9).length)).sumDigitAbs
            (from_chars ((str.drop i).take 9) 0).2) := by
  have hl : min 9 (str.length - i) = ((str.drop i).take 9).length := by
    rw [List.length_take, List.length_drop]
  have ht : (str.drop i).take (min 9 (str.length - i)) = (str.drop i).take 9 := by
    rw [← List.length_drop]; exact take_min_length _
  have hm : ∀ k : Nat, k ≤ 9 →
      (if k < 9 then x.mulDigitAbs (u32 (10 ^ k)) else x.mulDigitAbs 1000000000)
        = x.mulDigitAbs (10 ^ k) := by
    intro k hk
    split
    · rw [u32_of_lt (pow10_lt_base hk)]
    · have : k = 9 := by omega
      rw [this]; rfl
  simp only [of_string_loop, ht]
  rw [hl, hm _ (by rw [List.length_take]; exact Nat.min_le_left _ _)]

end big_integer

namespace big_integer

/-- The loop of the string constructor on a run of digits. -/
theorem of_string_loop_digits (str : List Char) :
    ∀ (n i : Nat) (x : big_integer), Words x._data →
      (∀ c ∈ str.drop i, c.isDigit = true) → (str.drop i).length ≤ 9 * n →
      9 * n < (str.drop i).length + 9 →
      ∃ x' : big_integer, of_string_loop str n i x = .ok x' ∧ Words x'._data ∧
        valAbs x'._data = valAbs x._data * 10 ^ (str.drop i).length + decimalValue (str.drop i) ∧
        x'._sign = x._sign := by
  intro n
  induction n with
  | zero =>
    intro i x hx _ hl _
    have h0 : str.drop i = [] := List.eq_nil_of_length_eq_zero (by omega)
    exact ⟨x, rfl, hx, by rw [h0]; simp [decimalValue_nil], rfl⟩
  | succ n ih =>
    intro i x hx hd hl1 hl2
    have hpos : 0 < (str.drop i).length := by omega
    have hcl : ((str.drop i).take 9).length ≤ 9 := by
      rw [List.length_take]; exact Nat.min_le_left _ _
    have hcne : (str.drop i).take 9 ≠ [] := by
      intro h0
      have := congrArg List.length h0
      rw [List.length_take, List.length_nil] at this
      omega
    have hcd : ∀ c ∈ (str.drop i).take 9, c.isDigit = true :=
      fun c hc => hd c (List.mem_of_mem_take hc)
    have hfc := from_chars_digits hcne hcl hcd
    have hdv := decimalValue_lt hcd
    have h10 : 10 ^ ((str.drop i).take 9).length ≤ 10 ^ 9 :=
      Nat.pow_le_pow_right (by decide) hcl
    have hb9 : (10 : Nat) ^ 9 < base := by decide
    obtain ⟨hw1, _, hv1, hs1⟩ := mulDigitAbs_spec (b := 10 ^ ((str.drop i).take 9).length) hx
      (pow10_lt_base hcl)
    obtain ⟨hw2, hv2, hs2⟩ := sumDigitAbs_spec (b := decimalValue ((str.drop i).take 9)) hw1
      (by omega)
    have hdd : str.drop (i + 9) = (str.drop i).drop 9 := by rw [List.drop_drop, Nat.add_comm]
    obtain ⟨x', heq, hw', hv', hs'⟩ := ih (i + 9) _ hw2
      (by rw [hdd]; exact fun c hc => hd c (List.mem_of_mem_drop hc))
      (by rw [hdd, List.length_drop]; omega) (by rw [hdd, List.length_drop]; omega)
    refine ⟨x', ?_, hw', ?_, by rw [hs', hs2, hs1]⟩
    · rw [of_string_loop_succ, hfc]
      simp only [ne_eq, not_true_eq_false, if_false]
      exact heq
    · rw [hv', hv2, hv1, hdd]
      have hsplit := decimalValue_append ((str.drop i).take 9) ((str.drop i).drop 9)
      rw [List.take_append_drop] at hsplit
      have hlen : (str.drop i).length
          = ((str.drop i).take 9).length + ((str.drop i).drop 9).length := by
        rw [← List.length_append, List.take_append_drop]
      rw [hsplit, hlen, Nat.pow_add]
      ring

/-- The loop of the string constructor on a run that holds a character that is not a
digit. -/
theorem of_string_loop_nondigit (str : List Char) :
    ∀ (n i : Nat) (x : big_integer), (¬ ∀ c ∈ str.drop i, c.isDigit = true) →
      (str.drop i).length ≤ 9 * n →
      of_string_loop str n i x = .throws .invalid_argument := by
  intro n
  induction n with
  | zero =>
    intro i x hd hl
    have h0 : str.drop i = [] := List.eq_nil_of_length_eq_zero (by omega)
    exact absurd (by rw [h0]; intro c hc; cases hc) hd
  | succ n ih =>
    intro i x hd hl
    rw [of_string_loop_succ]
    by_cases hcd : ∀ c ∈ (str.drop i).take 9, c.isDigit = true
    · have hdd : str.drop (i + 9) = (str.drop i).drop 9 := by rw [List.drop_drop, Nat.add_comm]
      have hrest : ¬ ∀ c ∈ str.drop (i + 9), c.isDigit = true := by
        intro h
        apply hd
        intro c hc
        rw [← List.take_append_drop 9 (str.drop i), List.mem_append] at hc
        rcases hc with hc | hc
        · exact hcd c hc
        · exact h c (by rw [hdd]; exact hc)
      have := ih (i + 9) ((x.mulDigitAbs (10 ^ ((str.drop i).take 9).length)).sumDigitAbs
        (from_chars ((str.drop i).take 9) 0).2) hrest (by rw [hdd, List.length_drop]; omega)
      rw [this]
      split <;> rfl
    · rw [if_pos (from_chars_nondigit hcd)]

theorem drop_sign (s : List Char) :
    s.drop (decide (s.head? = some '-')).toNat = afterSign s := by
  unfold afterSign
  by_cases h : s.head? = some '-'
  · simp only [h, decide_True, Bool.toNat_true, if_true]
    cases s <;> rfl
  · simp only [h, decide_False, Bool.toNat_false, if_false, List.drop_zero]

theorem afterSign_length (s : List Char) :
    (afterSign s).length = s.length - (decide (s.head? = some '-')).toNat := by
  rw [← drop_sign, List.length_drop]

/-- The string constructor accepts an optional `'-'` followed by one or more digits and
builds the value the digits denote with the sign given. -/
theorem of_string_ok {s : List Char} (hne : afterSign s ≠ [])
    (hd : ∀ c ∈ afterSign s, c.isDigit = true) :
    ∃ x : big_integer, of_string s = .ok x ∧ Words x._data ∧ Trimmed x._data ∧
      valAbs x._data = decimalValue (afterSign s) ∧ x._sign = decide (s.head? = some '-') := by
  have hs : s ≠ [] := by
    intro h0; apply hne; rw [h0]; rfl
  have hlen := afterSign_length s
  have hpos : 0 < (afterSign s).length := List.length_pos.2 hne
  obtain ⟨x', heq, hw', hv', hs'⟩ := of_string_loop_digits s
    ((s.length - (decide (s.head? = some '-')).toNat + 8) / 9)
    (decide (s.head? = some '-')).toNat ⟨[], decide (s.head? = some '-')⟩ Words_nil
    (by rw [drop_sign]; exact hd) (by rw [drop_sign, hlen]; omega) (by rw [drop_sign, hlen]; omega)
  refine ⟨x'.trim, ?_, trim_Words hw', trim_Trimmed _, ?_, by rw [trim_sign, hs']⟩
  · unfold of_string
    rw [if_neg (by simpa using hs)]
    simp only
    rw [if_neg (by
      intro h
      simp only [Bool.and_eq_true, decide_eq_true_eq, beq_iff_eq] at h
      rw [hlen] at hpos
      simp only [h.1, decide_True, Bool.toNat_true, h.2] at hpos
      omega)]
    rw [heq]
  · rw [trim_valAbs, hv', drop_sign]
    simp

/-- The string constructor throws `std::invalid_argument` on every other input. -/
theorem of_string_throws {s : List Char}
    (h : ¬ (afterSign s ≠ [] ∧ ∀ c ∈ afterSign s, c.isDigit = true)) :
    of_string s = .throws .invalid_argument := by
  unfold of_string
  by_cases hs : s = []
  · rw [if_pos (by simp [hs])]
  · rw [if_neg (by simpa using hs)]
    simp only
    split
    · rfl
    · next h1 =>
      have hlen := afterSign_length s
      have hne : afterSign s ≠ [] := by
        intro h0
        rw [h0] at hlen
        simp only [List.length_nil] at hlen
        have hsl : 0 < s.length := List.length_pos.2 hs
        apply h1
        have h2 : (decide (s.head? = some '-')).toNat ≤ 1 := Bool_toNat_le _
        have h3 : (decide (s.head? = some '-')).toNat = 1 := by omega
        have h4 : s.length = 1 := by omega
        have h5 : decide (s.head? = some '-') = true := by
          cases hdec : decide (s.head? = some '-')
          · rw [hdec] at h3; simp at h3
          · rfl
        simp [h5, h4]
      have hnd : ¬ ∀ c ∈ afterSign s, c.isDigit = true := fun hd => h ⟨hne, hd⟩
      rw [of_string_loop_nondigit s _ _ _ (by rw [drop_sign]; exact hnd)
        (by rw [drop_sign, hlen]; omega)]

end big_integer

namespace big_integer

theorem afterSign_eq_nil_iff (s : List Char) : afterSign s = [] ↔ s = [] ∨ s = ['-'] := by
  unfold afterSign
  cases s with
  | nil => simp
  | cons c cs =>
    by_cases hc : c = '-'
    · subst hc; simp
    · simp [hc]

/-- C5: the string constructor throws the invalid-format error (`std::invalid_argument`)
exactly when the input is empty, is the bare `"-"`, or holds a character other than
`'0'..'9'` after the optional single leading `'-'`; it accepts (returns a value for) every
optional `'-'` followed by one or more decimal digits, of any length. `"+5"`, `"--5"`,
`" 5"` and `"12a"` are rejected. -/
theorem of_string_throws_iff (s : List Char) :
    (of_string s = .throws .invalid_argument ↔
      (s = [] ∨ s = ['-'] ∨ ∃ c ∈ afterSign s, c.isDigit = false)) ∧
    ((∃ x : big_integer, of_string s = .ok x) ↔
      (afterSign s ≠ [] ∧ ∀ c ∈ afterSign s, c.isDigit = true)) ∧
    (of_string "+5".toList = .throws .invalid_argument ∧
      of_string "--5".toList = .throws .invalid_argument ∧
      of_string " 5".toList = .throws .invalid_argument ∧
      of_string "12a".toList = .throws .invalid_argument) := by
  have hvalid : (afterSign s ≠ [] ∧ ∀ c ∈ afterSign s, c.isDigit = true) ↔
      ¬ (s = [] ∨ s = ['-'] ∨ ∃ c ∈ afterSign s, c.isDigit = false) := by
    rw [← or_assoc, ← afterSign_eq_nil_iff, not_or]
    simp
  refine ⟨⟨?_, ?_⟩, ⟨?_, ?_⟩, by decide, by decide, by decide, by decide⟩
  · intro h
    by_contra hn
    obtain ⟨x, hx, _⟩ := of_string_ok (hvalid.2 hn).1 (hvalid.2 hn).2
    rw [hx] at h
    exact Outcome.noConfusion h
  · intro h
    exact of_string_throws (fun hv => (hvalid.1 hv) h)
  · rintro ⟨x, hx⟩
    by_contra hn
    rw [of_string_throws hn] at hx
    exact Outcome.noConfusion hx
  · intro h
    obtain ⟨x, hx, _⟩ := of_string_ok h.1 h.2
    exact ⟨x, hx⟩

/-- C6: for every accepted decimal string (an optional `'-'`, then one or more digits, any
length, leading zeros allowed) the string constructor returns a value whose mathematical
value is the integer the string denotes. -/
theorem of_string_value (s : List Char) (hne : afterSign s ≠ [])
    (hd : ∀ c ∈ afterSign s, c.isDigit = true) :
    ∃ x : big_integer, of_string s = .ok x ∧
      x.value = (if s.head? = some '-' then -(decimalValue (afterSign s) : Int)
        else (decimalValue (afterSign s) : Int)) := by
  obtain ⟨x, hx, _, _, hv, hs⟩ := of_string_ok hne hd
  refine ⟨x, hx, ?_⟩
  rw [value_eq, hv, hs]
  by_cases h : s.head? = some '-' <;> simp [h]

theorem of_string_value_witness :
    ∃ x : big_integer, of_string "-00123456789012345678901234567890".toList = .ok x ∧
      x.value = (if "-00123456789012345678901234567890".toList.head? = some '-' then
          -(decimalValue (afterSign "-00123456789012345678901234567890".toList) : Int)
        else (decimalValue (afterSign "-00123456789012345678901234567890".toList) : Int)) :=
  of_string_value "-00123456789012345678901234567890".toList (by decide) (by decide)

theorem decimalValue_zeros (n : Nat) : decimalValue (List.replicate n '0') = 0 := by
  induction n with
  | zero => rfl
  | succ n ih =>
    have h0 : '0'.toNat - 48 = 0 := by decide
    rw [List.replicate_succ, decimalValue_cons, ih, h0]; simp

/-- C7 (the code departs from the claim): a string that denotes zero with a leading minus
sign is parsed to an empty magnitude with `_sign = true`; the result is not
`== big_integer(0)` and is `< big_integer(0)`. -/
theorem of_string_minus_zero (n : Nat) :
    of_string ('-' :: List.replicate (n + 1) '0') = .ok ⟨[], true⟩ ∧
    of_string "-0".toList = .ok ⟨[], true⟩ ∧
    operator_eq ⟨[], true⟩ (of_int 0) = false ∧ operator_lt ⟨[], true⟩ (of_int 0) = true := by
  refine ⟨?_, by decide, by decide, by decide⟩
  have has : afterSign ('-' :: List.replicate (n + 1) '0') = List.replicate (n + 1) '0' := rfl
  obtain ⟨x, hx, hw, ht, hv, hs⟩ := of_string_ok (s := '-' :: List.replicate (n + 1) '0')
    (by rw [has]; simp) (by
      rw [has]
      intro c hc
      rw [List.eq_of_mem_replicate hc]
      decide)
  rw [has, decimalValue_zeros] at hv
  have hd := (valAbs_eq_zero_iff hw ht).1 hv
  rw [hx]
  cases x with
  | mk d sg =>
    simp only at hd hs
    rw [hd, hs]
    rfl

end big_integer

/-! ### The decimal codec: formatting -/

theorem digits10_length_le {r k : Nat} (h : r < 10 ^ k) : (Nat.digits 10 r).length ≤ k := by
  by_cases h0 : r = 0
  · rw [h0]; simp
  · have h1 := Nat.base_pow_length_digits_le 10 r (by decide) h0
    have h2 : 10 ^ (Nat.digits 10 r).length < 10 ^ (k + 1) := by
      rw [Nat.pow_succ]; omega
    have h3 := (Nat.pow_lt_pow_iff_right (by decide : 1 < 10)).1 h2
    omega

theorem digitChar_of_digit {d : Nat} (h : d < 10) : Char.ofNat (u32 (d + 48)) = Nat.digitChar d := by
  interval_cases d <;> decide

theorem digitChar_isDigit {d : Nat} (h : d < 10) : (Nat.digitChar d).isDigit = true := by
  interval_cases d <;> decide

theorem digitChar_toNat {d : Nat} (h : d < 10) : (Nat.digitChar d).toNat - 48 = d := by
  interval_cases d <;> decide

theorem digitChar_ne_minus {d : Nat} (h : d < 10) : Nat.digitChar d ≠ '-' := by
  interval_cases d <;> decide

namespace big_integer

theorem to_string_digits_spec :
    ∀ (n rem : Nat) (result : List Char) (len : Nat), rem < 10 ^ n →
      (Nat.digits 10 rem).length ≤ len → len < 2 ^ 64 →
      to_string_digits n rem result len
        = (result ++ (Nat.digits 10 rem).map Nat.digitChar, len - (Nat.digits 10 rem).length) := by
  intro n
  induction n with
  | zero =>
    intro rem result len h _ _
    have h0 : rem = 0 := by simpa using h
    subst h0
    simp [to_string_digits]
  | succ n ih =>
    intro rem result len h hl h64
    by_cases h0 : rem = 0
    · subst h0
      simp [to_string_digits]
    · have hd := Nat.digits_def' (by decide : 1 < 10) (Nat.pos_of_ne_zero h0)
      rw [hd] at hl ⊢
      simp only [List.length_cons] at hl
      have hu : u64 (len + (2 ^ 64 - 1)) = len - 1 := by unfold u64; omega
      have hlt : rem / 10 < 10 ^ n := by
        rw [Nat.div_lt_iff_lt_mul (by decide)]
        rw [Nat.pow_succ] at h
        exact h
      simp only [to_string_digits, ne_eq, h0, not_false_eq_true, if_true, hu,
        digitChar_of_digit (Nat.mod_lt rem (by decide : 0 < 10))]
      rw [ih (rem / 10) _ (len - 1) hlt (by omega) (by omega)]
      simp only [List.map_cons, List.append_assoc, List.singleton_append, List.length_cons,
        Prod.mk.injEq, true_and]
      omega

theorem isZero_iff_valAbs {x : big_integer} (hw : Words x._data) (ht : Trimmed x._data) :
    x.isZero = true ↔ valAbs x._data = 0 := by
  unfold isZero
  rw [valAbs_eq_zero_iff hw ht]
  simp

/-- The loop of `to_string` appends the decimal digits of the magnitude, least significant
first. -/
theorem to_string_loop_spec :
    ∀ (fuel : Nat) (tmp : big_integer) (result : List Char), Words tmp._data →
      Trimmed tmp._data → valAbs tmp._data < (10 ^ 9) ^ fuel →
      to_string_loop fuel tmp result
        = .ok (result ++ (Nat.digits 10 (valAbs tmp._data)).map Nat.digitChar) := by
  intro fuel
  induction fuel with
  | zero =>
    intro tmp result hw ht hv
    have h0 : valAbs tmp._data = 0 := by simpa using hv
    have hz := (isZero_iff_valAbs hw ht).2 h0
    simp [to_string_loop, hz, h0]
  | succ fuel ih =>
    intro tmp result hw ht hv
    by_cases hz : tmp.isZero = true
    · have h0 := (isZero_iff_valAbs hw ht).1 hz
      simp [to_string_loop, hz, h0]
    · have hpos : 0 < valAbs tmp._data := by
        apply Nat.pos_of_ne_zero
        intro h0
        exact hz ((isZero_iff_valAbs hw ht).2 h0)
      obtain ⟨y, r, hswd, hyw, hyt, hyv, hr, _⟩ :=
        singleWordDiv_spec (b := 1000000000) hw (by decide) (by decide)
      have hrlt : r < 10 ^ 9 := by rw [hr]; exact Nat.mod_lt _ (by decide)
      have hdl := digits10_length_le hrlt
      have hdig := to_string_digits_spec 10 r result 9
        (lt_of_lt_of_le hrlt (by decide)) hdl (by decide)
      have hylt : valAbs y._data < (10 ^ 9) ^ fuel := by
        rw [hyv, Nat.div_lt_iff_lt_mul (by decide)]
        rw [Nat.pow_succ] at hv
        exact hv
      have hdm : r + 10 ^ 9 * valAbs y._data = valAbs tmp._data := by
        rw [hr, hyv]; exact Nat.mod_add_div _ _
      simp only [to_string_loop, hz, Bool.not_false, if_true, hswd, hdig, Bool.false_eq_true,
        not_false_eq_true]
      by_cases hyz : y.isZero = true
      · have hy0 := (isZero_iff_valAbs hyw hyt).1 hyz
        rw [hy0, Nat.mul_zero, Nat.add_zero] at hdm
        rw [ih y _ hyw hyt hylt, hy0]
        simp [hyz, hdm]
      · have hypos : 0 < valAbs y._data := by
          apply Nat.pos_of_ne_zero
          intro h0
          exact hyz ((isZero_iff_valAbs hyw hyt).2 h0)
        have happ := Nat.digits_append_zeroes_append_digits (b := 10) (n := r)
          (k := 9 - (Nat.digits 10 r).length) (by decide) hypos
        have h9 : (Nat.digits 10 r).length + (9 - (Nat.digits 10 r).length) = 9 := by omega
        rw [h9, hdm] at happ
        have hc0 : Nat.digitChar 0 = '0' := rfl
        rw [ih y _ hyw hyt hylt, ← happ]
        simp [hyz, hc0]

end big_integer

namespace big_integer

theorem value_eq_zero_iff {x : big_integer} (hx : x.canonical) : x.value = 0 ↔ x._data = [] := by
  rw [← valAbs_eq_zero_iff hx.1 hx.2.1, ← natAbs_value]
  exact Int.natAbs_eq_zero.symm

theorem value_neg_iff {x : big_integer} (hx : x.canonical) : x.value < 0 ↔ x._sign = true := by
  constructor
  · intro h
    cases hs : x._sign with
    | true => rfl
    | false => rw [value_of_sign_false hs] at h; omega
  · intro hs
    have := valAbs_pos_of_sign hx hs
    rw [value_eq, hs]
    simp only [if_true]
    omega

theorem decimalText_of_canonical {x : big_integer} (hx : x.canonical) :
    decimalText x.value
      = if x.isZero then ['0']
        else (if x._sign then ['-'] else [])
          ++ (Nat.digits 10 (valAbs x._data)).reverse.map Nat.digitChar := by
  unfold decimalText isZero
  by_cases h0 : x._data = []
  · rw [if_pos ((value_eq_zero_iff hx).2 h0)]
    simp [h0]
  · rw [if_neg (fun h => h0 ((value_eq_zero_iff hx).1 h)), natAbs_value]
    have hz : x._data.isEmpty = false := by simpa using h0
    rw [hz]
    simp only [Bool.false_eq_true, if_false]
    by_cases hs : x._sign = true
    · rw [if_pos ((value_neg_iff hx).2 hs), hs]; rfl
    · rw [if_neg (fun h => hs ((value_neg_iff hx).1 h))]
      have : x._sign = false := by simpa using hs
      rw [this]; rfl

theorem fuel_bound {x : big_integer} (hw : Words x._data) {fuel : Nat}
    (hf : 2 * x._data.length ≤ fuel) : valAbs x._data < (10 ^ 9) ^ fuel := by
  have h1 := valAbs_lt hw
  have h2 : base ≤ (10 ^ 9) ^ 2 := by decide
  have h3 : base ^ x._data.length ≤ ((10 ^ 9) ^ 2) ^ x._data.length :=
    Nat.pow_le_pow_left h2 _
  rw [← Nat.pow_mul] at h3
  have h4 : (10 ^ 9) ^ (2 * x._data.length) ≤ (10 ^ 9) ^ fuel :=
    Nat.pow_le_pow_right (by decide) hf
  omega

/-- The function `to_string` returns the canonical decimal text of the value. -/
theorem to_string_spec {fuel : Nat} {x : big_integer} (hx : x.canonical)
    (hf : 2 * x._data.length ≤ fuel) : to_string fuel x = .ok (decimalText x.value) := by
  rw [decimalText_of_canonical hx]
  unfold to_string
  by_cases hz : x.isZero = true
  · rw [if_pos hz, if_pos hz]
  · rw [if_neg hz, if_neg hz, to_string_loop_spec fuel x [] hx.1 hx.2.1 (fuel_bound hx.1 hf)]
    simp only [List.nil_append]
    by_cases hs : x._sign = true
    · simp [hs]
    · have : x._sign = false := by simpa using hs
      simp [this]

theorem decimalValue_digits (n : Nat) :
    decimalValue ((Nat.digits 10 n).reverse.map Nat.digitChar) = n := by
  unfold decimalValue
  rw [← List.map_reverse, List.reverse_reverse, List.map_map]
  have : (Nat.digits 10 n).map ((fun c => c.toNat - 48) ∘ Nat.digitChar) = Nat.digits 10 n := by
    conv_rhs => rw [← List.map_id (Nat.digits 10 n)]
    apply List.map_congr_left
    intro d hd
    exact digitChar_toNat (Nat.digits_lt_base (by decide) hd)
  rw [this, Nat.ofDigits_digits]

/-- Parsing the text that `to_string` produces gives the value back. -/
theorem of_string_decimalText {x : big_integer} (hx : x.canonical) :
    of_string (decimalText x.value) = .ok x := by
  rw [decimalText_of_canonical hx]
  by_cases hz : x.isZero = true
  · rw [if_pos hz]
    have h0 : x._data = [] := by unfold isZero at hz; simpa using hz
    have hs := hx.2.2 h0
    cases x with
    | mk d s =>
      simp only at h0 hs
      subst h0 hs
      decide
  · rw [if_neg hz]
    have hne : x._data ≠ [] := by unfold isZero at hz; simpa using hz
    have hpos := valAbs_pos hx.2.1 hne
    have hdne : (Nat.digits 10 (valAbs x._data)).reverse.map Nat.digitChar ≠ [] := by
      simp only [ne_eq, List.map_eq_nil_iff, List.reverse_eq_nil_iff]
      exact Nat.digits_ne_nil_iff_ne_zero.2 (by omega)
    have hdd : ∀ c ∈ (Nat.digits 10 (valAbs x._data)).reverse.map Nat.digitChar,
        c.isDigit = true ∧ c ≠ '-' := by
      intro c hc
      simp only [List.mem_map, List.mem_reverse] at hc
      obtain ⟨d, hd, rfl⟩ := hc
      have := Nat.digits_lt_base (by decide : 1 < 10) hd
      exact ⟨digitChar_isDigit this, digitChar_ne_minus this⟩
    generalize hD : (Nat.digits 10 (valAbs x._data)).reverse.map Nat.digitChar = D at hdne hdd
    have hV : decimalValue D = valAbs x._data := by rw [← hD]; exact decimalValue_digits _
    have hhead : ((if x._sign = true then ['-'] else []) ++ D).head? = some '-' ↔ x._sign = true := by
      cases hs : x._sign
      · cases D with
        | nil => exact absurd rfl hdne
        | cons c cs =>
          have := (hdd c (List.mem_cons_self _ _)).2
          simp [this]
      · simp
    have has : afterSign ((if x._sign = true then ['-'] else []) ++ D) = D := by
      unfold afterSign
      cases hs : x._sign
      · rw [hs] at hhead
        rw [if_neg (fun h => Bool.noConfusion (hhead.1 h))]
        rfl
      · rfl
    obtain ⟨y, hy, hyw, hyt, hyv, hys⟩ :=
      of_string_ok (s := (if x._sign = true then ['-'] else []) ++ D) (by rw [has]; exact hdne)
        (by rw [has]; exact fun c hc => (hdd c hc).1)
    rw [hy]
    rw [has, hV] at hyv
    have hdata := valAbs_inj hyw hyt hx.1 hx.2.1 hyv
    have hsign : y._sign = x._sign := by
      rw [hys]
      cases hs : x._sign
      · rw [hs] at hhead
        simpa using fun h => Bool.noConfusion (hhead.1 h)
      · rw [hs] at hhead
        exact decide_eq_true (hhead.2 rfl)
    cases y; cases x
    simp only at hdata hsign
    rw [hdata, hsign]

/-- C8: for a canonical `x` (and fuel for the `while` loop of `to_string`), `to_string(x)`
is the canonical decimal text of the value of `x`: `"0"` for zero; otherwise a leading `'-'`
exactly when `x` is negative, followed by the decimal digits of `|x|`, the first of which is
not `'0'`. -/
theorem to_string_canonical (fuel : Nat) (x : big_integer) (hx : x.canonical)
    (hf : 2 * x._data.length ≤ fuel) :
    to_string fuel x = .ok (decimalText x.value) ∧
    (x.isZero = true → to_string fuel x = .ok ['0']) ∧
    (x.isZero = false →
      to_string fuel x = .ok ((if x._sign then ['-'] else [])
        ++ (Nat.digits 10 (valAbs x._data)).reverse.map Nat.digitChar) ∧
      ((Nat.digits 10 (valAbs x._data)).reverse.map Nat.digitChar).head? ≠ some '0' ∧
      ((Nat.digits 10 (valAbs x._data)).reverse.map Nat.digitChar).head? ≠ none) := by
  have h := to_string_spec hx hf
  have ht := decimalText_of_canonical hx
  refine ⟨h, ?_, ?_⟩
  · intro hz
    rw [h, ht, if_pos hz]
  · intro hz
    have hne : x._data ≠ [] := by unfold isZero at hz; simpa using hz
    have hpos := valAbs_pos hx.2.1 hne
    have hv0 : valAbs x._data ≠ 0 := by omega
    have hdn : Nat.digits 10 (valAbs x._data) ≠ [] := Nat.digits_ne_nil_iff_ne_zero.2 hv0
    refine ⟨by rw [h, ht, hz]; rfl, ?_, ?_⟩
    · have hl := Nat.getLast_digit_ne_zero 10 hv0
      rw [List.head?_map, List.head?_reverse, List.getLast?_eq_getLast _ hdn]
      simp only [Option.map_some', ne_eq, Option.some.injEq]
      intro hc
      have hlt := Nat.digits_lt_base (by decide : 1 < 10) (List.getLast_mem hdn)
      have := digitChar_toNat hlt
      rw [hc] at this
      exact hl this.symm
    · rw [List.head?_map, List.head?_reverse, List.getLast?_eq_getLast _ hdn]
      simp

theorem to_string_canonical_witness :
    to_string 4 ⟨[705032704, 1], true⟩
      = .ok (decimalText (⟨[705032704, 1], true⟩ : big_integer).value) ∧
    ((⟨[705032704, 1], true⟩ : big_integer).isZero = true →
      to_string 4 ⟨[705032704, 1], true⟩ = .ok ['0']) ∧
    ((⟨[705032704, 1], true⟩ : big_integer).isZero = false →
      to_string 4 ⟨[705032704, 1], true⟩ = .ok ((if true then ['-'] else [])
        ++ (Nat.digits 10 (valAbs [705032704, 1])).reverse.map Nat.digitChar) ∧
      ((Nat.digits 10 (valAbs [705032704, 1])).reverse.map Nat.digitChar).head? ≠ some '0' ∧
      ((Nat.digits 10 (valAbs [705032704, 1])).reverse.map Nat.digitChar).head? ≠ none) :=
  to_string_canonical 4 ⟨[705032704, 1], true⟩ (by decide) (by decide)

/-- C4: round trip. For every canonical `x` (and fuel for the loop of `to_string`),
`to_string(x)` returns a string from which the string constructor builds a value that is
`== x` (it has the words and the sign of `x`); zero and the values constructed from
`LLONG_MIN`, `LLONG_MAX` and `ULLONG_MAX` are canonical, and the round trip holds for them. -/
theorem round_trip (fuel : Nat) (x : big_integer) (hx : x.canonical)
    (hf : 2 * x._data.length ≤ fuel) :
    (∃ (s : List Char) (y : big_integer), to_string fuel x = .ok s ∧ of_string s = .ok y ∧
      operator_eq y x = true) ∧
    (∀ v ∈ [of_int 0, of_long_long (-(2 ^ 63)), of_long_long (2 ^ 63 - 1),
        of_unsigned_long_long (2 ^ 64 - 1)],
      v.canonical ∧ ∃ (s : List Char) (y : big_integer), to_string 4 v = .ok s ∧
        of_string s = .ok y ∧ operator_eq y v = true) := by
  have key : ∀ (n : Nat) (w : big_integer), w.canonical → 2 * w._data.length ≤ n →
      ∃ (s : List Char) (y : big_integer), to_string n w = .ok s ∧ of_string s = .ok y ∧
        operator_eq y w = true :=
    fun n w hw hl => ⟨_, w, to_string_spec hw hl, of_string_decimalText hw,
      (operator_eq_iff w w).2 rfl⟩
  refine ⟨key fuel x hx hf, ?_⟩
  intro v hv
  simp only [List.mem_cons, List.mem_singleton, List.not_mem_nil, or_false] at hv
  rcases hv with rfl | rfl | rfl | rfl
  · exact ⟨by decide, key 4 _ (by decide) (by decide)⟩
  · exact ⟨by decide, key 4 _ (by decide) (by decide)⟩
  · exact ⟨by decide, key 4 _ (by decide) (by decide)⟩
  · exact ⟨by decide, key 4 _ (by decide) (by decide)⟩

theorem round_trip_witness :
    (∃ (s : List Char) (y : big_integer), to_string 4 ⟨[705032704, 1], true⟩ = .ok s ∧
      of_string s = .ok y ∧ operator_eq y ⟨[705032704, 1], true⟩ = true) ∧
    (∀ v ∈ [of_int 0, of_long_long (-(2 ^ 63)), of_long_long (2 ^ 63 - 1),
        of_unsigned_long_long (2 ^ 64 - 1)],
      v.canonical ∧ ∃ (s : List Char) (y : big_integer), to_string 4 v = .ok s ∧
        of_string s = .ok y ∧ operator_eq y v = true) :=
  round_trip 4 ⟨[705032704, 1], true⟩ (by decide) (by decide)

end big_integer

/-! ### Ring laws and the order -/

namespace big_integer

theorem operator_eq_iff_value {a b : big_integer} (ha : a.canonical) (hb : b.canonical) :
    operator_eq a b = true ↔ a.value = b.value := by
  rw [operator_eq_iff]
  exact ⟨fun h => by rw [h], canonical_ext ha hb⟩

/-- C13: on canonical operands the comparisons are the total order of the values: `a < b`
iff `value a < value b`, `a == b` iff the values are equal, exactly one of `a < b`,
`a == b`, `a > b` holds, and `>`, `<=`, `>=`, `!=` are the derived relations. -/
theorem comparisons_total_order (a b : big_integer) (ha : a.canonical) (hb : b.canonical) :
    (operator_lt a b = true ↔ a.value < b.value) ∧
    (operator_eq a b = true ↔ a.value = b.value) ∧
    ((operator_lt a b = true ∧ operator_eq a b = false ∧ operator_gt a b = false) ∨
      (operator_lt a b = false ∧ operator_eq a b = true ∧ operator_gt a b = false) ∨
      (operator_lt a b = false ∧ operator_eq a b = false ∧ operator_gt a b = true)) ∧
    (operator_gt a b = true ↔ b.value < a.value) ∧
    (operator_le a b = true ↔ a.value ≤ b.value) ∧
    (operator_ge a b = true ↔ b.value ≤ a.value) ∧
    (operator_ne a b = true ↔ a.value ≠ b.value) := by
  have hlt := operator_lt_iff ha hb
  have hgt : operator_gt a b = true ↔ b.value < a.value := operator_lt_iff hb ha
  have heq := operator_eq_iff_value ha hb
  have hltf : operator_lt a b = false ↔ ¬ a.value < b.value := by
    rw [← hlt]; simp
  have hgtf : operator_gt a b = false ↔ ¬ b.value < a.value := by
    rw [← hgt]; simp
  have heqf : operator_eq a b = false ↔ ¬ a.value = b.value := by
    rw [← heq]; simp
  refine ⟨hlt, heq, ?_, hgt, ?_, operator_ge_iff ha hb, ?_⟩
  · rw [hlt, hgt, heq, hltf, hgtf, heqf]
    omega
  · unfold operator_le
    rw [Bool.not_eq_true', hgtf]
    omega
  · unfold operator_ne
    rw [Bool.not_eq_true', heqf]

theorem comparisons_total_order_witness :
    (operator_lt ⟨[0, 1], true⟩ ⟨[5], true⟩ = true ↔
      (⟨[0, 1], true⟩ : big_integer).value < (⟨[5], true⟩ : big_integer).value) ∧
    (operator_eq ⟨[0, 1], true⟩ ⟨[5], true⟩ = true ↔
      (⟨[0, 1], true⟩ : big_integer).value = (⟨[5], true⟩ : big_integer).value) ∧
    ((operator_lt ⟨[0, 1], true⟩ ⟨[5], true⟩ = true ∧ operator_eq ⟨[0, 1], true⟩ ⟨[5], true⟩ = false ∧
        operator_gt ⟨[0, 1], true⟩ ⟨[5], true⟩ = false) ∨
      (operator_lt ⟨[0, 1], true⟩ ⟨[5], true⟩ = false ∧ operator_eq ⟨[0, 1], true⟩ ⟨[5], true⟩ = true ∧
        operator_gt ⟨[0, 1], true⟩ ⟨[5], true⟩ = false) ∨
      (operator_lt ⟨[0, 1], true⟩ ⟨[5], true⟩ = false ∧ operator_eq ⟨[0, 1], true⟩ ⟨[5], true⟩ = false ∧
        operator_gt ⟨[0, 1], true⟩ ⟨[5], true⟩ = true)) ∧
    (operator_gt ⟨[0, 1], true⟩ ⟨[5], true⟩ = true ↔
      (⟨[5], true⟩ : big_integer).value < (⟨[0, 1], true⟩ : big_integer).value) ∧
    (operator_le ⟨[0, 1], true⟩ ⟨[5], true⟩ = true ↔
      (⟨[0, 1], true⟩ : big_integer).value ≤ (⟨[5], true⟩ : big_integer).value) ∧
    (operator_ge ⟨[0, 1], true⟩ ⟨[5], true⟩ = true ↔
      (⟨[5], true⟩ : big_integer).value ≤ (⟨[0, 1], true⟩ : big_integer).value) ∧
    (operator_ne ⟨[0, 1], true⟩ ⟨[5], true⟩ = true ↔
      (⟨[0, 1], true⟩ : big_integer).value ≠ (⟨[5], true⟩ : big_integer).value) :=
  comparisons_total_order ⟨[0, 1], true⟩ ⟨[5], true⟩ (by decide) (by decide)

end big_integer

/-! ### The two's-complement adapter of the bitwise operators -/

namespace big_integer

theorem singleTwoAddition_spec {x c : Nat} (hx : x < base) (hc : c ≤ 1) :
    (singleTwoAddition x c).1 < base ∧ (singleTwoAddition x c).2 ≤ 1 ∧
    (singleTwoAddition x c).1 + base * (singleTwoAddition x c).2 + x + 1 = base + c := by
  unfold singleTwoAddition u32 u64
  have hb : base = 4294967296 := rfl
  simp only [hb] at hx ⊢
  omega

theorem twos_arith {B w k x c r P f R : Nat} (hw : w + B * k + x + 1 = B + c)
    (ih : r + P * f + R + 1 = P + k) :
    (w + B * r) + P * B * f + (x + B * R) + 1 = P * B + c := by
  zify at hw ih ⊢
  linear_combination hw + (B : Int) * ih

/-- The conversion loop run on a stretch of words: the words written are the two's complement
continuation of the words read. -/
theorem applyBitWiseOp_negate_spec :
    ∀ (rest pre : List Nat) (c : Nat), Words rest → c ≤ 1 →
      ∃ (rest' : List Nat) (c' : Nat),
        applyBitWiseOp_negate rest.length pre.length (pre ++ rest) c = pre ++ rest' ∧
        rest'.length = rest.length ∧ Words rest' ∧ c' ≤ 1 ∧
        valAbs rest' + base ^ rest.length * c' + valAbs rest + 1 = base ^ rest.length + c := by
  intro rest
  induction rest with
  | nil =>
    intro pre c _ hc
    exact ⟨[], c, by simp [applyBitWiseOp_negate], rfl, Words_nil, hc, by simp; omega⟩
  | cons x rest0 ih =>
    intro pre c hw hc
    obtain ⟨hx, hw0⟩ := Words_cons.1 hw
    obtain ⟨h1, h2, h3⟩ := singleTwoAddition_spec hx hc
    obtain ⟨rest', c', heq, hl, hw', hc', hv⟩ :=
      ih (pre ++ [(singleTwoAddition x c).1]) (singleTwoAddition x c).2 hw0 h2
    refine ⟨(singleTwoAddition x c).1 :: rest', c', ?_, by simp [hl], Words_cons.2 ⟨h1, hw'⟩,
      hc', ?_⟩
    · simp only [List.length_cons, applyBitWiseOp_negate, getD_append_length, set_append_length]
      simpa using heq
    · simp only [valAbs_cons, List.length_cons, Nat.pow_succ]
      exact twos_arith h3 hv

/-- The first loop of `applyBitWiseOp` for `|` with a right operand without words and
without sign, on a negative receiver: it writes the two's complement words. -/
theorem applyBitWiseOp_loop_or_nil_neg :
    ∀ (rest pre : List Nat) (c rc : Nat), Words rest → c ≤ 1 →
      ∃ (rest' : List Nat) (c' : Nat),
        applyBitWiseOp_loop .bit_or true false [] rest.length pre.length (pre ++ rest) c rc
          = pre ++ rest' ∧
        rest'.length = rest.length ∧ Words rest' ∧ c' ≤ 1 ∧
        valAbs rest' + base ^ rest.length * c' + valAbs rest + 1 = base ^ rest.length + c := by
  intro rest
  induction rest with
  | nil =>
    intro pre c rc _ hc
    exact ⟨[], c, by simp [applyBitWiseOp_loop], rfl, Words_nil, hc, by simp; omega⟩
  | cons x rest0 ih =>
    intro pre c rc hw hc
    obtain ⟨hx, hw0⟩ := Words_cons.1 hw
    obtain ⟨h1, h2, h3⟩ := singleTwoAddition_spec hx hc
    obtain ⟨rest', c', heq, hl, hw', hc', hv⟩ :=
      ih (pre ++ [(singleTwoAddition x c).1]) (singleTwoAddition x c).2 rc hw0 h2
    refine ⟨(singleTwoAddition x c).1 :: rest', c', ?_, by simp [hl], Words_cons.2 ⟨h1, hw'⟩,
      hc', ?_⟩
    · simp only [List.length_cons, applyBitWiseOp_loop, getD_append_length, set_append_length,
        if_true, List.length_nil, Nat.not_lt_zero, if_false, BitWiseOperation.word, Nat.or_zero]
      simpa using heq
    · simp only [valAbs_cons, List.length_cons, Nat.pow_succ]
      exact twos_arith h3 hv

/-- The same loop on a non-negative receiver leaves the words as they are. -/
theorem applyBitWiseOp_loop_or_nil_pos :
    ∀ (rest pre : List Nat) (c rc : Nat),
      applyBitWiseOp_loop .bit_or false false [] rest.length pre.length (pre ++ rest) c rc
        = pre ++ rest := by
  intro rest
  induction rest with
  | nil => intro pre c rc; simp [applyBitWiseOp_loop]
  | cons x rest0 ih =>
    intro pre c rc
    have := ih (pre ++ [x]) c rc
    simp only [List.length_cons, applyBitWiseOp_loop, getD_append_length, set_append_length,
      Bool.false_eq_true, if_false, List.length_nil, Nat.not_lt_zero, BitWiseOperation.word,
      Nat.or_zero]
    simpa using this

/-- The first loop for `&` with a right operand without words and without sign writes
zeros. -/
theorem applyBitWiseOp_loop_and_nil (s : Bool) :
    ∀ (rest pre : List Nat) (c rc : Nat),
      applyBitWiseOp_loop .bit_and s false [] rest.length pre.length (pre ++ rest) c rc
        = pre ++ List.replicate rest.length 0 := by
  intro rest
  induction rest with
  | nil => intro pre c rc; simp [applyBitWiseOp_loop]
  | cons x rest0 ih =>
    intro pre c rc
    simp only [List.length_cons, applyBitWiseOp_loop, getD_append_length, set_append_length,
      List.length_nil, Nat.not_lt_zero, if_false, BitWiseOperation.word, Nat.and_zero]
    have := ih (pre ++ [0]) (if s = true then singleTwoAddition x c else (x, c)).2 rc
    rw [List.replicate_succ]
    simpa using this

/-- The first loop for `^` with the receiver's own words and sign as right operand writes
zeros. -/
theorem applyBitWiseOp_loop_xor_self (s : Bool) :
    ∀ (rest pre opre : List Nat) (c : Nat), pre.length = opre.length →
      applyBitWiseOp_loop .bit_xor s s (opre ++ rest) rest.length pre.length (pre ++ rest) c c
        = pre ++ List.replicate rest.length 0 := by
  intro rest
  induction rest with
  | nil => intro pre opre c _; simp [applyBitWiseOp_loop]
  | cons x rest0 ih =>
    intro pre opre c hl
    have hg : (opre ++ x :: rest0).getD pre.length 0 = x := by
      rw [hl]; exact getD_append_length _ _ _
    have hlt : pre.length < (opre ++ x :: rest0).length := by
      rw [List.length_append, List.length_cons, hl]; omega
    have := ih (pre ++ [0]) (opre ++ [x]) (if s = true then singleTwoAddition x c else (x, c)).2
      (by simp [hl])
    simp only [List.length_cons, applyBitWiseOp_loop, getD_append_length, set_append_length,
      hg, hlt, if_true, BitWiseOperation.word, Nat.xor_self]
    rw [List.replicate_succ]
    simpa using this

theorem rdrop_replicate_zero (n : Nat) :
    (List.replicate n 0).rdropWhile (fun w => w == 0) = [] := by
  apply (valAbs_eq_zero_iff (Words_rdrop (Words_replicate_zero n)) (Trimmed_rdrop _)).1
  rw [valAbs_rdrop, valAbs_replicate_zero]

theorem stretch_of_le {x : big_integer} {n : Nat} (h : n ≤ x._data.length) :
    x.stretch n = x := by
  unfold stretch
  rw [if_neg (by omega)]

theorem eq_of_valAbs_eq_of_length {d e : List Nat} (hd : Words d) (he : Words e)
    (hl : d.length = e.length) (hv : valAbs d = valAbs e) : d = e := by
  induction d generalizing e with
  | nil =>
    cases e with
    | nil => rfl
    | cons y ys => simp at hl
  | cons x xs ih =>
    cases e with
    | nil => simp at hl
    | cons y ys =>
      obtain ⟨hx, hxs⟩ := Words_cons.1 hd
      obtain ⟨hy, hys⟩ := Words_cons.1 he
      rw [valAbs_cons, valAbs_cons] at hv
      have hb : base = 4294967296 := rfl
      rw [hb] at hv hx hy
      have h1 : x = y := by omega
      have h2 : valAbs xs = valAbs ys := by omega
      rw [h1, ih hxs hys (by simpa using hl) h2]

/-- `applyBitWiseOp` when the right operand is not longer than the receiver. -/
theorem applyBitWiseOp_of_le {x rhs : big_integer} (op : BitWiseOperation)
    (h : rhs._data.length ≤ x._data.length) :
    x.applyBitWiseOp rhs op
      = trim ⟨if op.sign x._sign rhs._sign = true then
            applyBitWiseOp_negate
              (applyBitWiseOp_loop op x._sign rhs._sign rhs._data x._data.length 0 x._data 1
                1).length 0
              (applyBitWiseOp_loop op x._sign rhs._sign rhs._data x._data.length 0 x._data 1 1) 1
          else applyBitWiseOp_loop op x._sign rhs._sign rhs._data x._data.length 0 x._data 1 1,
        op.sign x._sign rhs._sign⟩ := by
  simp only [applyBitWiseOp, stretch_of_le h]

theorem xor_self_eq (a : big_integer) : operator_xor a a = ⟨[], false⟩ := by
  have h := applyBitWiseOp_loop_xor_self a._sign a._data [] [] 1 rfl
  simp only [List.nil_append, List.length_nil] at h
  unfold operator_xor operator_xor_eq
  rw [applyBitWiseOp_of_le _ (Nat.le_refl _), h]
  have hs : BitWiseOperation.bit_xor.sign a._sign a._sign = false := by
    cases a._sign <;> rfl
  simp only [hs, Bool.false_eq_true, if_false]
  have ht : trim ⟨List.replicate a._data.length 0, false⟩ = ⟨[], false⟩ := by
    unfold trim; rw [rdrop_replicate_zero]
  rw [ht]; rfl

theorem and_zero_eq (a : big_integer) : operator_and a (of_int 0) = ⟨[], false⟩ := by
  have h := applyBitWiseOp_loop_and_nil a._sign a._data [] 1 1
  simp only [List.nil_append, List.length_nil] at h
  rw [of_int_zero]
  unfold operator_and operator_and_eq
  rw [applyBitWiseOp_of_le _ (Nat.zero_le _), h]
  have hs : BitWiseOperation.bit_and.sign a._sign false = false := by
    cases a._sign <;> rfl
  simp only [hs, Bool.false_eq_true, if_false]
  have ht : trim ⟨List.replicate a._data.length 0, false⟩ = ⟨[], false⟩ := by
    unfold trim; rw [rdrop_replicate_zero]
  rw [ht]; rfl

theorem or_zero_eq {a : big_integer} (ha : a.canonical) : operator_or a (of_int 0) = a := by
  rw [of_int_zero]
  unfold operator_or operator_or_eq
  rw [applyBitWiseOp_of_le _ (Nat.zero_le _)]
  have hs : BitWiseOperation.bit_or.sign a._sign false = a._sign := by
    cases a._sign <;> rfl
  simp only [hs]
  cases hsa : a._sign with
  | false =>
    have h := applyBitWiseOp_loop_or_nil_pos a._data [] 1 1
    simp only [List.nil_append, List.length_nil] at h
    rw [h]
    simp only [Bool.false_eq_true, if_false]
    have e : (⟨a._data, false⟩ : big_integer) = a := by
      cases a; simp only at hsa; rw [hsa]
    rw [e, trim_of_Trimmed ha.2.1, zeroResult_of_canonical ha]
  | true =>
    have hpos := valAbs_pos_of_sign ha hsa
    have hlt := valAbs_lt ha.1
    obtain ⟨d1, c1, h1, hl1, hw1, hc1, hv1⟩ :=
      applyBitWiseOp_loop_or_nil_neg a._data [] 1 1 ha.1 (Nat.le_refl _)
    simp only [List.nil_append, List.length_nil] at h1
    rw [h1]
    obtain ⟨d2, c2, h2, hl2, hw2, hc2, hv2⟩ :=
      applyBitWiseOp_negate_spec d1 [] 1 hw1 (Nat.le_refl _)
    simp only [List.nil_append, List.length_nil] at h2
    simp only [if_true]
    rw [h2]
    have hlt1 := valAbs_lt hw1
    have hlt2 := valAbs_lt hw2
    rw [hl1] at hlt1 hv2
    rw [hl2, hl1] at hlt2
    have hc10 : c1 = 0 := by
      rcases Nat.le_one_iff_eq_zero_or_eq_one.1 hc1 with h | h
      · exact h
      · rw [h] at hv1; omega
    rw [hc10] at hv1
    have hc20 : c2 = 0 := by
      rcases Nat.le_one_iff_eq_zero_or_eq_one.1 hc2 with h | h
      · exact h
      · rw [h] at hv2; omega
    rw [hc20] at hv2
    have hd : d2 = a._data :=
      eq_of_valAbs_eq_of_length hw2 ha.1 (by rw [hl2, hl1]) (by omega)
    rw [hd]
    have e : (⟨a._data, true⟩ : big_integer) = a := by
      cases a; simp only at hsa; rw [hsa]
    rw [e, trim_of_Trimmed ha.2.1, zeroResult_of_canonical ha]

/-- C17: for every canonical `a` of either sign, `a ^ a == 0`, `a & 0 == 0` and
`a | 0 == a`; the zero results are the canonical zero. -/
theorem bitwise_identities (a : big_integer) (ha : a.canonical) :
    operator_eq (operator_xor a a) (of_int 0) = true ∧
    operator_eq (operator_and a (of_int 0)) (of_int 0) = true ∧
    operator_eq (operator_or a (of_int 0)) a = true ∧
    operator_xor a a = ⟨[], false⟩ ∧ operator_and a (of_int 0) = ⟨[], false⟩ := by
  refine ⟨?_, ?_, ?_, xor_self_eq a, and_zero_eq a⟩
  · rw [xor_self_eq]; decide
  · rw [and_zero_eq]; decide
  · rw [or_zero_eq ha, operator_eq_iff]

theorem bitwise_identities_witness :
    operator_eq (operator_xor ⟨[0, 7, 1], true⟩ ⟨[0, 7, 1], true⟩) (of_int 0) = true ∧
    operator_eq (operator_and ⟨[0, 7, 1], true⟩ (of_int 0)) (of_int 0) = true ∧
    operator_eq (operator_or ⟨[0, 7, 1], true⟩ (of_int 0)) ⟨[0, 7, 1], true⟩ = true ∧
    operator_xor ⟨[0, 7, 1], true⟩ ⟨[0, 7, 1], true⟩ = ⟨[], false⟩ ∧
    operator_and ⟨[0, 7, 1], true⟩ (of_int 0) = ⟨[], false⟩ :=
  bitwise_identities ⟨[0, 7, 1], true⟩ (by decide)

end big_integer

/-! ### Right shift -/

namespace big_integer

theorem valAbs_drop_div {d : List Nat} (hw : Words d) (j : Nat) :
    valAbs (d.drop j) = valAbs d / base ^ j := by
  unfold valAbs
  exact (Nat.ofDigits_div_pow_eq_ofDigits_drop j base_pos d hw).symm

theorem base_pow_mul_two_pow (k : Nat) : base ^ (k / 32) * 2 ^ (k % 32) = 2 ^ k := by
  have hb : base = 2 ^ 32 := rfl
  have hk : 2 ^ k = 2 ^ (32 * (k / 32) + k % 32) := by rw [Nat.div_add_mod]
  rw [hk, Nat.pow_add, Nat.pow_mul, ← hb]

/-- `operator>>=` on a canonical value without sign. -/
theorem operator_shr_eq_nonneg {a : big_integer} (ha : a.canonical) (hs : a._sign = false)
    (k : Nat) :
    ∃ y : big_integer, operator_shr_eq a k = .ok y ∧ y.canonical ∧ y._sign = false ∧
      valAbs y._data = valAbs a._data / 2 ^ k ∧ (32 * a._data.length ≤ k → y = ⟨[], false⟩) := by
  unfold operator_shr_eq
  by_cases hc : k / 32 ≥ a._data.length
  · rw [if_pos hc]
    refine ⟨⟨[], false⟩, rfl, by decide, rfl, ?_, fun _ => rfl⟩
    have hlt := valAbs_lt ha.1
    have h1 : base ^ a._data.length ≤ base ^ (k / 32) := Nat.pow_le_pow_right base_pos hc
    have h2 : base ^ (k / 32) ≤ 2 ^ k := by
      rw [← base_pow_mul_two_pow k]
      exact Nat.le_mul_of_pos_right _ (pow_pos (by decide) _)
    rw [Nat.div_eq_of_lt (by omega)]
    rfl
  · rw [if_neg hc]
    have hlt : 2 ^ (k % 32) < base := two_pow_lt_base (Nat.mod_lt _ (by decide))
    have hu : u32 (2 ^ (k % 32)) = 2 ^ (k % 32) := u32_of_lt hlt
    have hwd : Words (a._data.drop (k / 32)) := fun w hw => ha.1 w (List.mem_of_mem_drop hw)
    obtain ⟨y, r, hswd, hyw, hyt, hyv, _, hys⟩ :=
      singleWordDiv_spec (x := { a with _data := a._data.drop (k / 32) }) hwd
        (pow_pos (by decide) (k % 32)) hlt
    have hys' : y._sign = false := by
      rw [hys]; split
      · rfl
      · exact hs
    rw [hu, hswd]
    simp only [hys', Bool.false_eq_true, if_false]
    refine ⟨y, rfl, ⟨hyw, hyt, fun _ => hys'⟩, hys', ?_, ?_⟩
    · rw [hyv]
      show valAbs (a._data.drop (k / 32)) / 2 ^ (k % 32) = _
      rw [valAbs_drop_div ha.1, Nat.div_div_eq_div_mul, base_pow_mul_two_pow]
    · intro h
      exact absurd (by omega : k / 32 ≥ a._data.length) hc

/-- C20: for a canonical `a >= 0` and `k >= 0`, `a >> k` returns the canonical value of
`a / 2^k` (floor); for `k >= 32 * (word count of a)` it is the canonical zero. -/
theorem shr_nonneg (a : big_integer) (k : Nat) (ha : a.canonical)
    (h0 : operator_ge a (of_int 0) = true) :
    ∃ y : big_integer, operator_shr a k = .ok y ∧ y.canonical ∧
      y.value = a.value / (2 : Int) ^ k ∧ (32 * a._data.length ≤ k → y = ⟨[], false⟩) := by
  have hv0 : 0 ≤ a.value := by
    have := (operator_ge_iff ha of_int_zero_canonical).1 h0
    rw [of_int_zero_value] at this
    exact this
  have hs := sign_false_of_value_nonneg ha hv0
  obtain ⟨y, hy, hyc, hys, hyv, hz⟩ := operator_shr_eq_nonneg ha hs k
  refine ⟨y, hy, hyc, ?_, hz⟩
  rw [value_of_sign_false hys, value_of_sign_false hs, hyv]
  push_cast
  rfl

theorem shr_nonneg_witness :
    ∃ y : big_integer, operator_shr ⟨[7, 0, 256], false⟩ 33 = .ok y ∧ y.canonical ∧
      y.value = (⟨[7, 0, 256], false⟩ : big_integer).value / (2 : Int) ^ 33 ∧
      (32 * (⟨[7, 0, 256], false⟩ : big_integer)._data.length ≤ 33 → y = ⟨[], false⟩) :=
  shr_nonneg ⟨[7, 0, 256], false⟩ 33 (by decide) (by decide)

/-! ### Inputs on which the bitwise operators and the right shift depart from the
two's-complement semantics -/

/-- C14 (the code departs from the claim): `-1 & 1 == 1` holds, but
`-(2^40) & -6` is `0` instead of `-(2^40)` and `-(2^40) | -6` is `-(255 * 2^32 + 6)`
instead of `-6` (the missing high word of the shorter negative right operand is read as 0);
`-(2^64 - 2^32 + 1) & -(2^32)` is `0` instead of `-(2^64)` and `-(2^32 - 5) ^ 5` is `0`
instead of `-(2^32)` (the carry out of the conversion back to sign-magnitude is dropped). -/
theorem bitwise_departs_from_twos_complement :
    (of_string "-1".toList = .ok (of_int (-1)) ∧ of_string "1".toList = .ok (of_int 1) ∧
      operator_eq (operator_and (of_int (-1)) (of_int 1)) (of_int 1) = true) ∧
    (operator_and ⟨[0, 256], true⟩ (of_int (-6)) = ⟨[], false⟩ ∧
      (operator_and ⟨[0, 256], true⟩ (of_int (-6))).value
        ≠ Int.land (⟨[0, 256], true⟩ : big_integer).value (of_int (-6)).value) ∧
    (operator_or ⟨[0, 256], true⟩ (of_int (-6)) = ⟨[6, 255], true⟩ ∧
      (operator_or ⟨[0, 256], true⟩ (of_int (-6))).value
        ≠ Int.lor (⟨[0, 256], true⟩ : big_integer).value (of_int (-6)).value) ∧
    (operator_and ⟨[1, 4294967295], true⟩ ⟨[0, 1], true⟩ = ⟨[], false⟩ ∧
      (operator_and ⟨[1, 4294967295], true⟩ ⟨[0, 1], true⟩).value
        ≠ Int.land (⟨[1, 4294967295], true⟩ : big_integer).value
          (⟨[0, 1], true⟩ : big_integer).value) ∧
    (operator_xor ⟨[4294967291], true⟩ (of_int 5) = ⟨[], false⟩ ∧
      (operator_xor ⟨[4294967291], true⟩ (of_int 5)).value
        ≠ Int.xor (⟨[4294967291], true⟩ : big_integer).value (of_int 5).value) := by
  and_intros <;> decide

/-- C15 (the code departs from the claim): `~big_integer(-1)` is an empty magnitude with
`_sign = true`; it is not `== big_integer(0)` and not `== -x - 1`; `~~x == x` fails for
`x = 0` and `x = -1`. -/
theorem not_minus_one_negative_zero :
    operator_not (of_int (-1)) = ⟨[], true⟩ ∧
    operator_eq (operator_not (of_int (-1))) (of_int 0) = false ∧
    operator_eq (operator_not (of_int (-1)))
      (operator_minus (operator_neg (of_int (-1))) (of_int 1)) = false ∧
    operator_eq (operator_not (operator_not (of_int 0))) (of_int 0) = false ∧
    operator_eq (operator_not (operator_not (of_int (-1)))) (of_int (-1)) = false := by
  decide

set_option maxRecDepth 8000 in
/-- C16 (the code departs from the claim): De Morgan fails for `a = 2^32 + 5`, `b = -1`
(`~(a & b)` is `-6`, `~a | ~b` is `-(2^32 + 6)`) and for `a = b = -1` (`~(a & b)` is the
negative zero, `~a | ~b` the canonical zero). -/
theorem de_morgan_fails :
    operator_not (operator_and ⟨[5, 1], false⟩ (of_int (-1))) = ⟨[6], true⟩ ∧
    operator_or (operator_not ⟨[5, 1], false⟩) (operator_not (of_int (-1))) = ⟨[6, 1], true⟩ ∧
    operator_eq (operator_not (operator_and ⟨[5, 1], false⟩ (of_int (-1))))
      (operator_or (operator_not ⟨[5, 1], false⟩) (operator_not (of_int (-1)))) = false ∧
    operator_eq (operator_not (operator_and (of_int (-1)) (of_int (-1))))
      (operator_or (operator_not (of_int (-1))) (operator_not (of_int (-1)))) = false := by
  decide

/-- C18 (the code departs from the claim): for the two-word `a = 2^32 + 5`,
`a & big_integer(-1)` is `5` and `a | big_integer(-1)` is `-(4294967294 * 2^32 + 1)`: the
missing high word of the negative right operand is read as 0. With the operands exchanged
the shorter negative operand is the receiver and is extended with all-ones words. -/
theorem right_operand_not_sign_extended :
    operator_and ⟨[5, 1], false⟩ (of_int (-1)) = ⟨[5], false⟩ ∧
    operator_eq (operator_and ⟨[5, 1], false⟩ (of_int (-1))) ⟨[5, 1], false⟩ = false ∧
    operator_or ⟨[5, 1], false⟩ (of_int (-1)) = ⟨[1, 4294967294], true⟩ ∧
    operator_eq (operator_or ⟨[5, 1], false⟩ (of_int (-1))) (of_int (-1)) = false ∧
    operator_and (of_int (-1)) ⟨[5, 1], false⟩ = ⟨[5, 1], false⟩ ∧
    operator_or (of_int (-1)) ⟨[5, 1], false⟩ = of_int (-1) := by
  decide

/-- C19 (the code departs from the claim): `-4 >> 1` is `-3`, `-1 >> 1` is `0`, `-1 >> 0` is
`-2` and `-5 >> 32` is `0`; the floor quotients are `-2`, `-1`, `-1` and `-1`. -/
theorem shr_negative_not_floor :
    operator_shr (of_int (-4)) 1 = .ok (of_int (-3)) ∧
    operator_shr (of_int (-1)) 1 = .ok (of_int 0) ∧
    operator_shr (of_int (-1)) 0 = .ok (of_int (-2)) ∧
    operator_shr (of_int (-5)) 32 = .ok (of_int 0) ∧
    ((-4 : Int) / 2 ^ 1 = -2 ∧ (-1 : Int) / 2 ^ 1 = -1 ∧ (-1 : Int) / 2 ^ 0 = -1 ∧
      (-5 : Int) / 2 ^ 32 = -1) := by
  decide

end big_integer

/-! ### Left shift -/

namespace big_integer

/-- `a << k` on a canonical `a`: canonical, the value is multiplied by `2^k`, the sign is
kept. -/
theorem operator_shl_canonical {a : big_integer} (ha : a.canonical) (k : Nat) :
    (operator_shl a k).canonical ∧ (operator_shl a k).value = a.value * 2 ^ k ∧
    (operator_shl a k)._sign = a._sign := by
  obtain ⟨hw, ht, hv, hs⟩ := operator_shl_eq_spec ha.1 k
  refine ⟨⟨hw, ht, ?_⟩, ?_, hs⟩
  · intro h0
    have h0' : (a.operator_shl_eq k)._data = [] := h0
    have h1 : valAbs (a.operator_shl_eq k)._data = 0 := by rw [h0']; rfl
    rw [hv] at h1
    have h2 : valAbs a._data = 0 := by
      rcases Nat.mul_eq_zero.1 h1 with h | h
      · exact h
      · exact absurd h (by positivity)
    show (a.operator_shl_eq k)._sign = false
    rw [hs]
    exact ha.2.2 ((valAbs_eq_zero_iff ha.1 ha.2.1).1 h2)
  · show (a.operator_shl_eq k).value = _
    rw [value_eq, value_eq, hs, hv]
    split <;> push_cast <;> ring

theorem of_int_one_canonical : (of_int 1).canonical := by decide

theorem of_int_one_value : (of_int 1).value = 1 := by decide

/-- C21: for every canonical `a` and every `k ≥ 0`, `a << k` is canonical with value
`value a * 2^k` and the sign of `a`; it is `== a * (1 << k)`, where `1 << k` has the value
`2^k`; and `0 << k` is the canonical zero. -/
theorem shl_eq_mul_pow (a : big_integer) (k : Nat) (ha : a.canonical) :
    (operator_shl a k).canonical ∧ (operator_shl a k).value = a.value * 2 ^ k ∧
    (operator_shl a k)._sign = a._sign ∧
    (operator_shl (of_int 1) k).value = 2 ^ k ∧
    operator_eq (operator_shl a k) (operator_mul a (operator_shl (of_int 1) k)) = true ∧
    operator_shl (of_int 0) k = ⟨[], false⟩ := by
  obtain ⟨hc, hv, hs⟩ := operator_shl_canonical ha k
  obtain ⟨hc1, hv1, _⟩ := operator_shl_canonical of_int_one_canonical k
  obtain ⟨hc0, hv0, _⟩ := operator_shl_canonical of_int_zero_canonical k
  rw [of_int_one_value, one_mul] at hv1
  rw [of_int_zero_value, zero_mul] at hv0
  obtain ⟨hm, hmv⟩ := operator_mul_eq_spec ha hc1
  refine ⟨hc, hv, hs, hv1, ?_, ?_⟩
  · rw [operator_eq_iff]
    apply canonical_ext hc hm
    rw [hv, hmv, hv1]
  · exact canonical_ext hc0 (by decide) (by rw [hv0]; rfl)

theorem shl_eq_mul_pow_witness :
    (operator_shl ⟨[3, 2147483648], true⟩ 37).canonical ∧
    (operator_shl ⟨[3, 2147483648], true⟩ 37).value
      = (⟨[3, 2147483648], true⟩ : big_integer).value * 2 ^ 37 ∧
    (operator_shl ⟨[3, 2147483648], true⟩ 37)._sign
      = (⟨[3, 2147483648], true⟩ : big_integer)._sign ∧
    (operator_shl (of_int 1) 37).value = 2 ^ 37 ∧
    operator_eq (operator_shl ⟨[3, 2147483648], true⟩ 37)
      (operator_mul ⟨[3, 2147483648], true⟩ (operator_shl (of_int 1) 37)) = true ∧
    operator_shl (of_int 0) 37 = ⟨[], false⟩ :=
  shl_eq_mul_pow ⟨[3, 2147483648], true⟩ 37 (by decide)

/-! ### Construction from a native integer -/

theorem pushWords_spec {v : Nat} (hv : v < 2 ^ 64) :
    Words (pushWords 2 v) ∧ valAbs (pushWords 2 v) = v := by
  have hb : base = 4294967296 := rfl
  have h1 : v % base < base := Nat.mod_lt _ base_pos
  have h2 : v / base < base := by rw [hb]; omega
  have h3 : v / base % base = v / base := Nat.mod_eq_of_lt h2
  have e : pushWords 2 v = v % base :: (if v / base ≠ 0 then [v / base] else []) := by
    simp only [pushWords, h3, ite_self]
  rw [e]
  by_cases h : v / base ≠ 0
  · rw [if_pos h]
    refine ⟨Words_cons.2 ⟨h1, Words_cons.2 ⟨h2, Words_nil⟩⟩, ?_⟩
    simp only [valAbs_cons, valAbs_nil, Nat.mul_zero, Nat.add_zero]
    exact Nat.mod_add_div v base
  · rw [if_neg h]
    refine ⟨Words_cons.2 ⟨h1, Words_nil⟩, ?_⟩
    simp only [valAbs_cons, valAbs_nil, Nat.mul_zero, Nat.add_zero]
    have h0 : v / base = 0 := by simpa using h
    have := Nat.mod_add_div v base
    rw [h0] at this
    simpa using this

theorem of_unsigned_long_long_spec {n : Nat} (hn : n < 2 ^ 64) :
    (of_unsigned_long_long n).canonical ∧ (of_unsigned_long_long n).value = n := by
  have hu : u64 n = n := Nat.mod_eq_of_lt hn
  obtain ⟨hw, hv⟩ := pushWords_spec hn
  unfold of_unsigned_long_long
  rw [hu]
  refine ⟨⟨trim_Words hw, trim_Trimmed _, fun _ => rfl⟩, ?_⟩
  rw [value_of_sign_false (trim_sign _), trim_valAbs, hv]

theorem of_long_long_spec {a : Int} (h1 : -(2 ^ 63) ≤ a) (h2 : a < 2 ^ 63) :
    (of_long_long a).canonical ∧ (of_long_long a).value = a := by
  have hval : (if a < 0 then
        if a = -(2 ^ 63) then u64 (u64 ((a + 1).natAbs) + 1)
        else u64 (-a).toNat
      else u64 a.toNat) = a.natAbs := by
    unfold u64
    split
    · split <;> omega
    · omega
  have hlt : a.natAbs < 2 ^ 64 := by omega
  obtain ⟨hw, hv⟩ := pushWords_spec hlt
  have hd : of_long_long a = trim ⟨pushWords 2 a.natAbs, decide (a < 0)⟩ := by
    unfold of_long_long
    simp only [hval]
  rw [hd]
  refine ⟨⟨trim_Words hw, trim_Trimmed _, ?_⟩, ?_⟩
  · intro h0
    have h3 : valAbs (trim ⟨pushWords 2 a.natAbs, decide (a < 0)⟩)._data = 0 := by
      rw [h0]; rfl
    rw [trim_valAbs, hv] at h3
    rw [trim_sign]
    simp only [decide_eq_false_iff_not]
    omega
  · rw [value_eq, trim_valAbs, trim_sign, hv]
    by_cases hn : a < 0
    · simp only [hn, decide_True, if_true]; omega
    · simp only [hn, decide_False]; simp only [Bool.false_eq_true, if_false]; omega

/-- C25: construction from a native integer is exact: for every signed 64-bit `a`
(`LLONG_MIN` included) and every unsigned 64-bit `n` the constructed value is canonical and
its value is the argument; the `int` constructor is the `long long` one, the `unsigned int`
one is exact for every 32-bit `w`; `LLONG_MIN` gives the magnitude `2^63`, zero gives the
empty magnitude with `_sign = false`. -/
theorem native_constructors_exact (a : Int) (n w : Nat) (h1 : -(2 ^ 63) ≤ a) (h2 : a < 2 ^ 63)
    (hn : n < 2 ^ 64) (hw : w < 2 ^ 32) :
    ((of_long_long a).canonical ∧ (of_long_long a).value = a) ∧
    ((of_unsigned_long_long n).canonical ∧ (of_unsigned_long_long n).value = n) ∧
    (of_int a = of_long_long a) ∧
    ((of_unsigned_int w).canonical ∧ (of_unsigned_int w).value = w) ∧
    of_long_long (-(2 ^ 63)) = ⟨[0, 2147483648], true⟩ ∧
    of_long_long (2 ^ 63 - 1) = ⟨[4294967295, 2147483647], false⟩ ∧
    of_unsigned_long_long (2 ^ 64 - 1) = ⟨[4294967295, 4294967295], false⟩ ∧
    of_long_long 0 = ⟨[], false⟩ ∧ of_unsigned_long_long 0 = ⟨[], false⟩ := by
  refine ⟨of_long_long_spec h1 h2, of_unsigned_long_long_spec hn, rfl,
    of_unsigned_int_spec hw, ?_, ?_, ?_, ?_, ?_⟩ <;> decide

theorem native_constructors_exact_witness :
    ((of_long_long (-9223372036854775807)).canonical ∧
      (of_long_long (-9223372036854775807)).value = -9223372036854775807) ∧
    ((of_unsigned_long_long 18446744073709551615).canonical ∧
      (of_unsigned_long_long 18446744073709551615).value = (18446744073709551615 : Nat)) ∧
    (of_int (-9223372036854775807) = of_long_long (-9223372036854775807)) ∧
    ((of_unsigned_int 4294967295).canonical ∧
      (of_unsigned_int 4294967295).value = (4294967295 : Nat)) ∧
    of_long_long (-(2 ^ 63)) = ⟨[0, 2147483648], true⟩ ∧
    of_long_long (2 ^ 63 - 1) = ⟨[4294967295, 2147483647], false⟩ ∧
    of_unsigned_long_long (2 ^ 64 - 1) = ⟨[4294967295, 4294967295], false⟩ ∧
    of_long_long 0 = ⟨[], false⟩ ∧ of_unsigned_long_long 0 = ⟨[], false⟩ :=
  native_constructors_exact (-9223372036854775807) 18446744073709551615 4294967295
    (by decide) (by decide) (by decide) (by decide)

end big_integer

/-! ### Increment and decrement -/

theorem subDigitAbs_loop_carry_fst :
    ∀ (n i : Nat) (d : List Nat) (c : Nat),
      big_integer.subDigitAbs_loop n i d c = (big_integer.subDigitAbs_loop_carry n i d c).1 := by
  intro n
  induction n with
  | zero => intro i d c; rfl
  | succ n ih =>
    intro i d c
    simp only [big_integer.subDigitAbs_loop, big_integer.subDigitAbs_loop_carry]
    split
    · exact ih _ _ _
    · exact ih _ _ _

theorem subDigitAbs_loop_spec :
    ∀ (rest pre : List Nat) (c : Nat), c < base → Words rest →
      ∃ (rest' : List Nat) (c' : Nat),
        big_integer.subDigitAbs_loop_carry rest.length pre.length (pre ++ rest) c
          = (pre ++ rest', c') ∧
        rest'.length = rest.length ∧ Words rest' ∧ c' < base ∧
        valAbs rest' + c = valAbs rest + base ^ rest.length * c' := by
  intro rest
  induction rest with
  | nil =>
    intro pre c hc _
    exact ⟨[], c, by simp [big_integer.subDigitAbs_loop_carry], rfl, Words_nil, hc, by simp⟩
  | cons x rest0 ih =>
    intro pre c hc hw
    obtain ⟨hx, hw0⟩ := Words_cons.1 hw
    have hbase : base = 4294967296 := rfl
    by_cases hneg : (x : Int) - (c : Int) < 0
    · obtain ⟨rest', c', heq, hl', hw', hc', hv'⟩ := ih (pre ++ [x + base - c]) 1 (by decide) hw0
      have hcast : (x : Int) - (c : Int) + (base : Nat) = ((x + base - c : Nat) : Int) := by omega
      refine ⟨(x + base - c) :: rest', c', ?_, by simp [hl'], Words_cons.2 ⟨by omega, hw'⟩, hc',
        ?_⟩
      · simp only [List.length_cons, big_integer.subDigitAbs_loop_carry, getD_append_length,
          hneg, if_true, set_append_length, hcast]
        rw [u32OfInt_natCast (by omega)]
        simpa using heq
      · simp only [valAbs_cons, List.length_cons, Nat.pow_succ]
        have e : base * (valAbs rest' + 1) = base * valAbs rest' + base := by ring
        have e2 : base ^ rest0.length * base * c' = base * (base ^ rest0.length * c') := by ring
        have e3 : base * (valAbs rest0 + base ^ rest0.length * c')
            = base * valAbs rest0 + base * (base ^ rest0.length * c') := by ring
        rw [e2]
        rw [hv'] at e
        omega
    · obtain ⟨rest', c', heq, hl', hw', hc', hv'⟩ := ih (pre ++ [x - c]) 0 (by decide) hw0
      have hcast : (x : Int) - (c : Int) = ((x - c : Nat) : Int) := by omega
      refine ⟨(x - c) :: rest', c', ?_, by simp [hl'], Words_cons.2 ⟨by omega, hw'⟩, hc', ?_⟩
      · simp only [List.length_cons, big_integer.subDigitAbs_loop_carry, getD_append_length,
          hneg, if_false, set_append_length]
        rw [hcast, u32OfInt_natCast (by omega)]
        simpa using heq
      · simp only [valAbs_cons, List.length_cons, Nat.pow_succ]
        have e2 : base ^ rest0.length * base * c' = base * (base ^ rest0.length * c') := by ring
        have e3 : base * (valAbs rest0 + base ^ rest0.length * c')
            = base * valAbs rest0 + base * (base ^ rest0.length * c') := by ring
        simp only [Nat.add_zero] at hv'
        rw [e2]
        rw [hv'] at *
        omega

namespace big_integer

/-- `subDigitAbs` subtracts a word from a magnitude that is not smaller: the final
`carry_flag` is zero. -/
theorem subDigitAbs_spec {x : big_integer} {b : Nat} (hx : Words x._data) (hb : b < base)
    (hle : b ≤ valAbs x._data) :
    Words (x.subDigitAbs b)._data ∧ Trimmed (x.subDigitAbs b)._data ∧
    valAbs (x.subDigitAbs b)._data = valAbs x._data - b ∧
    (x.subDigitAbs b)._sign = x._sign ∧
    (subDigitAbs_loop_carry x._data.length 0 x._data b).2 = 0 := by
  obtain ⟨rest', c', heq, hl', hw', hc', hv'⟩ := subDigitAbs_loop_spec x._data [] b hb hx
  simp only [List.length_nil, List.nil_append] at heq
  have hlt := valAbs_lt hw'
  rw [hl'] at hlt
  have hc0 : c' = 0 := by
    by_contra hne
    have : base ^ x._data.length * 1 ≤ base ^ x._data.length * c' :=
      Nat.mul_le_mul_left _ (Nat.one_le_iff_ne_zero.2 hne)
    omega
  rw [hc0] at hv'
  simp only [Nat.mul_zero, Nat.add_zero] at hv'
  have hd : (x.subDigitAbs b)._data = rest'.rdropWhile (fun w => w == 0) := by
    simp only [subDigitAbs, trim_data, subDigitAbs_loop_carry_fst, heq]
  rw [hd, heq]
  refine ⟨Words_rdrop hw', Trimmed_rdrop _, ?_, rfl, hc0⟩
  rw [valAbs_rdrop]; omega

/-- `sumDigitAbs` keeps a trimmed magnitude trimmed. -/
theorem sumDigitAbs_Trimmed {x : big_integer} {b : Nat} (hx : Words x._data) (hb : b < base)
    (ht : Trimmed x._data) : Trimmed (x.sumDigitAbs b)._data := by
  obtain ⟨rest', f', heq, hl', hw', hf', hv'⟩ := sumDigitAbs_loop_spec x._data [] b hb hx
  simp only [List.length_nil, List.nil_append] at heq
  have hd : (x.sumDigitAbs b)._data = if f' ≠ 0 then rest' ++ [f'] else rest' := by
    simp only [sumDigitAbs, heq]
  rw [hd]
  split
  · next h => exact Trimmed_concat.2 h
  · next h =>
    have h0 : f' = 0 := by simpa using h
    rw [h0] at hv'
    simp only [Nat.mul_zero, Nat.add_zero] at hv'
    by_cases hne : x._data = []
    · have : rest' = [] := List.eq_nil_of_length_eq_zero (by rw [hl', hne]; rfl)
      rw [this]; exact Trimmed_nil
    · apply Trimmed_of_ge hw'
      rw [hl', hv']
      exact le_trans (valAbs_ge ht hne) (Nat.le_add_right _ _)

/-- The prefix `++` on a canonical value. -/
theorem operator_inc_spec {x : big_integer} (hx : x.canonical) :
    (operator_inc x).canonical ∧ (operator_inc x).value = x.value + 1 := by
  unfold operator_inc
  cases hs : x._sign with
  | true =>
    have hpos := valAbs_pos_of_sign hx hs
    obtain ⟨hw, ht, hv, hsg, _⟩ := subDigitAbs_spec (b := 1) hx.1 (by decide) hpos
    simp only [if_true]
    refine ⟨zeroResult_canonical hw ht, ?_⟩
    rw [zeroResult_value, value_eq, value_eq, hsg, hs, hv]
    simp only [if_true]
    omega
  | false =>
    obtain ⟨hw, hv, hsg⟩ := sumDigitAbs_spec (b := 1) hx.1 (by decide)
    have ht := sumDigitAbs_Trimmed (b := 1) hx.1 (by decide) hx.2.1
    simp only [Bool.false_eq_true, if_false]
    refine ⟨zeroResult_canonical hw ht, ?_⟩
    rw [zeroResult_value, value_eq, value_eq, hsg, hs, hv]
    simp only [Bool.false_eq_true, if_false]
    omega

/-- The prefix `--` on a canonical value. -/
theorem operator_dec_spec {x : big_integer} (hx : x.canonical) :
    (operator_dec x).canonical ∧ (operator_dec x).value = x.value - 1 := by
  unfold operator_dec
  cases hs : x._sign with
  | true =>
    obtain ⟨hw, hv, hsg⟩ := sumDigitAbs_spec (b := 1) hx.1 (by decide)
    have ht := sumDigitAbs_Trimmed (b := 1) hx.1 (by decide) hx.2.1
    simp only [if_true]
    refine ⟨zeroResult_canonical hw ht, ?_⟩
    rw [zeroResult_value, value_eq, value_eq, hsg, hs, hv]
    simp only [if_true]
    omega
  | false =>
    simp only [Bool.false_eq_true, if_false]
    by_cases hz : x.isZero = true
    · have hd : x._data = [] := by unfold isZero at hz; simpa using hz
      rw [if_pos hz, hd]
      refine ⟨by decide, ?_⟩
      rw [value_eq (x := x), hs, hd]
      decide
    · have hd : x._data ≠ [] := by unfold isZero at hz; simpa using hz
      have hpos : 1 ≤ valAbs x._data := valAbs_pos hx.2.1 hd
      obtain ⟨hw, ht, hv, hsg, _⟩ := subDigitAbs_spec (b := 1) hx.1 (by decide) hpos
      rw [if_neg hz]
      refine ⟨zeroResult_canonical hw ht, ?_⟩
      rw [zeroResult_value, value_eq, value_eq, hsg, hs, hv]
      simp only [Bool.false_eq_true, if_false]
      omega

end big_integer

/-! ### The representation invariants across the public operations -/

namespace big_integer

theorem zeroResult_sign_of_nil (x : big_integer) (h : x.zeroResult._data = []) :
    x.zeroResult._sign = false := by
  rw [zeroResult_data] at h
  unfold zeroResult isZero
  simp [h]

theorem applyBitWiseOp_Trimmed (x rhs : big_integer) (op : BitWiseOperation) :
    Trimmed (x.applyBitWiseOp rhs op)._data := by
  simp only [applyBitWiseOp]
  exact trim_Trimmed _

/-- The outcome of `/=` and `%=` on canonical operands: with a zero divisor both throw and
leave the receiver as it was, otherwise both return and leave a canonical receiver. -/
theorem div_mod_receiver {fuel : Nat} (hf : base ≤ fuel) {a b : big_integer} (ha : a.canonical)
    (hb : b.canonical) :
    (operator_div_eq fuel a b).1.canonical ∧ (operator_mod_eq fuel a b).1.canonical ∧
    (operator_div_eq fuel a b).2 ≠ .diverges ∧ (operator_mod_eq fuel a b).2 ≠ .diverges := by
  by_cases h0 : b._data = []
  · have hz : b.isZero = true := by unfold isZero; simp [h0]
    have e : bigDivision fuel a b = (a, .throws .runtime_error) := by
      simp only [bigDivision, hz, if_true]
    simp only [operator_div_eq, operator_mod_eq, e]
    exact ⟨ha, ha, by simp, by simp⟩
  · obtain ⟨q, r, hq, hr, hqc, hrc, _⟩ := div_mod_spec hf ha hb h0
    rw [hq, hr]
    exact ⟨hqc, hrc, by simp, by simp⟩

/-- `>>=` on a canonical value of either sign returns a canonical value. -/
theorem operator_shr_eq_canonical {a : big_integer} (ha : a.canonical) (k : Nat) :
    ∃ y : big_integer, operator_shr_eq a k = .ok y ∧ y.canonical := by
  unfold operator_shr_eq
  by_cases hc : k / 32 ≥ a._data.length
  · rw [if_pos hc]
    exact ⟨⟨[], false⟩, rfl, by decide⟩
  · rw [if_neg hc]
    have hlt : 2 ^ (k % 32) < base := two_pow_lt_base (Nat.mod_lt _ (by decide))
    have hu : u32 (2 ^ (k % 32)) = 2 ^ (k % 32) := u32_of_lt hlt
    have hwd : Words (a._data.drop (k / 32)) := fun w hw => ha.1 w (List.mem_of_mem_drop hw)
    obtain ⟨y, r, hswd, hyw, hyt, hyv, _, hys⟩ :=
      singleWordDiv_spec (x := { a with _data := a._data.drop (k / 32) }) hwd
        (pow_pos (by decide) (k % 32)) hlt
    have hyc : y.canonical := by
      refine ⟨hyw, hyt, fun h => ?_⟩
      rw [hys, if_pos h]
    rw [hu, hswd]
    by_cases hs : y._sign = true
    · exact ⟨y.operator_dec, by simp only; rw [if_pos hs], (operator_dec_spec hyc).1⟩
    · exact ⟨y, by simp only; rw [if_neg hs], hyc⟩

/-- The string constructor ends with `trim()`. -/
theorem of_string_Trimmed {s : List Char} {y : big_integer} (h : of_string s = .ok y) :
    Trimmed y._data := by
  simp only [of_string] at h
  split at h
  · exact absurd h (by simp)
  · split at h
    · exact absurd h (by simp)
    · split at h
      · next x _ =>
        have e : y = x.trim := by
          injection h with h
          exact h.symm
        rw [e]
        exact trim_Trimmed _
      · exact absurd h (by simp)
      · exact absurd h (by simp)

/-- Zero has `_sign = false` after every public operation on canonical operands that are
separate objects, other than the string constructor and `operator~`. -/
theorem zero_sign_kept {fuel : Nat} (hf : base ≤ fuel) {a b : big_integer} (ha : a.canonical)
    (hb : b.canonical) (k n : Nat) (i : Int) :
    ((of_unsigned_long_long n)._data = [] → (of_unsigned_long_long n)._sign = false) ∧
    ((of_long_long i)._data = [] → -(2 ^ 63) ≤ i → i < 2 ^ 63 → (of_long_long i)._sign = false) ∧
    ((operator_plus_eq a b)._data = [] → (operator_plus_eq a b)._sign = false) ∧
    ((operator_minus_eq a b)._data = [] → (operator_minus_eq a b)._sign = false) ∧
    ((operator_mul_eq a b)._data = [] → (operator_mul_eq a b)._sign = false) ∧
    ((operator_div_eq fuel a b).1._data = [] → (operator_div_eq fuel a b).1._sign = false) ∧
    ((operator_mod_eq fuel a b).1._data = [] → (operator_mod_eq fuel a b).1._sign = false) ∧
    ((operator_and_eq a b)._data = [] → (operator_and_eq a b)._sign = false) ∧
    ((operator_or_eq a b)._data = [] → (operator_or_eq a b)._sign = false) ∧
    ((operator_xor_eq a b)._data = [] → (operator_xor_eq a b)._sign = false) ∧
    ((operator_shl_eq a k)._data = [] → (operator_shl_eq a k)._sign = false) ∧
    (∃ y : big_integer, operator_shr_eq a k = .ok y ∧ (y._data = [] → y._sign = false)) ∧
    ((operator_neg a)._data = [] → (operator_neg a)._sign = false) ∧
    ((operator_inc a)._data = [] → (operator_inc a)._sign = false) ∧
    ((operator_dec a)._data = [] → (operator_dec a)._sign = false) := by
  obtain ⟨hd, hm, _, _⟩ := div_mod_receiver hf ha hb
  obtain ⟨y, hy, hyc⟩ := operator_shr_eq_canonical ha k
  refine ⟨fun _ => rfl, ?_, (operator_plus_eq_spec ha hb).1.2.2, (operator_minus_eq_spec ha hb).1.2.2,
    (operator_mul_eq_spec ha hb).1.2.2, hd.2.2, hm.2.2, zeroResult_sign_of_nil _,
    zeroResult_sign_of_nil _, zeroResult_sign_of_nil _, (operator_shl_canonical ha k).1.2.2,
    ⟨y, hy, hyc.2.2⟩, ?_, (operator_inc_spec ha).1.2.2, (operator_dec_spec ha).1.2.2⟩
  · intro h0 h1 h2
    exact (of_long_long_spec h1 h2).1.2.2 h0
  · intro h0
    unfold operator_neg isZero at h0 ⊢
    split
    · next h => rw [if_pos h] at h0; simp only at h0; rw [h0] at h; simp at h
    · next h => rw [if_neg h] at h0; exact ha.2.2 h0

/-- On operands that are separate objects, after every public operation on canonical
operands the word sequence of the result is trimmed (empty, or its last word is not zero):
the constructors (default, native for any argument, string whenever it returns), `+=`, `-=`,
`*=`, `/=`, `%=` (which do not diverge; with a zero divisor they throw and leave the receiver
as it was), `&=`, `|=`, `^=`, `<<=`, `>>=` (which returns), unary `-` and `+`, `~`, `++` and
`--`. -/
theorem trimmed_on_separate_operands (fuel : Nat) (a b : big_integer) (k n : Nat) (i : Int)
    (s : List Char) (hf : base ≤ fuel) (ha : a.canonical) (hb : b.canonical) :
    Trimmed mk0._data ∧ Trimmed (of_unsigned_long_long n)._data ∧
    Trimmed (of_long_long i)._data ∧
    (∀ y : big_integer, of_string s = .ok y → Trimmed y._data) ∧
    Trimmed (operator_plus_eq a b)._data ∧ Trimmed (operator_minus_eq a b)._data ∧
    Trimmed (operator_mul_eq a b)._data ∧
    (Trimmed (operator_div_eq fuel a b).1._data ∧ (operator_div_eq fuel a b).2 ≠ .diverges) ∧
    (Trimmed (operator_mod_eq fuel a b).1._data ∧ (operator_mod_eq fuel a b).2 ≠ .diverges) ∧
    Trimmed (operator_and_eq a b)._data ∧ Trimmed (operator_or_eq a b)._data ∧
    Trimmed (operator_xor_eq a b)._data ∧
    Trimmed (operator_shl_eq a k)._data ∧
    (∃ y : big_integer, operator_shr_eq a k = .ok y ∧ Trimmed y._data) ∧
    Trimmed (operator_neg a)._data ∧ Trimmed (operator_pos a)._data ∧
    Trimmed (operator_not a)._data ∧
    Trimmed (operator_inc a)._data ∧ Trimmed (operator_dec a)._data := by
  obtain ⟨hd, hm, hdd, hmd⟩ := div_mod_receiver hf ha hb
  obtain ⟨y, hy, hyc⟩ := operator_shr_eq_canonical ha k
  have hbit : ∀ op : BitWiseOperation, Trimmed (zeroResult (a.applyBitWiseOp b op))._data := by
    intro op
    rw [zeroResult_data]
    exact applyBitWiseOp_Trimmed a b op
  refine ⟨Trimmed_nil, trim_Trimmed _, trim_Trimmed _, fun y h => of_string_Trimmed h,
    (operator_plus_eq_spec ha hb).1.2.1, (operator_minus_eq_spec ha hb).1.2.1,
    (operator_mul_eq_spec ha hb).1.2.1, ⟨hd.2.1, hdd⟩, ⟨hm.2.1, hmd⟩, hbit _, hbit _, hbit _,
    (operator_shl_canonical ha k).1.2.1, ⟨y, hy, hyc.2.1⟩, ?_, ha.2.1,
    (operator_inc_spec ha).1.2.1, (operator_inc_spec ha).1.2.1, (operator_dec_spec ha).1.2.1⟩
  unfold operator_neg
  split
  · exact ha.2.1
  · exact ha.2.1

/-- C23 (the code departs from the claim): two public operations return a negative zero, an
empty magnitude with `_sign = true`, from valid inputs: the string constructor on `"-0"`
(and on `"-000"`), and `operator~` on the canonical `-1`. Neither result is
`== big_integer(0)`. -/
theorem negative_zero_returned :
    of_string "-0".toList = .ok ⟨[], true⟩ ∧
    of_string "-000".toList = .ok ⟨[], true⟩ ∧
    (of_int (-1)).canonical ∧
    operator_not (of_int (-1)) = ⟨[], true⟩ ∧
    ¬ (⟨[], true⟩ : big_integer).canonical ∧
    operator_eq ⟨[], true⟩ (of_int 0) = false := by
  decide

end big_integer

/-! ### The trial quotient digit of the long division -/

namespace big_integer

/-- The counted correction loop is the correction loop. -/
theorem correction_count_loop (b : big_integer) (i : Nat) :
    ∀ (fuel : Nat) (x : big_integer) (res : List Nat) (c : Nat),
      correction_loop b i fuel x res
        = (correction_count b i fuel x res c).map (fun r => (r.1, r.2.1)) := by
  intro fuel
  induction fuel with
  | zero =>
    intro x res c
    simp only [correction_loop, correction_count]
    split <;> rfl
  | succ fuel ih =>
    intro x res c
    simp only [correction_loop, correction_count]
    split
    · exact ih _ _ _
    · rfl

/-- The recorded `for` loop is the `for` loop of `bigDivision`. -/
theorem division_trace_loop (fuel : Nat) (sb : List Nat) :
    ∀ (c : Nat) (x b : big_integer) (res : List Nat),
      division_loop fuel sb c x b res
        = (division_trace fuel sb c x b res).map (fun r => (r.1, r.2.1, r.2.2.1)) := by
  intro c
  induction c with
  | zero => intro x b res; rfl
  | succ i ih =>
    intro x b res
    simp only [division_loop, division_trace]
    rw [correction_count_loop _ _ _ _ _ 0]
    cases correction_count _ i fuel _ _ 0 with
    | none => rfl
    | some r =>
      simp only [Option.map_some']
      rw [ih]
      cases division_trace fuel sb i r.1 _ r.2.1 with
      | none => rfl
      | some r2 => rfl

/-- The recorded division is `bigDivision` when both kinds of loop are given the same
allowance. -/
theorem bigDivision_trace_fst (fuel : Nat) (x rhs : big_integer) :
    (bigDivision_trace fuel fuel x rhs).1 = bigDivision fuel x rhs := by
  unfold bigDivision_trace bigDivision
  split
  · rfl
  · split
    · rfl
    · simp only
      cases normalize_loop fuel { rhs with _sign := false } 0 with
      | none => rfl
      | some r =>
        simp only
        rw [division_trace_loop]
        cases division_trace fuel r.1._data _ _ _ _ with
        | none => rfl
        | some r2 =>
          simp only [Option.map_some']
          cases r2.1.trim.singleWordDiv (u32 (2 ^ r.2)) with
          | ok p => rfl
          | throws e => rfl
          | diverges => rfl

end big_integer

namespace big_integer

end big_integer

namespace big_integer

/-- The record of the division of `2^128 - 2^96` by `-(2^63 + 2^32 - 1)`: at position 1 the
trial digit `2^32 - 4` is corrected twice, at position 0 the trial digit `15` is kept. -/
theorem bigDivision_trace_example :
    bigDivision_trace 31 2 ⟨[0, 0, 0, 4294967295], false⟩ ⟨[4294967295, 2147483648], true⟩
      = ((⟨[15, 4294967290, 1], true⟩, .ok ⟨[15, 2147483627], false⟩),
          [(1, 4294967292, 2), (0, 15, 0)]) := by
  decide

end big_integer

/-! ### The precondition of the magnitude subtraction -/

theorem drop_eq_cons {L : List Nat} {i x : Nat} {r : List Nat} (h : L.drop i = x :: r) :
    L.getD i 0 = x ∧ L.drop (i + 1) = r := by
  constructor
  · rw [List.getD_eq_getElem?_getD]
    have h2 : L[i]? = (L.drop i)[0]? := by rw [List.getElem?_drop]; rfl
    rw [h2, h]
    simp
  · have h3 : L.drop (i + 1) = (L.drop i).drop 1 := by rw [List.drop_drop, Nat.add_comm]
    rw [h3, h]
    rfl

namespace big_integer

end big_integer

namespace big_integer

end big_integer

namespace big_integer

/-- Without the precondition the checked `subAbs` reports it: with a longer subtrahend the
receiver's words are read out of range, with a larger subtrahend of the same length the
final `carry_flag` is true. -/
theorem subAbs_checked_violations :
    subAbs_checked .argument ⟨[5, 7], true⟩ ⟨[3, 9, 1], false⟩ = none ∧
    subAbs_checked .receiver ⟨[5, 7], true⟩ ⟨[3, 9], false⟩
      = some (⟨[2, 4294967294], true⟩, true) := by
  decide

/-! ### The self-aliased compound subtraction -/

theorem sumAbs_loop_self_eq (L : List Nat) :
    ∀ (rest pre : List Nat) (f : Bool), L.drop pre.length = rest →
      L.length = pre.length + rest.length →
      sumAbs_loop_self rest.length pre.length (pre ++ rest) f
        = sumAbs_loop L rest.length pre.length (pre ++ rest) f := by
  intro rest
  induction rest with
  | nil => intro pre f _ _; rfl
  | cons x rest0 ih =>
    intro pre f hL hLl
    obtain ⟨hLx, hL0⟩ := drop_eq_cons hL
    have hin : pre.length < (pre ++ x :: rest0).length := by simp
    have hLin : pre.length < L.length := by rw [hLl]; simp
    simp only [List.length_cons, sumAbs_loop_self, sumAbs_loop, getD_append_length, hin, hLin,
      if_true, hLx, set_append_length]
    have h := ih (pre ++ [u32 (if decide (u64 (u64 (x + x) + f.toNat) ≥ base) = true then
        u64 (u64 (x + x) + f.toNat) - base else u64 (u64 (x + x) + f.toNat))])
      (decide (u64 (u64 (x + x) + f.toNat) ≥ base))
      (by simpa using hL0) (by simp at hLl ⊢; omega)
    simpa using h

/-- `sumAbs` with the receiver as its own argument doubles the magnitude as `sumAbs` on two
equal operands does. -/
theorem sumAbs_self_eq (x : big_integer) : x.sumAbs_self = x.sumAbs x := by
  have hst : x.stretch x._data.length = x := by unfold stretch; simp
  have h := sumAbs_loop_self_eq x._data x._data [] false rfl (by simp)
  simp only [List.length_nil, List.nil_append] at h
  simp only [sumAbs_self, sumAbs, hst, h]

theorem operator_plus_eq_self_eq (x : big_integer) :
    x.operator_plus_eq_self = x.operator_plus_eq x := by
  simp only [operator_plus_eq_self, operator_plus_eq, if_true, sumAbs_self_eq]

/-- `a -= a` on a canonical `a` leaves the canonical value of `2 * a`. -/
theorem operator_minus_eq_self_spec {a : big_integer} (ha : a.canonical) :
    (operator_minus_eq_self a).canonical ∧ (operator_minus_eq_self a).value = 2 * a.value := by
  obtain ⟨hw, ht, hv, _⟩ := @operator_plus_eq_core { a with _sign := !a._sign }
    { a with _sign := !a._sign } ha.1 ha.2.1 ha.1 ha.2.1
  unfold operator_minus_eq_self
  simp only [operator_plus_eq_self_eq]
  refine ⟨zeroResult_canonical hw ht, ?_⟩
  rw [zeroResult_value, value_flip, hv, value_flip]
  ring

/-- C28 (the code departs from the claim): `a -= a` with the right operand bound to the
receiver leaves `2 * a`, not zero, for every canonical `a`: the flipped sign is seen through
`rhs`, so `operator+=` finds equal signs and adds the magnitude to itself. The result is
`== a - a` only for `a = 0`. Instances: `5` gives `10`, `-7` gives `-14`, `2^64 - 1` gives
`2^65 - 2`. -/
theorem self_subtraction_doubles (a : big_integer) (ha : a.canonical) :
    (operator_minus_eq_self a).canonical ∧ (operator_minus_eq_self a).value = 2 * a.value ∧
    (operator_eq (operator_minus_eq_self a) (operator_minus a a) = true ↔ a.value = 0) ∧
    operator_minus_eq_self (of_int 5) = of_int 10 ∧
    operator_minus (of_int 5) (of_int 5) = of_int 0 ∧
    operator_eq (operator_minus_eq_self (of_int 5)) (of_int 0) = false ∧
    operator_minus_eq_self (of_int (-7)) = of_int (-14) ∧
    operator_minus_eq_self ⟨[4294967295, 4294967295], false⟩
      = ⟨[4294967294, 4294967295, 1], false⟩ ∧
    operator_minus_eq_self (of_int 0) = of_int 0 := by
  obtain ⟨hc, hv⟩ := operator_minus_eq_self_spec ha
  obtain ⟨hmc, hmv⟩ := operator_minus_eq_spec ha ha
  refine ⟨hc, hv, ?_, ?_, ?_, ?_, ?_, ?_, ?_⟩
  · rw [operator_eq_iff]
    constructor
    · intro h
      have h2 := congrArg big_integer.value h
      rw [hv] at h2
      have h3 : (operator_minus a a).value = a.value - a.value := hmv
      rw [h3] at h2
      omega
    · intro h
      apply canonical_ext hc hmc
      rw [hv, hmv, h]
      rfl
  all_goals decide

theorem self_subtraction_doubles_witness :
    (operator_minus_eq_self ⟨[7, 3], true⟩).canonical ∧
    (operator_minus_eq_self ⟨[7, 3], true⟩).value = 2 * (⟨[7, 3], true⟩ : big_integer).value ∧
    (operator_eq (operator_minus_eq_self ⟨[7, 3], true⟩)
        (operator_minus ⟨[7, 3], true⟩ ⟨[7, 3], true⟩) = true
      ↔ (⟨[7, 3], true⟩ : big_integer).value = 0) ∧
    operator_minus_eq_self (of_int 5) = of_int 10 ∧
    operator_minus (of_int 5) (of_int 5) = of_int 0 ∧
    operator_eq (operator_minus_eq_self (of_int 5)) (of_int 0) = false ∧
    operator_minus_eq_self (of_int (-7)) = of_int (-14) ∧
    operator_minus_eq_self ⟨[4294967295, 4294967295], false⟩
      = ⟨[4294967294, 4294967295, 1], false⟩ ∧
    operator_minus_eq_self (of_int 0) = of_int 0 :=
  self_subtraction_doubles ⟨[7, 3], true⟩ (by decide)

end big_integer

/-! ### The self-aliased compound multiplication -/

namespace big_integer

end big_integer
